import Mathlib

/-!
# iprange: parsing of IP ranges and the `Range` value type

A shallow embedding of `range.go` and `parse.go`, together with models of the
library functions they call (`net/netip`, `go4.org/netipx`, `net`, `regexp`,
`strings`, `fmt`).

Conventions of the embedding:

* a Go `string` is a `List Char` (`Str`); the tokens that the parser accepts are
  ASCII, for which bytes and characters coincide;
* the 128-bit integer held by a `netip.Addr` is a `Nat`, reduced modulo `2^128`
  where the Go code can wrap around;
* a nilable `Range` interface value is an `Option ipRange`;
* library errors whose text the repository discards are `none`;
* loops with a bound known from the code are structural recursions on that
  bound; the unbounded loop of `rangeIps` takes an explicit iteration budget.
-/

namespace iprange

/-- A Go string, as the list of its characters. -/
abbrev Str := List Char

/-! ## Model of `net/netip.Addr` -/

/-- The `z` field of a `netip.Addr`: `z0` for the zero `Addr`, `z4` for an IPv4
address, and `z6 zone` for an IPv6 address (`z6 []` is `z6noz`, no zone). -/
inductive Zone where
  | z0 : Zone
  | z4 : Zone
  | z6 (zone : Str) : Zone
deriving DecidableEq, Repr

/-- A `netip.Addr`: the 128-bit value `addr` (an IPv4 address is held in its
IPv4-mapped form `::ffff:a.b.c.d`) and the family/zone tag `z`. -/
structure Addr where
  addr : Nat
  z : Zone
deriving DecidableEq, Repr

/-- The modulus of `uint128` arithmetic. -/
def two128 : Nat := 2 ^ 128

/-- The modulus of `uint32` arithmetic. -/
def two32 : Nat := 2 ^ 32

/-- Go's byte-wise `<` on strings. -/
def strLess : Str → Str → Bool
  | [], [] => false
  | [], _ :: _ => true
  | _ :: _, [] => false
  | a :: as, b :: bs => a.toNat < b.toNat || (a.toNat == b.toNat && strLess as bs)

namespace Addr

/-- The zero `Addr{}`, which is not a valid address. -/
def zero : Addr := ⟨0, Zone.z0⟩

/-- `netip.AddrFrom4`: the IPv4 address with bytes `a.b.c.d`. -/
def from4 (a b c d : Nat) : Addr :=
  ⟨0xffff00000000 + (a * 2 ^ 24 + b * 2 ^ 16 + c * 2 ^ 8 + d), Zone.z4⟩

/-- `Addr.IsValid`. -/
def IsValid (ip : Addr) : Bool := ip.z != Zone.z0

/-- `Addr.Is4`. -/
def Is4 (ip : Addr) : Bool := ip.z == Zone.z4

/-- `Addr.Is6`. -/
def Is6 (ip : Addr) : Bool := ip.z != Zone.z0 && ip.z != Zone.z4

/-- `Addr.BitLen`: 0 for the zero `Addr`, 32 for IPv4, 128 for IPv6. -/
def BitLen (ip : Addr) : Nat :=
  match ip.z with
  | Zone.z0 => 0
  | Zone.z4 => 32
  | Zone.z6 _ => 128

/-- `Addr.Zone`: the zone of an IPv6 address, empty otherwise. -/
def Zone (ip : Addr) : Str :=
  match ip.z with
  | Zone.z6 zone => zone
  | _ => []

/-- `Addr.WithZone`: only IPv6 addresses carry a zone. -/
def WithZone (ip : Addr) (zone : Str) : Addr :=
  if !ip.Is6 then ip else ⟨ip.addr, Zone.z6 zone⟩

/-- `Addr.Is4In6`: an IPv6 address of the form `::ffff:a.b.c.d`. -/
def Is4In6 (ip : Addr) : Bool := ip.Is6 && ip.addr / two32 == 0xffff

/-- `Addr.Unmap`: an IPv4-mapped IPv6 address becomes the IPv4 address. -/
def Unmap (ip : Addr) : Addr :=
  if ip.Is4In6 then ⟨ip.addr, Zone.z4⟩ else ip

/-- `Addr.Compare`: by bit length first, then by the 128-bit value, then (for
IPv6) by zone. The result is -1, 0 or 1. -/
def Compare (ip ip2 : Addr) : Int :=
  let f1 := ip.BitLen
  let f2 := ip2.BitLen
  if f1 < f2 then -1
  else if f1 > f2 then 1
  else if ip.addr < ip2.addr then -1
  else if ip.addr > ip2.addr then 1
  else if ip.Is6 then
    let za := ip.Zone
    let zb := ip2.Zone
    if strLess za zb then -1
    else if strLess zb za then 1
    else 0
  else 0

/-- `Addr.Less`. -/
def Less (ip ip2 : Addr) : Bool := ip.Compare ip2 == -1

/-- `Addr.Next`: the following address, or the zero `Addr` on overflow. The zone
tag is kept, so the successor of an invalid `Addr` is again invalid. -/
def Next (ip : Addr) : Addr :=
  let a := (ip.addr + 1) % two128
  if ip.Is4 then
    if a % two32 == 0 then zero else ⟨a, ip.z⟩
  else
    if a == 0 then zero else ⟨a, ip.z⟩

/-- `Addr.Prev`: the preceding address, or the zero `Addr` on underflow. -/
def Prev (ip : Addr) : Addr :=
  if ip.Is4 then
    if ip.addr % two32 == 0 then zero else ⟨(ip.addr + two128 - 1) % two128, ip.z⟩
  else if ip.addr == 0 then zero
  else ⟨(ip.addr + two128 - 1) % two128, ip.z⟩

/-- Byte `i` (0 is the most significant) of the low 32 bits: `Addr.v4`. -/
def v4 (ip : Addr) (i : Nat) : Nat := ip.addr / 2 ^ ((3 - i) * 8) % 256

/-- Byte `i` (0 is the most significant) of the 128-bit value: `Addr.v6`. -/
def v6 (ip : Addr) (i : Nat) : Nat := ip.addr / 2 ^ ((15 - i) * 8) % 256

/-- 16-bit group `i` (0 is the most significant): `Addr.v6u16`. -/
def v6u16 (ip : Addr) (i : Nat) : Nat := ip.addr / 2 ^ ((7 - i) * 16) % 65536

/-- `Addr.AsSlice`: no bytes for the zero `Addr`, 4 bytes for IPv4, 16 bytes for
IPv6, most significant byte first. -/
def AsSlice (ip : Addr) : List Nat :=
  match ip.z with
  | Zone.z0 => []
  | Zone.z4 => (List.range 4).map ip.v4
  | Zone.z6 _ => (List.range 16).map ip.v6

/-- The digit table `"0123456789abcdef"` of `net/netip`. -/
def digits : Str := "0123456789abcdef".toList

/-- Entry `n` of the digit table. -/
def digit (n : Nat) : Char := digits.getD n '0'

/-- `appendDecimal`: a byte in decimal without leading zeros. -/
def appendDecimal (b : Str) (x : Nat) : Str :=
  let b := if x ≥ 100 then b ++ [digit (x / 100)] else b
  let b := if x ≥ 10 then b ++ [digit (x / 10 % 10)] else b
  b ++ [digit (x % 10)]

/-- `appendHex`: a 16-bit group in hexadecimal without leading zeros. -/
def appendHex (b : Str) (x : Nat) : Str :=
  let b := if x ≥ 0x1000 then b ++ [digit (x / 2 ^ 12)] else b
  let b := if x ≥ 0x100 then b ++ [digit (x / 2 ^ 8 % 16)] else b
  let b := if x ≥ 0x10 then b ++ [digit (x / 2 ^ 4 % 16)] else b
  b ++ [digit (x % 16)]

/-- `Addr.appendTo4`: dotted decimal. -/
def appendTo4 (ip : Addr) (ret : Str) : Str :=
  let ret := appendDecimal ret (ip.v4 0)
  let ret := ret ++ ['.']
  let ret := appendDecimal ret (ip.v4 1)
  let ret := ret ++ ['.']
  let ret := appendDecimal ret (ip.v4 2)
  let ret := ret ++ ['.']
  appendDecimal ret (ip.v4 3)

/-- The inner loop of the zero-run search of `appendTo6`:
`for j < 8 && ip.v6u16(j) == 0 { j++ }`, with `n` bounding the iterations. -/
def zeroRunEnd (ip : Addr) : Nat → Nat → Nat
  | 0, j => j
  | n + 1, j => if j < 8 && ip.v6u16 j == 0 then zeroRunEnd ip n (j + 1) else j

/-- The outer loop of the zero-run search of `appendTo6` over `i = 8 - n, ..., 7`:
the longest run of at least two zero groups, the first one when several have
that length. `(255, 255)` stands for no run. -/
def zeroRun (ip : Addr) : Nat → Nat × Nat → Nat × Nat
  | 0, best => best
  | n + 1, best =>
    let i := 8 - (n + 1)
    let j := zeroRunEnd ip 8 i
    let l := j - i
    if l ≥ 2 && l > best.2 - best.1 then zeroRun ip n (i, j) else zeroRun ip n best

/-- The output loop of `appendTo6`, with `n` bounding the iterations left. -/
def appendTo6Loop (ip : Addr) (zeroStart zeroEnd : Nat) : Nat → Nat → Str → Str
  | 0, _, ret => ret
  | n + 1, i, ret =>
    if i < 8 then
      if i == zeroStart then
        let ret := ret ++ [':', ':']
        let i := zeroEnd
        if i ≥ 8 then ret
        else appendTo6Loop ip zeroStart zeroEnd n (i + 1) (appendHex ret (ip.v6u16 i))
      else
        let ret := if i > 0 then ret ++ [':'] else ret
        appendTo6Loop ip zeroStart zeroEnd n (i + 1) (appendHex ret (ip.v6u16 i))
    else ret

/-- `Addr.appendTo6`: the canonical IPv6 text, the longest run of zero groups
written `::`, with `%zone` appended when there is a zone. -/
def appendTo6 (ip : Addr) (ret : Str) : Str :=
  let zr := zeroRun ip 8 (255, 255)
  let ret := appendTo6Loop ip zr.1 zr.2 8 0 ret
  if ip.z != Zone.z6 [] then ret ++ ['%'] ++ ip.Zone else ret

/-- `Addr.String`. -/
def String (ip : Addr) : Str :=
  match ip.z with
  | Zone.z0 => "invalid IP".toList
  | Zone.z4 => ip.appendTo4 []
  | Zone.z6 _ =>
    if ip.Is4In6 then
      let z := ip.Zone
      if z != [] then "::ffff:".toList ++ ip.Unmap.appendTo4 [] ++ ['%'] ++ z
      else "::ffff:".toList ++ ip.Unmap.appendTo4 []
    else ip.appendTo6 []

/-- The invariant of every `netip.Addr` built through the package's API: the
value fits in 128 bits, and an IPv4 address is held IPv4-mapped. -/
def WF (ip : Addr) : Prop :=
  ip.addr < two128 ∧ (ip.z = Zone.z4 → ip.addr / two32 = 0xffff)

/-- The numeric value of an address: the 32-bit value of an IPv4 address, the
128-bit value otherwise. -/
def value (ip : Addr) : Nat := if ip.Is4 then ip.addr % two32 else ip.addr

end Addr

/-! ## Model of the parsers of `net/netip` -/

/-- The test `c >= '0' && c <= '9'` on a byte. -/
def isDigit (c : Char) : Bool := '0'.toNat ≤ c.toNat && c.toNat ≤ '9'.toNat

/-- The value of a hexadecimal digit, as read by the inner loop of `parseIPv6`:
`none` for any other character. -/
def hexVal (c : Char) : Option Nat :=
  if '0'.toNat ≤ c.toNat && c.toNat ≤ '9'.toNat then some (c.toNat - '0'.toNat)
  else if 'a'.toNat ≤ c.toNat && c.toNat ≤ 'f'.toNat then some (c.toNat - 'a'.toNat + 10)
  else if 'A'.toNat ≤ c.toNat && c.toNat ≤ 'F'.toNat then some (c.toNat - 'A'.toNat + 10)
  else none

/-- `strings.IndexByte`: the position of the first `c` in `s`, `none` for -1. -/
def indexByte (s : Str) (c : Char) : Option Nat :=
  match s with
  | [] => none
  | x :: xs => if x == c then some 0 else (indexByte xs c).map (· + 1)

/-- `strings.LastIndexByte`: the position of the last `c` in `s`, `none` for -1. -/
def lastIndexByte (s : Str) (c : Char) : Option Nat :=
  match s with
  | [] => none
  | x :: xs =>
    match lastIndexByte xs c with
    | some i => some (i + 1)
    | none => if x == c then some 0 else none

/-- The loop of `parseIPv4Fields` over the rest of the text. `prev` is the byte
before the current one (`none` at index 0), `val`, `pos` and `digLen` are the
loop variables of the Go code, `fields` the four output bytes. -/
def parseIPv4FieldsLoop : Str → Option Char → Nat → Nat → Nat → List Nat → Option (List Nat)
  | [], _, val, pos, _, fields => if pos < 3 then none else some (fields.set 3 val)
  | c :: rest, prev, val, pos, digLen, fields =>
    if isDigit c then
      if digLen == 1 && val == 0 then none
      else
        let val := val * 10 + (c.toNat - '0'.toNat)
        if val > 255 then none
        else parseIPv4FieldsLoop rest (some c) val pos (digLen + 1) fields
    else if c == '.' then
      if prev.isNone || rest.isEmpty || prev == some '.' then none
      else if pos == 3 then none
      else parseIPv4FieldsLoop rest (some c) 0 (pos + 1) 0 (fields.set pos val)
    else none

/-- `parseIPv4Fields`: the four bytes of a dotted quad, `none` on error. -/
def parseIPv4Fields (s : Str) : Option (List Nat) :=
  parseIPv4FieldsLoop s none 0 0 0 [0, 0, 0, 0]

/-- `parseIPv4`. -/
def parseIPv4 (s : Str) : Option Addr :=
  match parseIPv4Fields s with
  | none => none
  | some fields =>
    some (Addr.from4 (fields.getD 0 0) (fields.getD 1 0) (fields.getD 2 0) (fields.getD 3 0))

/-- The inner loop of `parseIPv6` reading one hexadecimal group: `none` on error,
otherwise the accumulated value, the number `off` of digits read and the text
from `off` on. The accumulator is a `uint32`. -/
def hexLoop : Str → Nat → Nat → Option (Nat × Nat × Str)
  | [], off, acc => some (acc, off, [])
  | c :: cs, off, acc =>
    match hexVal c with
    | none => some (acc, off, c :: cs)
    | some d =>
      let acc := (acc * 16 + d) % two32
      if off > 3 then none
      else if acc > 65535 then none
      else hexLoop cs (off + 1) acc

/-- The copy loop `for j := i - 1; j >= ellipsis; j-- { ip[j+n] = ip[j] }` of
`parseIPv6`, with `k` the number of iterations left (`j = ellipsis + k - 1`). -/
def expandCopy (n ellipsis : Nat) : Nat → List Nat → List Nat
  | 0, ip => ip
  | k + 1, ip => expandCopy n ellipsis k (ip.set (ellipsis + k + n) (ip.getD (ellipsis + k) 0))

/-- The builtin `clear(ip[lo : lo+k])`. -/
def clearBytes (lo : Nat) : Nat → List Nat → List Nat
  | 0, ip => ip
  | k + 1, ip => clearBytes lo k (ip.set (lo + k) 0)

/-- `netip.AddrFrom16`. -/
def Addr.from16 (ip : List Nat) : Addr := ⟨ip.foldl (fun acc b => acc * 256 + b) 0, Zone.z6 []⟩

/-- The state of the main loop of `parseIPv6` when it is left: the unread text
`s`, the byte index `i`, the bytes `ip` and the position of the ellipsis. -/
structure V6State where
  s : Str
  i : Nat
  ip : List Nat
  ellipsis : Option Nat
deriving DecidableEq, Repr

/-- The main loop `for i < 16` of `parseIPv6`. Every iteration that does not
leave the loop adds 2 to `i`, so `fuel = 8` iterations exhaust `i < 16`.
The result is `none` on error, the state at loop exit otherwise. -/
def parseIPv6Loop : Nat → Str → Nat → List Nat → Option Nat → Option V6State
  | 0, s, i, ip, ellipsis => some ⟨s, i, ip, ellipsis⟩
  | fuel + 1, s, i, ip, ellipsis =>
    if i < 16 then
      match hexLoop s 0 0 with
      | none => none
      | some (acc, off, rest) =>
        if off == 0 then none
        else if rest.head? == some '.' then
          if ellipsis.isNone && i != 12 then none
          else if i + 4 > 16 then none
          else
            match parseIPv4Fields s with
            | none => none
            | some f =>
              let ip := (((ip.set i (f.getD 0 0)).set (i + 1) (f.getD 1 0)).set
                (i + 2) (f.getD 2 0)).set (i + 3) (f.getD 3 0)
              some ⟨[], i + 4, ip, ellipsis⟩
        else
          let ip := (ip.set i (acc / 2 ^ 8 % 256)).set (i + 1) (acc % 256)
          let i := i + 2
          match rest with
          | [] => some ⟨[], i, ip, ellipsis⟩
          | c :: s1 =>
            if c != ':' then none
            else
              match s1 with
              | [] => none
              | c1 :: s2 =>
                if c1 == ':' then
                  if ellipsis.isSome then none
                  else
                    match s2 with
                    | [] => some ⟨[], i, ip, some i⟩
                    | _ :: _ => parseIPv6Loop fuel s2 i ip (some i)
                else parseIPv6Loop fuel s1 i ip ellipsis
    else some ⟨s, i, ip, ellipsis⟩

/-- The part of `parseIPv6` after the main loop: the whole text must have been
read; when fewer than 16 bytes were stored, the bytes from the ellipsis on are
moved to the end and the gap is cleared; an ellipsis that stands for no group
is an error. -/
def parseIPv6Finish (zone : Str) : Option V6State → Option Addr
  | none => none
  | some st =>
    if st.s != [] then none
    else if st.i < 16 then
      match st.ellipsis with
      | none => none
      | some e =>
        let n := 16 - st.i
        let ip := expandCopy n e (st.i - e) st.ip
        let ip := clearBytes e n ip
        some ((Addr.from16 ip).WithZone zone)
    else if st.ellipsis.isSome then none
    else some ((Addr.from16 st.ip).WithZone zone)

/-- The part of `parseIPv6` after the zone has been split off: a leading `::` is
read (the text `::` alone is the unspecified address), the main loop reads
the groups, and `parseIPv6Finish` builds the address. -/
def parseIPv6Addr (s zone : Str) : Option Addr :=
  match s with
  | ':' :: ':' :: rest =>
    if rest == [] then some ((Addr.mk 0 (Zone.z6 [])).WithZone zone)
    else parseIPv6Finish zone (parseIPv6Loop 8 rest 0 (List.replicate 16 0) (some 0))
  | _ => parseIPv6Finish zone (parseIPv6Loop 8 s 0 (List.replicate 16 0) none)

/-- `parseIPv6`: the zone is what follows the first `%`; it must not be empty. -/
def parseIPv6 (inp : Str) : Option Addr :=
  match indexByte inp '%' with
  | none => parseIPv6Addr inp []
  | some i =>
    let zone := inp.drop (i + 1)
    if zone == [] then none else parseIPv6Addr (inp.take i) zone

/-- `netip.ParseAddr`: the first of `.`, `:` and `%` in `s` selects the parser. -/
def ParseAddrScan (s : Str) : Str → Option Addr
  | [] => none
  | c :: cs =>
    if c == '.' then parseIPv4 s
    else if c == ':' then parseIPv6 s
    else if c == '%' then none
    else ParseAddrScan s cs

/-- `netip.ParseAddr`. -/
def ParseAddr (s : Str) : Option Addr := ParseAddrScan s s

/-- A `netip.Prefix`: an address and a prefix length. -/
structure Prefix where
  ip : Addr
  bits : Nat
deriving DecidableEq, Repr

/-- `strconv.Atoi` on a text without sign: the value of a non-empty run of
decimal digits. (`ParsePrefix` rejects a sign before it calls `Atoi`, and a
value too large for an `int` is out of range for a prefix length as well.) -/
def atoi (s : Str) : Option Nat :=
  if s != [] && s.all isDigit then some (s.foldl (fun acc c => acc * 10 + (c.toNat - '0'.toNat)) 0)
  else none

/-- `netip.ParsePrefix`: `addr/bits` with no zone, no sign and no leading zero
in `bits`, and `bits` at most the bit length of the address. -/
def ParsePrefix (s : Str) : Option Prefix :=
  match lastIndexByte s '/' with
  | none => none
  | some i =>
    match ParseAddr (s.take i) with
    | none => none
    | some ip =>
      if ip.Is6 && ip.z != Zone.z6 [] then none
      else
        let bitsStr := s.drop (i + 1)
        if bitsStr.length > 1 && (bitsStr.head?.any fun c => c.toNat < '1'.toNat || c.toNat > '9'.toNat)
        then none
        else
          match atoi bitsStr with
          | none => none
          | some bits =>
            let maxBits := if ip.Is6 then 128 else 32
            if bits > maxBits then none else some ⟨ip, bits⟩

/-! ## Model of `go4.org/netipx` -/

/-- A `netipx.IPRange`. -/
structure IPRange where
  From : Addr
  To : Addr
deriving DecidableEq, Repr

/-- `IPRange.IsValid`. -/
def IPRange.IsValid (r : IPRange) : Bool :=
  r.From.IsValid && r.From.BitLen == r.To.BitLen && r.From.Zone == r.To.Zone &&
    !r.To.Less r.From

/-- `netipx.ParseIPRange`: two addresses around the first hyphen, zones
dropped; an error unless the pair is a valid range. -/
def ParseIPRange (s : Str) : Option IPRange :=
  match indexByte s '-' with
  | none => none
  | some h =>
    match ParseAddr (s.take h) with
    | none => none
    | some a =>
      match ParseAddr (s.drop (h + 1)) with
      | none => none
      | some b =>
        let r : IPRange := ⟨a.WithZone [], b.WithZone []⟩
        if !r.IsValid then none else some r

/-- `netipx.RangeOfPrefix`: the first and the last address that the prefix
covers, got by clearing, and by setting, the host bits. The zero range for an
invalid prefix. -/
def RangeOfPrefix (p : Prefix) : IPRange :=
  if p.ip.z == Zone.z0 || p.bits > p.ip.BitLen then ⟨Addr.zero, Addr.zero⟩
  else
    let h := p.ip.BitLen - p.bits
    let first := p.ip.addr - p.ip.addr % 2 ^ h
    ⟨⟨first, p.ip.z⟩, ⟨first + (2 ^ h - 1), p.ip.z⟩⟩

/-! ## Model of `net.ParseIP`, `IP.To4` and `IPMask.Size` -/

/-- `net.ParseIP`: the 16-byte form of the address, `none` (nil) when the text
does not parse or has a zone. -/
def ParseIP (s : Str) : Option (List Nat) :=
  match ParseAddr s with
  | none => none
  | some ip => if ip.Zone != [] then none else some ((List.range 16).map ip.v6)

/-- `IP.To4`: the last four bytes of an IPv4-mapped 16-byte address, `none`
(nil) for any other 16-byte address and for nil. -/
def To4 (ip : Option (List Nat)) : Option (List Nat) :=
  match ip with
  | none => none
  | some b =>
    if b.length == 4 then some b
    else if b.length == 16 && (b.take 10).all (· == 0) && b.getD 10 0 == 0xff && b.getD 11 0 == 0xff
    then some (b.drop 12)
    else none

/-- The loop `for v&0x80 != 0 { n++; v <<= 1 }` of `simpleMaskLength` on a
`uint8`, with `k` bounding the iterations (eight shifts clear a byte). -/
def leadingOnes : Nat → Nat → Nat → Nat × Nat
  | 0, n, v => (n, v)
  | k + 1, n, v => if v / 128 % 2 != 0 then leadingOnes k (n + 1) (v * 2 % 256) else (n, v)

/-- `simpleMaskLength`: the number of leading one bits of a mask made of ones
followed by zeros, `none` (for -1) for any other mask. `n` is the count so far. -/
def simpleMaskLength : List Nat → Nat → Option Nat
  | [], n => some n
  | v :: rest, n =>
    if v == 0xff then simpleMaskLength rest (n + 8)
    else
      let r := leadingOnes 8 n v
      if r.2 != 0 then none
      else if rest.all (· == 0) then some r.1 else none

/-- `IPMask.Size` of a mask that may be nil: `(ones, bits)`, and `(0, 0)` for a
mask that is not in canonical form. -/
def IPMaskSize (m : Option (List Nat)) : Nat × Nat :=
  let bytes := m.getD []
  match simpleMaskLength bytes 0 with
  | none => (0, 0)
  | some ones => (ones, bytes.length * 8)

/-! ## Model of `strings.ToLower`, `fmt` and the three patterns -/

/-- Lower-casing of one character: `A`-`Z` become `a`-`z`. -/
def lowerChar (c : Char) : Char :=
  if 'A'.toNat ≤ c.toNat && c.toNat ≤ 'Z'.toNat then Char.ofNat (c.toNat + 32) else c

/-- `strings.ToLower` on ASCII letters. (Go also maps the other upper-case
letters of Unicode; none of them is mapped into a character that one of the
three patterns accepts, so a token holding one is rejected either way, and only
the token echoed in the error text of such a token differs from Go.) -/
def ToLower (s : Str) : Str := s.map lowerChar

/-- The verb `%d` of `fmt.Sprintf` on a non-negative integer. -/
def itoa (n : Nat) : Str := Nat.toDigits 10 n

/-- The class `[0-9a-f.:]`. -/
def inAddrClass (c : Char) : Bool :=
  isDigit c || ('a'.toNat ≤ c.toNat && c.toNat ≤ 'f'.toNat) || c == '.' || c == ':'

/-- The class `[0-9.]`. -/
def inDotClass (c : Char) : Bool := isDigit c || c == '.'

/-- `reRange.MatchString` for `^[0-9a-f.:-]+$`. -/
def reRange (s : Str) : Bool := s != [] && s.all fun c => inAddrClass c || c == '-'

/-- `reCIDR.MatchString` for `^[0-9a-f.:]+/[0-9]{1,3}$`. Neither class holds
`/`, so a match splits the text at its first `/`. -/
def reCIDR (s : Str) : Bool :=
  match indexByte s '/' with
  | none => false
  | some i =>
    let a := s.take i
    let d := s.drop (i + 1)
    a != [] && a.all inAddrClass && 1 ≤ d.length && d.length ≤ 3 && d.all isDigit

/-- `reSubnetMask.MatchString` for `^[0-9.]+/[0-9.]{7,}$`. Neither class holds
`/`, so a match splits the text at its first `/`. -/
def reSubnetMask (s : Str) : Bool :=
  match indexByte s '/' with
  | none => false
  | some i =>
    let a := s.take i
    let m := s.drop (i + 1)
    a != [] && a.all inDotClass && 7 ≤ m.length && m.all inDotClass

/-! ## `range.go` -/

/-- `Family`: the address family of a range. -/
inductive Family where
  | V4Family : Family
  | V6Family : Family
deriving DecidableEq, Repr

/-- The struct `ipRange`, the only implementation of the interface `Range`. -/
structure ipRange where
  start : Addr
  end_ : Addr
deriving DecidableEq, Repr

/-- `New`: a `Range` interface value, `none` standing for `nil`. -/
def New (start end_ : Addr) : Option ipRange := some ⟨start, end_⟩

/-- `v4ToInt`: the `int64` whose low four bytes are `ip[0..3]`. -/
def v4ToInt (ip : List Nat) : Int :=
  ((ip.getD 0 0 <<< 24 ||| ip.getD 1 0 <<< 16 ||| ip.getD 2 0 <<< 8 ||| ip.getD 3 0 : Nat) : Int)

/-- `big.Int.SetBytes`: the value of a big-endian byte string. -/
def setBytes (bs : List Nat) : Nat := bs.foldl (fun acc b => acc * 256 + b) 0

/-- One iteration of the loop of `rangeIps` on the state `(ips, start)`: `none`
when the loop condition `start.Compare(end) <= 0` fails. -/
def rangeIpsStep (end_ : Addr) (st : List Str × Addr) : Option (List Str × Addr) :=
  if st.2.Compare end_ ≤ 0 then some (st.1 ++ [st.2.String], st.2.Next) else none

/-- The loop of `rangeIps` run for at most `fuel` iterations: `some ips` when
the loop exits within the budget, `none` when it is still running. -/
def rangeIpsLoop (end_ : Addr) : Nat → List Str × Addr → Option (List Str)
  | 0, _ => none
  | fuel + 1, st =>
    match rangeIpsStep end_ st with
    | none => some st.1
    | some st' => rangeIpsLoop end_ fuel st'

/-- `rangeIps` with an iteration budget. -/
def rangeIps (fuel : Nat) (start end_ : Addr) : Option (List Str) :=
  rangeIpsLoop end_ fuel ([], start)

/-- The state of the loop of `rangeIps` after `n` iterations, `none` when the
loop has exited before. -/
def rangeIpsState (end_ : Addr) : Nat → List Str × Addr → Option (List Str × Addr)
  | 0, st => some st
  | n + 1, st =>
    match rangeIpsStep end_ st with
    | none => none
    | some st' => rangeIpsState end_ n st'

namespace ipRange

/-- `ipRange.Family`. -/
def Family (i : ipRange) : Family :=
  if i.start.Is6 then Family.V6Family else Family.V4Family

/-- `ipRange.Contains`. -/
def Contains (i : ipRange) (ip : Addr) : Bool :=
  if i.start.Compare ip ≤ 0 && i.end_.Compare ip ≥ 0 then true else false

/-- `ipRange.Size`, a `big.Int`. The `int64` subtraction of the IPv4 branch
stays within `[-2^32, 2^32]` and cannot wrap. -/
def Size (i : ipRange) : Int :=
  if i.start.Is4 && i.end_.Is4 then
    v4ToInt i.end_.AsSlice - v4ToInt i.start.AsSlice + 1
  else if i.start.Is6 && i.end_.Is6 then
    let size : Int := 0
    let size := size + (setBytes i.end_.AsSlice : Int)
    let size := size - (setBytes i.start.AsSlice : Int)
    let size := size + 1
    size
  else 0

/-- `ipRange.String`: `fmt.Sprintf("%s-%s", i.start, i.end)`. -/
def String (i : ipRange) : Str := i.start.String ++ ['-'] ++ i.end_.String

/-- `ipRange.Ips` with an iteration budget for the loop of `rangeIps`. -/
def Ips (fuel : Nat) (i : ipRange) : Option (List Str) := rangeIps fuel i.start i.end_

end ipRange

/-! ## `parse.go` -/

/-- `parseRange`: an address range `a-b`, or else a single address. -/
def parseRange (s : Str) : Option ipRange :=
  match ParseIPRange s with
  | none =>
    match ParseAddr s with
    | none => none
    | some addr => if addr.IsValid then New addr addr else none
  | some ipr => New ipr.From ipr.To

/-- `parseCIDR`: the range of a prefix, without its first and last address
when `r.From().Next()` compares below `r.To().Prev()`; the two ends are
printed and read again by `parseRange`. -/
def parseCIDR (s : Str) : Option ipRange :=
  match ParsePrefix s with
  | none => none
  | some addr =>
    let r := RangeOfPrefix addr
    if r.From.Next.Compare r.To.Prev < 0 then
      parseRange (r.From.Next.String ++ ['-'] ++ r.To.Prev.String)
    else parseRange (r.From.String ++ ['-'] ++ r.To.String)

/-- `parseSubnetMask`: the mask after the last `/` is turned into a prefix
length and the token is handed to `parseCIDR`. -/
def parseSubnetMask (s : Str) : Option ipRange :=
  match lastIndexByte s '/' with
  | none => none
  | some idx =>
    let address := s.take idx
    let mask := s.drop (idx + 1)
    let stringMask := To4 (ParseIP mask)
    let size := IPMaskSize stringMask
    let length := size.1
    let bits := size.2
    if length == 0 && bits == 0 then none
    else parseCIDR (address ++ ['/'] ++ itoa length)

/-- The text of the error of `ParseRange`:
`fmt.Errorf("ip range (%s) invalid syntax", s)`. -/
def syntaxError (s : Str) : Str := "ip range (".toList ++ s ++ ") invalid syntax".toList

/-- `ParseRange`: the pair `(Range, error)`, `none` standing for `nil`. -/
def ParseRange (s : Str) : Option ipRange × Option Str :=
  let s := ToLower s
  if s == [] then (none, none)
  else
    let r : Option ipRange :=
      if reRange s then parseRange s
      else if reCIDR s then parseCIDR s
      else if reSubnetMask s then parseSubnetMask s
      else none
    match r with
    | none => (none, some (syntaxError s))
    | some r => (some r, none)

/-! ## `strings.Fields` and `ParseRanges` -/

/-- `unicode.IsSpace`: the ASCII white space `\t`, `\n`, `\v`, `\f`, `\r` and
the space, U+0085, U+00A0, and the other characters with the Unicode property
White_Space. -/
def isSpace (c : Char) : Bool :=
  (9 ≤ c.toNat && c.toNat ≤ 13) || c.toNat == 0x20 || c.toNat == 0x85 || c.toNat == 0xa0 ||
    c.toNat == 0x1680 || (0x2000 ≤ c.toNat && c.toNat ≤ 0x200a) || c.toNat == 0x2028 ||
    c.toNat == 0x2029 || c.toNat == 0x202f || c.toNat == 0x205f || c.toNat == 0x3000

/-- The loop of `strings.FieldsFunc(s, unicode.IsSpace)`, which `strings.Fields`
agrees with on every text: `cur` is the field that has been started (`none` when
`start < 0`), `spans` the fields found so far. A white-space character closes
the started field, any other character starts or extends one. -/
def FieldsLoop : Str → Option Str → List Str → List Str
  | [], none, spans => spans
  | [], some f, spans => spans ++ [f]
  | c :: cs, cur, spans =>
    if isSpace c then
      match cur with
      | some f => FieldsLoop cs none (spans ++ [f])
      | none => FieldsLoop cs none spans
    else FieldsLoop cs (some (cur.getD [] ++ [c])) spans

/-- `strings.Fields`: the maximal runs of characters that are not white space. -/
def Fields (s : Str) : List Str := FieldsLoop s none []

/-- The loop of `ParseRanges` over the parts that are left, with the ranges
appended so far. An error ends the loop with no ranges. -/
def ParseRangesLoop : List Str → List ipRange → List ipRange × Option Str
  | [], ranges => (ranges, none)
  | v :: rest, ranges =>
    match ParseRange v with
    | (_, some err) => ([], some err)
    | (some r, none) => ParseRangesLoop rest (ranges ++ [r])
    | (none, none) => ParseRangesLoop rest ranges

/-- `ParseRanges`: the pair `([]Range, error)`; the nil slice is the empty list. -/
def ParseRanges (s : Str) : List ipRange × Option Str :=
  let parts := Fields s
  if parts.length == 0 then ([], none) else ParseRangesLoop parts []

/-- The order of addresses: `a ≤ b` when `a.Compare(b) <= 0`. -/
def Addr.le (a b : Addr) : Prop := a.Compare b ≤ 0

instance (a b : Addr) : Decidable (Addr.le a b) := by
  unfold Addr.le; exact inferInstance

/-- The highest IPv4 address, `255.255.255.255`. -/
def maxV4 : Addr := Addr.from4 255 255 255 255

/-- The highest IPv6 address, `ffff:ffff:ffff:ffff:ffff:ffff:ffff:ffff`. -/
def maxV6 : Addr := ⟨two128 - 1, Zone.z6 []⟩

instance (ip : Addr) : Decidable ip.WF := by
  unfold Addr.WF; exact inferInstance

/-! ## Auxiliary notions used by the theorems -/

/-- The states from which the loop of `rangeIps` cannot leave when `end_` is the
highest address of its family: an invalid address compares below every valid
one, and so does every address of the family of `end_` up to `end_`. -/
def below (end_ : Addr) (st : List Str × Addr) : Prop :=
  st.2.z = Zone.z0 ∨ (st.2.z = end_.z ∧ st.2.addr ≤ end_.addr)


/-- The text of the groups `t, ..., t + k - 1` of an address, each one preceded by
a colon. -/
def colonGroups (ip : Addr) : Nat → Nat → Str
  | _, 0 => []
  | t, k + 1 => ':' :: (Addr.appendHex [] (ip.v6u16 t) ++ colonGroups ip (t + 1) k)

/-- The two bytes of a 16-bit group stored at index `i`, as in the main loop of
`parseIPv6`. -/
def writeGroup (bs : List Nat) (i g : Nat) : List Nat :=
  (bs.set i (g / 2 ^ 8 % 256)).set (i + 1) (g % 256)

/-- The bytes after the groups `t, ..., t + k - 1` of an address have been stored
from index `i` on. -/
def writeGroups (ip : Addr) : Nat → Nat → Nat → List Nat → List Nat
  | _, _, 0, bs => bs
  | i, t, k + 1, bs => writeGroups ip (i + 2) (t + 1) k (writeGroup bs i (ip.v6u16 t))

/-- What the zero-run search of `appendTo6` can return: no run, written
`(255, 255)`, or the bounds of a run of at least two zero groups. -/
def goodRun (ip : Addr) (b : Nat × Nat) : Prop :=
  b = (255, 255) ∨ (b.1 + 2 ≤ b.2 ∧ b.2 ≤ 8 ∧ ∀ t, b.1 ≤ t → t < b.2 → ip.v6u16 t = 0)

/-- The state of the main loop of `parseIPv6` with its unread text lower-cased. -/
def V6State.lower (st : V6State) : V6State := ⟨st.s.map lowerChar, st.i, st.ip, st.ellipsis⟩

/-- The characters of an address without zone: hexadecimal digits of either
case, `.` and `:`. -/
def isAddrChar (c : Char) : Bool := (hexVal c).isSome || c == '.' || c == ':'

/-- Sixteen bytes. -/
def bytes16 (bs : List Nat) : Prop := bs.length = 16 ∧ ∀ b ∈ bs, b < 256

/-- The pair that `ParseRange` returns for the token `s` (lower-cased) once a
form-specific parser has returned `r`: nil becomes the syntax error. -/
def rangeOrError (s : Str) (r : Option ipRange) : Option ipRange × Option Str :=
  match r with
  | none => (none, some (syntaxError s))
  | some r => (some r, none)

/-! # Theorems -/

open Addr

/-! ## Facts about the order of addresses -/

theorem strLess_asymm : ∀ a b : Str, strLess a b = true → strLess b a = false
  | [], [], h => by simp [strLess] at h
  | [], _ :: _, _ => by simp [strLess]
  | _ :: _, [], h => by simp [strLess] at h
  | a :: as, b :: bs, h => by
    simp only [strLess, Bool.or_eq_true, Bool.and_eq_true, decide_eq_true_eq, beq_iff_eq] at h
    simp only [strLess, Bool.or_eq_false_iff, Bool.and_eq_false_iff, decide_eq_false_iff_not,
      beq_eq_false_iff_ne]
    rcases h with h | ⟨h1, h2⟩
    · exact ⟨by omega, Or.inl (by omega)⟩
    · exact ⟨by omega, Or.inr (strLess_asymm as bs h2)⟩

theorem Compare_flip (a b : Addr) : b.Compare a ≥ 0 ↔ a.Compare b ≤ 0 := by
  rcases a with ⟨x, za⟩
  rcases b with ⟨y, zb⟩
  cases za <;> cases zb <;>
    simp only [Addr.Compare, Addr.BitLen, Addr.Is6, Addr.Zone] <;>
    (try simp) <;> (try (split_ifs <;> first | omega | simp_all))
  rename_i z1 z2 _ _ h1 h2
  have := strLess_asymm _ _ h1
  simp [h2] at this

/-- Between zone-less addresses of one family the order is that of the numeric values. -/
theorem le_iff_value (a b : Addr) (hf : a.BitLen = b.BitLen) (ha : a.Zone = []) (hb : b.Zone = [])
    (hwa : a.WF) (hwb : b.WF) : Addr.le a b ↔ a.value ≤ b.value := by
  rcases a with ⟨x, za⟩
  rcases b with ⟨y, zb⟩
  cases za <;> cases zb <;> simp [Addr.BitLen] at hf
  · simp only [Addr.le, Addr.Compare, Addr.BitLen, Addr.Is6, Addr.value, Addr.Is4]
    simp
    split_ifs <;> omega
  · simp only [Addr.WF, two32, true_implies] at hwa hwb
    simp only [Addr.le, Addr.Compare, Addr.BitLen, Addr.Is6, Addr.value, Addr.Is4, two32]
    simp
    split_ifs <;> omega
  · simp only [Addr.Zone] at ha hb
    subst ha hb
    simp only [Addr.le, Addr.Compare, Addr.BitLen, Addr.Is6, Addr.value, Addr.Is4, Addr.Zone, strLess]
    simp
    split_ifs <;> omega

/-! ## Facts about `Size` -/

theorem or_bytes (a b c d : Nat) (hb : b < 256) (hc : c < 256) (hd : d < 256) :
    a <<< 24 ||| b <<< 16 ||| c <<< 8 ||| d = a * 2 ^ 24 + b * 2 ^ 16 + c * 2 ^ 8 + d := by
  have e1 : a <<< 24 = 2 ^ 16 * (a * 2 ^ 8) := by rw [Nat.shiftLeft_eq]; ring
  have e2 : b <<< 16 = 2 ^ 16 * b := by rw [Nat.shiftLeft_eq]; ring
  have e3 : c <<< 8 = 2 ^ 8 * c := by rw [Nat.shiftLeft_eq]; ring
  have h0 : 2 ^ 16 * (a * 2 ^ 8) = 2 ^ 24 * a := by ring
  have h1 : a <<< 24 ||| b <<< 16 = 2 ^ 16 * (2 ^ 8 * a + b) := by
    rw [e1, e2, h0, ← Nat.mul_add_lt_is_or (by omega : 2 ^ 16 * b < 2 ^ 24)]; ring
  have h2 : 2 ^ 16 * (2 ^ 8 * a + b) ||| c <<< 8 = 2 ^ 8 * (2 ^ 16 * a + 2 ^ 8 * b + c) := by
    rw [e3, ← Nat.mul_add_lt_is_or (by omega : 2 ^ 8 * c < 2 ^ 16)]; ring
  rw [h1, h2, ← Nat.mul_add_lt_is_or (by omega : d < 2 ^ 8)]
  ring

theorem range4 : List.range 4 = [0, 1, 2, 3] := by decide

theorem range16 : List.range 16 = [0, 1, 2, 3, 4, 5, 6, 7, 8, 9, 10, 11, 12, 13, 14, 15] := by
  decide

theorem div_step (x k m : Nat) (h : m = k + 8) :
    x / 2 ^ m * 256 + x / 2 ^ k % 256 = x / 2 ^ k := by
  have : x / 2 ^ m = x / 2 ^ k / 256 := by
    rw [h, pow_add, Nat.div_div_eq_div_mul]; norm_num
  rw [this]; omega

theorem v4ToInt_AsSlice (ip : Addr) (h : ip.z = Zone.z4) :
    v4ToInt ip.AsSlice = ((ip.addr % two32 : Nat) : Int) := by
  have hb : ∀ i, ip.v4 i < 256 := fun i => Nat.mod_lt _ (by norm_num)
  simp only [v4ToInt, Addr.AsSlice, h, range4, List.map, List.getD_cons_zero,
    List.getD_cons_succ]
  rw [or_bytes _ _ _ _ (hb 1) (hb 2) (hb 3)]
  simp only [Addr.v4, two32]
  norm_num
  omega

theorem setBytes_AsSlice (ip : Addr) (zone : Str) (h : ip.z = Zone.z6 zone)
    (hlt : ip.addr < two128) : setBytes ip.AsSlice = ip.addr := by
  have h0 : ip.addr / 2 ^ 128 = 0 := Nat.div_eq_of_lt hlt
  have e0 : 0 * 256 + ip.addr / 2 ^ 120 % 256 = ip.addr / 2 ^ 120 := by
    have := div_step ip.addr 120 128 rfl
    rw [h0] at this; exact this
  simp only [setBytes, Addr.AsSlice, h, range16, List.map, List.foldl, Addr.v6, Nat.reduceSub,
    Nat.reduceMul]
  rw [e0, div_step _ 112 120 rfl, div_step _ 104 112 rfl, div_step _ 96 104 rfl,
    div_step _ 88 96 rfl, div_step _ 80 88 rfl, div_step _ 72 80 rfl, div_step _ 64 72 rfl,
    div_step _ 56 64 rfl, div_step _ 48 56 rfl, div_step _ 40 48 rfl, div_step _ 32 40 rfl,
    div_step _ 24 32 rfl, div_step _ 16 24 rfl, div_step _ 8 16 rfl, div_step _ 0 8 rfl]
  simp

/-- `Size` of a range whose ends are of one family is the difference of the values plus one. -/
theorem Size_eq_value (r : ipRange) (hs : r.start.WF) (he : r.end_.WF)
    (hf : (r.start.Is4 = true ∧ r.end_.Is4 = true) ∨ (r.start.Is6 = true ∧ r.end_.Is6 = true)) :
    r.Size = (r.end_.value : Int) - (r.start.value : Int) + 1 := by
  rcases r with ⟨⟨x, zs⟩, ⟨y, ze⟩⟩
  rcases hf with ⟨h1, h2⟩ | ⟨h1, h2⟩
  · simp only [Addr.Is4, beq_iff_eq] at h1 h2
    subst h1 h2
    simp only [ipRange.Size, Addr.Is4, Addr.value]
    rw [v4ToInt_AsSlice _ rfl, v4ToInt_AsSlice _ rfl]
    simp
  · cases zs <;> simp [Addr.Is6] at h1
    cases ze <;> simp [Addr.Is6] at h2
    simp only [ipRange.Size, Addr.Is4, Addr.Is6, Addr.value]
    rw [setBytes_AsSlice _ _ rfl hs.1, setBytes_AsSlice _ _ rfl he.1]
    simp

/-! ## The loop of `rangeIps` at the top of the address space -/

theorem step_below_maxV4 (st : List Str × Addr) (h : below maxV4 st) :
    ∃ st', rangeIpsStep maxV4 st = some st' ∧ below maxV4 st' := by
  rcases st with ⟨ips, ⟨x, z⟩⟩
  rcases h with h | ⟨h, hx⟩
  · simp only at h; subst h
    refine ⟨_, by simp [rangeIpsStep, Addr.Compare, Addr.BitLen, maxV4, Addr.from4]; rfl, ?_⟩
    simp only [below, Addr.Next, Addr.Is4, Addr.zero]
    split_ifs <;> simp
  · simp only [maxV4, Addr.from4] at h hx; subst h
    have hc : (Addr.mk x Zone.z4).Compare maxV4 ≤ 0 := by
      simp only [Addr.Compare, Addr.BitLen, maxV4, Addr.from4, Addr.Is6]
      simp
      split_ifs <;> omega
    refine ⟨_, by simp only [rangeIpsStep, hc, if_true]; rfl, ?_⟩
    simp only [below, Addr.Next, Addr.Is4, Addr.zero, maxV4, Addr.from4, two32, two128]
    simp
    split_ifs <;> simp
    omega

theorem step_below_maxV6 (st : List Str × Addr) (h : below maxV6 st) :
    ∃ st', rangeIpsStep maxV6 st = some st' ∧ below maxV6 st' := by
  rcases st with ⟨ips, ⟨x, z⟩⟩
  rcases h with h | ⟨h, hx⟩
  · simp only at h; subst h
    refine ⟨_, by simp [rangeIpsStep, Addr.Compare, Addr.BitLen, maxV6]; rfl, ?_⟩
    simp only [below, Addr.Next, Addr.Is4, Addr.zero]
    split_ifs <;> simp
  · simp only [maxV6] at h hx; subst h
    have hc : (Addr.mk x (Zone.z6 [])).Compare maxV6 ≤ 0 := by
      simp only [Addr.Compare, Addr.BitLen, maxV6, Addr.Is6, Addr.Zone, strLess]
      simp
      split_ifs <;> omega
    refine ⟨_, by simp only [rangeIpsStep, hc, if_true]; rfl, ?_⟩
    simp only [below, Addr.Next, Addr.Is4, Addr.zero, maxV6, two128]
    simp
    split_ifs <;> simp
    omega

theorem loop_below_none (end_ : Addr)
    (hstep : ∀ st, below end_ st → ∃ st', rangeIpsStep end_ st = some st' ∧ below end_ st') :
    ∀ fuel st, below end_ st → rangeIpsLoop end_ fuel st = none
  | 0, _, _ => rfl
  | fuel + 1, st, h => by
    obtain ⟨st', h1, h2⟩ := hstep st h
    simp only [rangeIpsLoop, h1]
    exact loop_below_none end_ hstep fuel st' h2

/-- C1 (code bug): `New` returns a range, never nil, also when the ends are
reversed (`10.0.0.5`, `10.0.0.3`) and when they are of different families
(`10.0.0.1`, `::1`). -/
theorem New_never_nil :
    (Addr.from4 10 0 0 5).Compare (Addr.from4 10 0 0 3) > 0 ∧
    New (Addr.from4 10 0 0 5) (Addr.from4 10 0 0 3)
      = some ⟨Addr.from4 10 0 0 5, Addr.from4 10 0 0 3⟩ ∧
    (Addr.from4 10 0 0 1).BitLen ≠ (Addr.mk 1 (Zone.z6 [])).BitLen ∧
    New (Addr.from4 10 0 0 1) ⟨1, Zone.z6 []⟩ = some ⟨Addr.from4 10 0 0 1, ⟨1, Zone.z6 []⟩⟩ ∧
    ∀ start end_ : Addr, New start end_ ≠ none := by
  refine ⟨by decide, rfl, by decide, rfl, ?_⟩
  intro s e h
  simp [New] at h

/-- C4 (code bug): on the range `255.255.255.254-255.255.255.255`, whose `Size`
is 2, the loop of `Ips` has appended four elements after four iterations, the
last two being the text of the invalid address, and it never returns. -/
theorem Ips_at_top_exceeds_Size :
    (ipRange.mk (Addr.from4 255 255 255 254) maxV4).Size = 2 ∧
    ((rangeIpsState maxV4 4 ([], Addr.from4 255 255 255 254)).map fun st => st.1)
      = some ["255.255.255.254".toList, "255.255.255.255".toList, "invalid IP".toList,
          "invalid IP".toList] ∧
    ∀ fuel, (ipRange.mk (Addr.from4 255 255 255 254) maxV4).Ips fuel = none := by
  refine ⟨by decide, by decide, ?_⟩
  intro fuel
  exact loop_below_none maxV4 step_below_maxV4 fuel _ (Or.inr ⟨rfl, by decide⟩)

/-- C5 (code bug): when `end_` is the highest address of its family, the loop of
`rangeIps` started at any `start ≤ end_` of that family is still running after
any number of iterations: it never returns. -/
theorem rangeIps_never_returns_at_top (start end_ : Addr) (fuel : Nat)
    (he : end_ = maxV4 ∨ end_ = maxV6) (hz : start.z = end_.z) (hle : Addr.le start end_) :
    rangeIps fuel start end_ = none := by
  have hx : start.addr ≤ end_.addr := by
    rcases start with ⟨x, z⟩
    rcases end_ with ⟨y, z'⟩
    simp only at hz; subst hz
    simp only [Addr.le, Addr.Compare, Addr.BitLen] at hle
    simp only [lt_self_iff_false, if_false, gt_iff_lt] at hle
    by_contra hlt
    simp only [not_le] at hlt
    have h1 : ¬ x < y := by omega
    simp [h1, hlt] at hle
  rcases he with he | he <;> subst he
  · exact loop_below_none maxV4 step_below_maxV4 fuel _ (Or.inr ⟨hz, hx⟩)
  · exact loop_below_none maxV6 step_below_maxV6 fuel _ (Or.inr ⟨hz, hx⟩)

theorem rangeIps_never_returns_at_top_witness :
    Addr.le (Addr.from4 255 255 255 0) maxV4 ∧
    rangeIps 1000 (Addr.from4 255 255 255 0) maxV4 = none :=
  ⟨by decide, rangeIps_never_returns_at_top _ _ 1000 (Or.inl rfl) rfl (by decide)⟩

/-- C6: for a range whose ends are of one family, `Size` is the value of the
end minus the value of the start plus one, as an unbounded integer; the full
IPv6 range has size `2^128` and the full IPv4 range has size `2^32`. -/
theorem Size_exact :
    (∀ r : ipRange, r.start.WF → r.end_.WF →
      (r.start.Is4 = true ∧ r.end_.Is4 = true) ∨ (r.start.Is6 = true ∧ r.end_.Is6 = true) →
      Addr.le r.start r.end_ →
      r.Size = (r.end_.value : Int) - (r.start.value : Int) + 1) ∧
    (ipRange.mk ⟨0, Zone.z6 []⟩ maxV6).Size = 2 ^ 128 ∧
    (ipRange.mk (Addr.from4 0 0 0 0) maxV4).Size = 2 ^ 32 := by
  refine ⟨fun r hs he hf _ => Size_eq_value r hs he hf, ?_, by decide⟩
  rw [Size_eq_value ⟨⟨0, Zone.z6 []⟩, maxV6⟩ (by decide) (by decide) (Or.inr ⟨rfl, rfl⟩)]
  simp [Addr.value, Addr.Is4, maxV6, two128]

theorem Size_exact_witness :
    (ipRange.mk (Addr.from4 10 0 0 5) (Addr.from4 10 0 1 5)).Size = 257 :=
  Size_exact.1 ⟨Addr.from4 10 0 0 5, Addr.from4 10 0 1 5⟩ (by decide) (by decide)
    (Or.inl ⟨rfl, rfl⟩) (by decide)

/-- C7: `Contains(ip)` holds exactly when `start ≤ ip` and `ip ≤ end` in the
order of `Compare`; when the ends and `ip` are zone-less addresses of one
family, that is `value start ≤ value ip ≤ value end`. -/
theorem Contains_iff (r : ipRange) (ip : Addr) :
    (r.Contains ip = true ↔ Addr.le r.start ip ∧ Addr.le ip r.end_) ∧
    (r.start.WF → r.end_.WF → ip.WF →
      r.start.BitLen = ip.BitLen → r.end_.BitLen = ip.BitLen →
      r.start.Zone = [] → r.end_.Zone = [] → ip.Zone = [] →
      (r.Contains ip = true ↔ r.start.value ≤ ip.value ∧ ip.value ≤ r.end_.value)) := by
  have h1 : r.Contains ip = true ↔ Addr.le r.start ip ∧ Addr.le ip r.end_ := by
    simp only [ipRange.Contains, Addr.le, ← Compare_flip ip r.end_]
    simp
  refine ⟨h1, ?_⟩
  intro ws we wi fs fe zs ze zi
  rw [h1, le_iff_value _ _ fs zs zi ws wi, le_iff_value _ _ fe.symm zi ze wi we]

theorem Contains_iff_witness :
    (ipRange.mk (Addr.from4 10 0 0 1) (Addr.from4 10 0 0 9)).Contains (Addr.from4 10 0 0 9)
      = true :=
  ((Contains_iff ⟨Addr.from4 10 0 0 1, Addr.from4 10 0 0 9⟩ (Addr.from4 10 0 0 9)).2
    (by decide) (by decide) (by decide) rfl rfl rfl rfl rfl).2 ⟨by decide, by decide⟩

theorem digit_toNat_dec (k : Nat) (h : k < 10) : (digit k).toNat = 48 + k := by
  interval_cases k <;> rfl

theorem isDigit_digit (k : Nat) (h : k < 10) : isDigit (digit k) = true := by
  interval_cases k <;> rfl

theorem appendDecimal_eq (b : Str) (x : Nat) : appendDecimal b x = b ++ appendDecimal [] x := by
  simp only [appendDecimal]
  split_ifs <;> simp

theorem appendHex_eq (b : Str) (x : Nat) : appendHex b x = b ++ appendHex [] x := by
  simp only [appendHex]
  split_ifs <;> simp

/-- Reading the decimal text of a byte: the loop of `parseIPv4Fields` arrives at
the text after it with `val` the byte and `prev` a digit. -/
theorem parseIPv4FieldsLoop_octet (x : Nat) (hx : x ≤ 255) (rest : Str) (prev : Option Char)
    (pos : Nat) (fields : List Nat) :
    ∃ c d, isDigit c = true ∧
      parseIPv4FieldsLoop (appendDecimal [] x ++ rest) prev 0 pos 0 fields
        = parseIPv4FieldsLoop rest (some c) x pos d fields := by
  by_cases h100 : x ≥ 100
  · have h10 : x ≥ 10 := by omega
    refine ⟨digit (x % 10), 3, isDigit_digit _ (by omega), ?_⟩
    have d1 := digit_toNat_dec (x / 100) (by omega)
    have d2 := digit_toNat_dec (x / 10 % 10) (by omega)
    have d3 := digit_toNat_dec (x % 10) (by omega)
    have e1 : (x / 100 * 10 + x / 10 % 10) * 10 + x % 10 = x := by omega
    have n1 : ¬ (x / 100 > 255) := by omega
    have n2 : ¬ (x / 100 * 10 + x / 10 % 10 > 255) := by omega
    have n3 : ¬ (x > 255) := by omega
    have z1 : ¬ (x / 100 = 0) := by omega
    simp [appendDecimal, h100, h10, parseIPv4FieldsLoop, isDigit_digit _ (show x / 100 < 10 by omega),
      isDigit_digit _ (show x / 10 % 10 < 10 by omega), isDigit_digit _ (show x % 10 < 10 by omega),
      d1, d2, d3, e1, n1, n2, n3, z1]
  · by_cases h10 : x ≥ 10
    · refine ⟨digit (x % 10), 2, isDigit_digit _ (by omega), ?_⟩
      have d2 := digit_toNat_dec (x / 10 % 10) (by omega)
      have d3 := digit_toNat_dec (x % 10) (by omega)
      have e1 : (x / 10 % 10) * 10 + x % 10 = x := by omega
      have n2 : ¬ (x / 10 % 10 > 255) := by omega
      have n3 : ¬ (x > 255) := by omega
      have z1 : ¬ (x / 10 % 10 = 0) := by omega
      simp [appendDecimal, h100, h10, parseIPv4FieldsLoop,
        isDigit_digit _ (show x / 10 % 10 < 10 by omega), isDigit_digit _ (show x % 10 < 10 by omega),
        d2, d3, e1, n2, n3, z1]
    · have e1 : x % 10 = x := by omega
      refine ⟨digit x, 1, isDigit_digit _ (by omega), ?_⟩
      have d3 := digit_toNat_dec x (by omega)
      simp [appendDecimal, h100, h10, parseIPv4FieldsLoop,
        isDigit_digit _ (show x < 10 by omega), d3, e1]
      omega

theorem parseIPv4FieldsLoop_dot (c : Char) (hc : isDigit c = true) (r : Char) (rest : Str)
    (val pos d : Nat) (fields : List Nat) (hpos : pos < 3) :
    parseIPv4FieldsLoop ('.' :: r :: rest) (some c) val pos d fields
      = parseIPv4FieldsLoop (r :: rest) (some '.') 0 (pos + 1) 0 (fields.set pos val) := by
  have h1 : isDigit '.' = false := by decide
  have h2 : c ≠ '.' := by rintro rfl; simp [h1] at hc
  have h3 : pos ≠ 3 := by omega
  simp [parseIPv4FieldsLoop, h1, h2, h3]

theorem appendDecimal_ne_nil (x : Nat) : appendDecimal [] x ≠ [] := by
  simp only [appendDecimal]
  split_ifs <;> simp

theorem parseIPv4Fields_dotted (a b c d : Nat) (ha : a ≤ 255) (hb : b ≤ 255) (hc : c ≤ 255)
    (hd : d ≤ 255) :
    parseIPv4Fields (appendDecimal [] a ++ '.' :: (appendDecimal [] b ++ '.' ::
      (appendDecimal [] c ++ '.' :: appendDecimal [] d))) = some [a, b, c, d] := by
  obtain ⟨rb, sb, hb'⟩ := List.exists_cons_of_ne_nil (appendDecimal_ne_nil b)
  obtain ⟨rc, sc, hc'⟩ := List.exists_cons_of_ne_nil (appendDecimal_ne_nil c)
  obtain ⟨rd, sd, hd'⟩ := List.exists_cons_of_ne_nil (appendDecimal_ne_nil d)
  unfold parseIPv4Fields
  obtain ⟨c1, d1, hc1, e1⟩ := parseIPv4FieldsLoop_octet a ha
    ('.' :: (appendDecimal [] b ++ '.' :: (appendDecimal [] c ++ '.' :: appendDecimal [] d)))
    none 0 [0, 0, 0, 0]
  rw [e1]
  have s1 : appendDecimal [] b ++ '.' :: (appendDecimal [] c ++ '.' :: appendDecimal [] d)
      = rb :: (sb ++ '.' :: (appendDecimal [] c ++ '.' :: appendDecimal [] d)) := by
    rw [hb']; rfl
  rw [s1, parseIPv4FieldsLoop_dot c1 hc1 _ _ _ _ _ _ (by omega), ← s1]
  obtain ⟨c2, d2, hc2, e2⟩ := parseIPv4FieldsLoop_octet b hb
    ('.' :: (appendDecimal [] c ++ '.' :: appendDecimal [] d)) (some '.') 1 ([0, 0, 0, 0].set 0 a)
  rw [e2]
  have s2 : appendDecimal [] c ++ '.' :: appendDecimal [] d
      = rc :: (sc ++ '.' :: appendDecimal [] d) := by
    rw [hc']; rfl
  rw [s2, parseIPv4FieldsLoop_dot c2 hc2 _ _ _ _ _ _ (by omega), ← s2]
  obtain ⟨c3, d3, hc3, e3⟩ := parseIPv4FieldsLoop_octet c hc
    ('.' :: appendDecimal [] d) (some '.') 2 (([0, 0, 0, 0].set 0 a).set 1 b)
  rw [e3]
  rw [hd', parseIPv4FieldsLoop_dot c3 hc3 _ _ _ _ _ _ (by omega), ← hd']
  obtain ⟨c4, d4, hc4, e4⟩ := parseIPv4FieldsLoop_octet d hd
    [] (some '.') 3 ((([0, 0, 0, 0].set 0 a).set 1 b).set 2 c)
  rw [List.append_nil] at e4
  rw [e4]
  simp [parseIPv4FieldsLoop]

theorem hexVal_of_isDigit (c : Char) (h : isDigit c = true) : (hexVal c).isSome = true := by
  simp [isDigit] at h
  simp [hexVal, h]

theorem hexVal_sep {c : Char} (h : (hexVal c).isSome = true) : c ≠ '.' ∧ c ≠ ':' ∧ c ≠ '%' := by
  refine ⟨?_, ?_, ?_⟩ <;> rintro rfl <;> revert h <;> decide

theorem ParseAddrScan_dot (s pre rest : Str) (h : ∀ c ∈ pre, (hexVal c).isSome = true) :
    ParseAddrScan s (pre ++ '.' :: rest) = parseIPv4 s := by
  induction pre with
  | nil => simp [ParseAddrScan]
  | cons c cs ih =>
    have hc := hexVal_sep (h c (List.mem_cons_self _ _))
    simp only [List.cons_append, ParseAddrScan, beq_iff_eq, hc.1, hc.2.1, hc.2.2, if_false]
    exact ih fun c' hc' => h c' (List.mem_cons_of_mem _ hc')

theorem appendDecimal_digits (x : Nat) (hx : x ≤ 255) :
    ∀ c ∈ appendDecimal [] x, isDigit c = true := by
  intro c hc
  simp only [appendDecimal] at hc
  have a1 := isDigit_digit (x / 100)
  have a2 := isDigit_digit (x / 10 % 10) (by omega)
  have a3 := isDigit_digit (x % 10) (by omega)
  by_cases h1 : x ≥ 100
  · have h2 : x ≥ 10 := by omega
    simp [h1, h2] at hc
    rcases hc with rfl | rfl | rfl
    · exact a1 (by omega)
    · exact a2
    · exact a3
  · by_cases h2 : x ≥ 10
    · simp [h1, h2] at hc
      rcases hc with rfl | rfl
      · exact a2
      · exact a3
    · simp [h1, h2] at hc
      subst hc; exact a3

theorem appendTo4_eq (ip : Addr) : ip.appendTo4 [] = appendDecimal [] (ip.v4 0) ++ '.' ::
    (appendDecimal [] (ip.v4 1) ++ '.' :: (appendDecimal [] (ip.v4 2) ++ '.' ::
      appendDecimal [] (ip.v4 3))) := by
  simp only [appendTo4]
  rw [appendDecimal_eq _ (ip.v4 3), appendDecimal_eq _ (ip.v4 2), appendDecimal_eq _ (ip.v4 1)]
  simp

theorem v4_le (ip : Addr) (i : Nat) : ip.v4 i ≤ 255 := by
  have : ip.v4 i < 256 := Nat.mod_lt _ (by norm_num)
  omega

theorem from4_v4 (x : Nat) (h : x / two32 = 0xffff) :
    from4 ((Addr.mk x Zone.z4).v4 0) ((Addr.mk x Zone.z4).v4 1) ((Addr.mk x Zone.z4).v4 2)
      ((Addr.mk x Zone.z4).v4 3) = ⟨x, Zone.z4⟩ := by
  simp only [from4, v4, two32] at *
  norm_num at *
  omega

/-- The IPv4 parser reads back the text of an IPv4 address. -/
theorem parseIPv4_appendTo4 (ip : Addr) :
    parseIPv4 (ip.appendTo4 []) = some (from4 (ip.v4 0) (ip.v4 1) (ip.v4 2) (ip.v4 3)) := by
  rw [appendTo4_eq, parseIPv4,
    parseIPv4Fields_dotted _ _ _ _ (v4_le ip 0) (v4_le ip 1) (v4_le ip 2) (v4_le ip 3)]
  rfl

theorem ParseAddr_String_v4 (x : Nat) (h : x / two32 = 0xffff) :
    ParseAddr (Addr.mk x Zone.z4).String = some ⟨x, Zone.z4⟩ := by
  have e : (Addr.mk x Zone.z4).String = (Addr.mk x Zone.z4).appendTo4 [] := rfl
  rw [e, ParseAddr]
  conv => lhs; arg 2; rw [appendTo4_eq]
  rw [ParseAddrScan_dot _ _ _ fun c hc => hexVal_of_isDigit c (appendDecimal_digits _ (v4_le _ 0) c hc),
    parseIPv4_appendTo4, from4_v4 x h]

/-! ## Reading back the text of an IPv6 address -/

theorem hexVal_digit (k : Nat) (h : k < 16) : hexVal (digit k) = some k := by
  interval_cases k <;> rfl

theorem hexLoop_stop (rest : Str) (h : ∀ c ∈ rest.head?, hexVal c = none) (off acc : Nat) :
    hexLoop rest off acc = some (acc, off, rest) := by
  cases rest with
  | nil => rfl
  | cons c cs =>
    have := h c (by simp)
    simp [hexLoop, this]

/-- The inner loop of `parseIPv6` reads back a group written by `appendHex`. -/
theorem hexLoop_appendHex (x : Nat) (hx : x < 65536) (rest : Str)
    (h : ∀ c ∈ rest.head?, hexVal c = none) :
    ∃ off, off ≠ 0 ∧ hexLoop (appendHex [] x ++ rest) 0 0 = some (x, off, rest) := by
  have d0 := hexVal_digit (x % 16) (by omega)
  have d1 := hexVal_digit (x / 2 ^ 4 % 16) (by omega)
  have d2 := hexVal_digit (x / 2 ^ 8 % 16) (by omega)
  have d3 := hexVal_digit (x / 2 ^ 12) (by omega)
  by_cases h3 : x ≥ 0x1000
  · have h2 : x ≥ 0x100 := by omega
    have h1 : x ≥ 0x10 := by omega
    refine ⟨4, by omega, ?_⟩
    simp only [appendHex, h3, h2, h1, if_true, List.nil_append, List.cons_append, hexLoop, d0, d1, d2,
      d3, two32]
    rw [hexLoop_stop rest h]
    simp only [Nat.reducePow] at *
    simp
    omega
  · by_cases h2 : x ≥ 0x100
    · have h1 : x ≥ 0x10 := by omega
      refine ⟨3, by omega, ?_⟩
      simp only [appendHex, h3, h2, h1, if_true, if_false, List.nil_append, List.cons_append, hexLoop,
        d0, d1, d2, two32]
      rw [hexLoop_stop rest h]
      simp only [Nat.reducePow] at *
      simp
      omega
    · by_cases h1 : x ≥ 0x10
      · refine ⟨2, by omega, ?_⟩
        simp only [appendHex, h3, h2, h1, if_true, if_false, List.nil_append, List.cons_append,
          hexLoop, d0, d1, two32]
        rw [hexLoop_stop rest h]
        simp only [Nat.reducePow] at *
        simp
        omega
      · refine ⟨1, by omega, ?_⟩
        simp only [appendHex, h3, h2, h1, if_true, if_false, List.nil_append, List.cons_append,
          hexLoop, d0, two32]
        rw [hexLoop_stop rest h]
        simp only [Nat.reducePow] at *
        simp
        omega

theorem appendHex_hex (x : Nat) (hx : x < 65536) :
    ∀ c ∈ appendHex [] x, (hexVal c).isSome = true := by
  have d0 : (hexVal (digit (x % 16))).isSome = true := by
    rw [hexVal_digit (x % 16) (by omega)]; rfl
  have d1 : (hexVal (digit (x / 16 % 16))).isSome = true := by
    rw [hexVal_digit (x / 16 % 16) (by omega)]; rfl
  have d2 : (hexVal (digit (x / 256 % 16))).isSome = true := by
    rw [hexVal_digit (x / 256 % 16) (by omega)]; rfl
  have d3 : (hexVal (digit (x / 4096))).isSome = true := by
    rw [hexVal_digit (x / 4096) (by omega)]; rfl
  simp only [appendHex]
  split_ifs <;> simp [d0, d1, d2, d3]

theorem appendHex_cons (x : Nat) (hx : x < 65536) :
    ∃ c cs, appendHex [] x = c :: cs ∧ (hexVal c).isSome = true := by
  have hne : appendHex [] x ≠ [] := by
    simp only [appendHex]; split_ifs <;> simp
  obtain ⟨c, cs, h⟩ := List.exists_cons_of_ne_nil hne
  exact ⟨c, cs, h, appendHex_hex x hx c (by rw [h]; exact List.mem_cons_self _ _)⟩

theorem hexVal_colon : hexVal ':' = none := by decide

theorem ne_colon_of_hex {c : Char} (h : (hexVal c).isSome = true) : c ≠ ':' := (hexVal_sep h).2.1

/-- One iteration of the main loop of `parseIPv6` on a group followed by a colon
and a further group. -/
theorem parseIPv6Loop_group_colon (n g i : Nat) (hg : g < 65536) (hi : i < 16) (c : Char)
    (hc : (hexVal c).isSome = true) (rest : Str) (bs : List Nat) (e : Option Nat) :
    parseIPv6Loop (n + 1) (appendHex [] g ++ ':' :: c :: rest) i bs e
      = parseIPv6Loop n (c :: rest) (i + 2) (writeGroup bs i g) e := by
  obtain ⟨off, hoff, heq⟩ := hexLoop_appendHex g hg (':' :: c :: rest)
    (by simp [hexVal_colon])
  have hc' := ne_colon_of_hex hc
  simp [parseIPv6Loop, hi, heq, hoff, hc', writeGroup]

/-- The last iteration of the main loop of `parseIPv6`: a group that ends the text. -/
theorem parseIPv6Loop_group_end (n g i : Nat) (hg : g < 65536) (hi : i < 16)
    (bs : List Nat) (e : Option Nat) :
    parseIPv6Loop (n + 1) (appendHex [] g) i bs e = some ⟨[], i + 2, writeGroup bs i g, e⟩ := by
  obtain ⟨off, hoff, heq⟩ := hexLoop_appendHex g hg [] (by simp)
  rw [List.append_nil] at heq
  simp [parseIPv6Loop, hi, heq, hoff, writeGroup]

/-- An iteration of the main loop of `parseIPv6` on a group followed by `::` at
the end of the text. -/
theorem parseIPv6Loop_group_ellipsis_end (n g i : Nat) (hg : g < 65536) (hi : i < 16)
    (bs : List Nat) :
    parseIPv6Loop (n + 1) (appendHex [] g ++ [':', ':']) i bs none
      = some ⟨[], i + 2, writeGroup bs i g, some (i + 2)⟩ := by
  obtain ⟨off, hoff, heq⟩ := hexLoop_appendHex g hg [':', ':'] (by simp [hexVal_colon])
  simp [parseIPv6Loop, hi, heq, hoff, writeGroup]

/-- An iteration of the main loop of `parseIPv6` on a group followed by `::` and
more text. -/
theorem parseIPv6Loop_group_ellipsis (n g i : Nat) (hg : g < 65536) (hi : i < 16) (c : Char)
    (rest : Str) (bs : List Nat) :
    parseIPv6Loop (n + 1) (appendHex [] g ++ ':' :: ':' :: c :: rest) i bs none
      = parseIPv6Loop n (c :: rest) (i + 2) (writeGroup bs i g) (some (i + 2)) := by
  obtain ⟨off, hoff, heq⟩ := hexLoop_appendHex g hg (':' :: ':' :: c :: rest)
    (by simp [hexVal_colon])
  simp [parseIPv6Loop, hi, heq, hoff, writeGroup]

theorem v6u16_lt (ip : Addr) (t : Nat) : ip.v6u16 t < 65536 := Nat.mod_lt _ (by norm_num)

/-- The main loop of `parseIPv6` on `k` groups separated by colons and followed
by one more group: it arrives at that group with the `k` groups stored. -/
theorem parseIPv6Loop_groups (ip : Addr) (tail : Str) (e : Option Nat) :
    ∀ (k n t i : Nat) (bs : List Nat), i + 2 * k < 16 →
      parseIPv6Loop (n + k) (appendHex [] (ip.v6u16 t) ++ (colonGroups ip (t + 1) k ++ tail)) i bs e
        = parseIPv6Loop n (appendHex [] (ip.v6u16 (t + k)) ++ tail) (i + 2 * k)
            (writeGroups ip i t k bs) e
  | 0, n, t, i, bs, _ => by simp [colonGroups, writeGroups]
  | k + 1, n, t, i, bs, h => by
    obtain ⟨c, cs, hcs, hc⟩ := appendHex_cons (ip.v6u16 (t + 1)) (v6u16_lt _ _)
    have e1 : colonGroups ip (t + 1) (k + 1) ++ tail
        = ':' :: c :: (cs ++ (colonGroups ip (t + 1 + 1) k ++ tail)) := by
      simp [colonGroups, hcs]
    rw [e1, show n + (k + 1) = (n + k) + 1 by omega,
      parseIPv6Loop_group_colon _ _ _ (v6u16_lt _ _) (by omega) c hc]
    have e2 : c :: (cs ++ (colonGroups ip (t + 1 + 1) k ++ tail))
        = appendHex [] (ip.v6u16 (t + 1)) ++ (colonGroups ip (t + 1 + 1) k ++ tail) := by
      rw [hcs]; rfl
    rw [e2, parseIPv6Loop_groups ip tail e k n (t + 1) (i + 2) _ (by omega)]
    rw [show t + 1 + k = t + (k + 1) by omega, show i + 2 + 2 * k = i + 2 * (k + 1) by omega]
    rfl

/-! ## The shape of the text of an IPv6 address -/

theorem zeroRunEnd_spec (ip : Addr) : ∀ n j, j ≤ zeroRunEnd ip n j ∧
    (j ≤ 8 → zeroRunEnd ip n j ≤ 8) ∧ ∀ t, j ≤ t → t < zeroRunEnd ip n j → ip.v6u16 t = 0
  | 0, j => by simp [zeroRunEnd]; intro t h1 h2; omega
  | n + 1, j => by
    simp only [zeroRunEnd]
    split_ifs with h
    · simp only [Bool.and_eq_true, decide_eq_true_eq, beq_iff_eq] at h
      obtain ⟨i1, i2, i3⟩ := zeroRunEnd_spec ip n (j + 1)
      refine ⟨by omega, fun _ => i2 (by omega), fun t h1 h2 => ?_⟩
      by_cases ht : t = j
      · rw [ht]; exact h.2
      · exact i3 t (by omega) h2
    · exact ⟨le_refl _, fun h => h, fun t h1 h2 => by omega⟩

theorem zeroRun_spec (ip : Addr) : ∀ n best, goodRun ip best → goodRun ip (zeroRun ip n best)
  | 0, best, h => h
  | n + 1, best, h => by
    simp only [zeroRun]
    split_ifs with hl
    · apply zeroRun_spec ip n
      simp only [Bool.and_eq_true, decide_eq_true_eq] at hl
      obtain ⟨i1, i2, i3⟩ := zeroRunEnd_spec ip 8 (8 - (n + 1))
      exact Or.inr ⟨by simp only; omega, i2 (by omega), i3⟩
    · exact zeroRun_spec ip n best h

theorem appendTo6Loop_done (ip : Addr) (zs ze n i : Nat) (ret : Str) (hi : 8 ≤ i) :
    appendTo6Loop ip zs ze n i ret = ret := by
  cases n with
  | zero => rfl
  | succ n => simp [appendTo6Loop, Nat.not_lt.mpr hi]

theorem appendTo6Loop_groups (ip : Addr) (zs ze : Nat) :
    ∀ (k n i : Nat) (ret : Str), 0 < i → i + k ≤ 8 → (zs < i ∨ i + k ≤ zs) →
      appendTo6Loop ip zs ze (n + k) i ret
        = appendTo6Loop ip zs ze n (i + k) (ret ++ colonGroups ip i k)
  | 0, n, i, ret, _, _, _ => by simp [colonGroups]
  | k + 1, n, i, ret, h0, h8, hz => by
    have hi : i < 8 := by omega
    have hne : i ≠ zs := by omega
    rw [show n + (k + 1) = (n + k) + 1 by omega]
    simp only [appendTo6Loop, hi, if_true, beq_iff_eq, hne, if_false, h0, gt_iff_lt]
    rw [appendTo6Loop_groups ip zs ze k n (i + 1) _ (by omega) (by omega) (by omega),
      appendHex_eq]
    simp only [colonGroups, List.append_assoc, List.singleton_append, List.cons_append,
      List.nil_append]
    rw [show i + 1 + k = i + (k + 1) by omega]

theorem appendTo6Loop_first (ip : Addr) (zs ze n : Nat) (hz : zs ≠ 0) :
    appendTo6Loop ip zs ze (n + 1) 0 []
      = appendTo6Loop ip zs ze n 1 (appendHex [] (ip.v6u16 0)) := by
  simp [appendTo6Loop, hz.symm]

theorem appendTo6Loop_run (ip : Addr) (zs ze n : Nat) (ret : Str) (hzs : zs < 8) :
    appendTo6Loop ip zs ze (n + 1) zs ret
      = if ze ≥ 8 then ret ++ [':', ':']
        else appendTo6Loop ip zs ze n (ze + 1) (ret ++ ':' :: ':' :: appendHex [] (ip.v6u16 ze)) := by
  simp only [appendTo6Loop, hzs, if_true, beq_self_eq_true]
  split_ifs
  · rfl
  · rw [appendHex_eq]; simp

/-- The text after `::`: nothing when the run of zeros reaches the end, the
groups from `ze` on otherwise. -/
theorem appendTo6_shape (ip : Addr) (b : Nat × Nat) (hb : goodRun ip b) :
    appendTo6Loop ip b.1 b.2 8 0 [] =
      if b = (255, 255) then appendHex [] (ip.v6u16 0) ++ colonGroups ip 1 7
      else
        (if b.1 = 0 then [] else appendHex [] (ip.v6u16 0) ++ colonGroups ip 1 (b.1 - 1))
          ++ ':' :: ':' ::
        (if b.2 = 8 then [] else appendHex [] (ip.v6u16 b.2) ++ colonGroups ip (b.2 + 1) (7 - b.2))
    := by
  obtain ⟨zs, ze⟩ := b
  rcases hb with hb | ⟨h1, h2, -⟩
  · simp only [Prod.mk.injEq] at hb
    obtain ⟨rfl, rfl⟩ := hb
    simp only [if_true]
    rw [appendTo6Loop_first ip 255 255 7 (by omega),
      appendTo6Loop_groups ip 255 255 7 0 1 _ (by omega) (by omega) (by omega),
      appendTo6Loop_done _ _ _ _ _ _ (by omega)]
  · simp only at h1 h2
    have hne : (zs, ze) ≠ (255, 255) := by
      simp only [ne_eq, Prod.mk.injEq]; omega
    simp only [hne, if_false]
    have tailEq : ∀ (n : Nat) (ret : Str), ze - zs ≤ n + 1 → n + 1 + zs = 8 →
        appendTo6Loop ip zs ze (n + 1) zs ret = ret ++ ':' :: ':' ::
          (if ze = 8 then [] else appendHex [] (ip.v6u16 ze) ++ colonGroups ip (ze + 1) (7 - ze)) := by
      intro n ret hn hn'
      rw [appendTo6Loop_run ip zs ze n ret (by omega)]
      by_cases h8 : ze = 8
      · simp [h8]
      · have h8' : ¬ ze ≥ 8 := by omega
        simp only [h8', if_false, h8]
        obtain ⟨m, hm⟩ : ∃ m, n = m + (7 - ze) := ⟨n - (7 - ze), by omega⟩
        rw [hm, appendTo6Loop_groups ip zs ze (7 - ze) m (ze + 1) _ (by omega) (by omega)
          (by omega), appendTo6Loop_done _ _ _ _ _ _ (by omega)]
        simp
    by_cases hz : zs = 0
    · subst hz
      simp only [if_true]
      exact tailEq 7 [] (by omega) (by omega)
    · simp only [hz, if_false]
      rw [appendTo6Loop_first ip zs ze 7 hz]
      obtain ⟨m, hm⟩ : ∃ m, 7 = (m + 1) + (zs - 1) := ⟨7 - zs, by omega⟩
      conv_lhs => rw [hm]
      rw [appendTo6Loop_groups ip zs ze (zs - 1) (m + 1) 1 _ (by omega) (by omega)
        (by omega), show 1 + (zs - 1) = zs by omega, tailEq m _ (by omega) (by omega)]

/-! ## The bytes stored by `parseIPv6` -/

theorem getD_set (l : List Nat) (i j a : Nat) :
    (l.set i a).getD j 0 = if i = j ∧ i < l.length then a else l.getD j 0 := by
  simp only [List.getD_eq_getElem?_getD, List.getElem?_set]
  by_cases h : i = j
  · subst h
    by_cases h2 : i < l.length
    · simp [h2]
    · simp [h2, List.getElem?_eq_none (Nat.le_of_not_lt h2)]
  · simp [h]

theorem writeGroup_length (bs : List Nat) (i g : Nat) : (writeGroup bs i g).length = bs.length := by
  simp [writeGroup]

theorem writeGroups_length (ip : Addr) : ∀ (k i t : Nat) (bs : List Nat),
    (writeGroups ip i t k bs).length = bs.length
  | 0, _, _, _ => rfl
  | k + 1, i, t, bs => by
    simp only [writeGroups]
    rw [writeGroups_length ip k, writeGroup_length]

theorem expandCopy_length (n e : Nat) : ∀ (k : Nat) (bs : List Nat),
    (expandCopy n e k bs).length = bs.length
  | 0, _ => rfl
  | k + 1, bs => by
    simp only [expandCopy]
    rw [expandCopy_length n e k]; simp

theorem clearBytes_length (lo : Nat) : ∀ (k : Nat) (bs : List Nat),
    (clearBytes lo k bs).length = bs.length
  | 0, _ => rfl
  | k + 1, bs => by
    simp only [clearBytes]
    rw [clearBytes_length lo k]; simp

theorem writeGroup_getD (bs : List Nat) (i g j : Nat) (h : i + 1 < bs.length) :
    (writeGroup bs i g).getD j 0 =
      if j = i then g / 2 ^ 8 % 256 else if j = i + 1 then g % 256 else bs.getD j 0 := by
  simp only [writeGroup, getD_set, List.length_set]
  split_ifs <;> first | rfl | omega

theorem v6u16_hi (ip : Addr) (t : Nat) (ht : t ≤ 7) : ip.v6u16 t / 2 ^ 8 % 256 = ip.v6 (2 * t) := by
  simp only [v6u16, v6]
  interval_cases t <;> norm_num <;> omega

theorem v6u16_lo (ip : Addr) (t : Nat) (ht : t ≤ 7) : ip.v6u16 t % 256 = ip.v6 (2 * t + 1) := by
  simp only [v6u16, v6]
  interval_cases t <;> norm_num

/-- After the groups `t, ..., t + k - 1` have been stored from index `i` on, the
bytes at `i, ..., i + 2k - 1` are the bytes `2t, ...` of the address. -/
theorem writeGroups_getD (ip : Addr) : ∀ (k i t : Nat) (bs : List Nat) (j : Nat),
    i + 2 * k ≤ bs.length → t + k ≤ 8 →
    (writeGroups ip i t k bs).getD j 0 =
      if i ≤ j ∧ j < i + 2 * k then ip.v6 (2 * t + (j - i)) else bs.getD j 0
  | 0, i, t, bs, j, _, _ => by
    simp only [writeGroups]
    split_ifs with h
    · omega
    · rfl
  | k + 1, i, t, bs, j, h1, h2 => by
    simp only [writeGroups]
    rw [writeGroups_getD ip k (i + 2) (t + 1) _ j (by rw [writeGroup_length]; omega) (by omega),
      writeGroup_getD _ _ _ _ (by omega), v6u16_hi ip t (by omega), v6u16_lo ip t (by omega)]
    by_cases c1 : i + 2 ≤ j ∧ j < i + 2 + 2 * k
    · have c2 : i ≤ j ∧ j < i + 2 * (k + 1) := by omega
      simp only [c1, c2, and_self, if_true]
      congr 1; omega
    · simp only [c1, if_false]
      by_cases c3 : j = i
      · subst c3; simp
      · by_cases c4 : j = i + 1
        · subst c4
          have c6 : 1 < 2 * (k + 1) := by omega
          simp [c6]
        · have c5 : ¬ (i ≤ j ∧ j < i + 2 * (k + 1)) := by omega
          simp [c3, c4, c5]

theorem expandCopy_getD (n e : Nat) : ∀ (k : Nat) (bs : List Nat) (j : Nat),
    e + k + n ≤ bs.length →
    (expandCopy n e k bs).getD j 0 =
      if e + n ≤ j ∧ j < e + k + n then bs.getD (j - n) 0 else bs.getD j 0
  | 0, bs, j, _ => by
    simp only [expandCopy]
    split_ifs with h
    · omega
    · rfl
  | k + 1, bs, j, h => by
    simp only [expandCopy]
    rw [expandCopy_getD n e k _ j (by simp; omega)]
    simp only [getD_set]
    by_cases c1 : e + n ≤ j ∧ j < e + k + n
    · have c2 : e + n ≤ j ∧ j < e + (k + 1) + n := by omega
      have c3 : ¬ (e + k + n = j - n ∧ e + k + n < bs.length) := by omega
      simp [c1, c2, c3]
    · by_cases c4 : j = e + k + n
      · subst c4
        have c2 : e + n ≤ e + k + n ∧ e + k + n < e + (k + 1) + n := by omega
        have c5 : e + k + n < bs.length := by omega
        simp [c1, c2, c5]
      · have c2 : ¬ (e + n ≤ j ∧ j < e + (k + 1) + n) := by omega
        have c3 : ¬ (e + k + n = j ∧ e + k + n < bs.length) := by omega
        simp [c1, c2, c3]

theorem clearBytes_getD (lo : Nat) : ∀ (k : Nat) (bs : List Nat) (j : Nat),
    (clearBytes lo k bs).getD j 0 = if lo ≤ j ∧ j < lo + k then 0 else bs.getD j 0
  | 0, bs, j => by
    simp only [clearBytes]
    split_ifs with h
    · omega
    · rfl
  | k + 1, bs, j => by
    simp only [clearBytes]
    rw [clearBytes_getD lo k _ j]
    simp only [getD_set]
    by_cases c1 : lo ≤ j ∧ j < lo + k
    · have c2 : lo ≤ j ∧ j < lo + (k + 1) := by omega
      simp [c1, c2]
    · by_cases c4 : j = lo + k
      · subst c4
        by_cases c5 : lo + k < bs.length
        · simp [c5]
        · simp [c5, List.getElem?_eq_none (Nat.le_of_not_lt c5)]
      · have c2 : ¬ (lo ≤ j ∧ j < lo + (k + 1)) := by omega
        have c3 : ¬ (lo + k = j ∧ lo + k < bs.length) := by omega
        simp [c1, c2, c3]

theorem from16_of_bytes (ip : Addr) (hx : ip.addr < two128) (l : List Nat) (hl : l.length = 16)
    (h : ∀ j, j < 16 → l.getD j 0 = ip.v6 j) : from16 l = ⟨ip.addr, Zone.z6 []⟩ := by
  have e : l = (List.range 16).map ip.v6 := by
    apply List.ext_getElem
    · simp [hl]
    · intro n h1 h2
      have := h n (by omega)
      rw [List.getD_eq_getElem _ _ h1] at this
      simp [this]
  have s := setBytes_AsSlice ⟨ip.addr, Zone.z6 []⟩ [] rfl hx
  simp only [setBytes, AsSlice] at s
  have e2 : (List.range 16).map (Addr.mk ip.addr (Zone.z6 [])).v6 = (List.range 16).map ip.v6 := rfl
  rw [e2, ← e] at s
  simp only [from16, s]

theorem v6_zero_of_group (ip : Addr) (j : Nat) (hj : j < 16) (h : ip.v6u16 (j / 2) = 0) :
    ip.v6 j = 0 := by
  have h1 := v6u16_hi ip (j / 2) (by omega)
  have h2 := v6u16_lo ip (j / 2) (by omega)
  rw [h] at h1 h2
  rcases Nat.mod_two_eq_zero_or_one j with hm | hm
  · rw [show 2 * (j / 2) = j by omega] at h1
    rw [← h1]; rfl
  · rw [show 2 * (j / 2) + 1 = j by omega] at h2
    rw [← h2]

/-- The bytes that `parseIPv6` builds from the text with the run of zero groups
`zs, ..., ze - 1` written `::` are the bytes of the address. -/
theorem expand_bytes (ip : Addr) (hx : ip.addr < two128) (zs ze : Nat) (h1 : zs + 2 ≤ ze)
    (h2 : ze ≤ 8) (hz : ∀ t, zs ≤ t → t < ze → ip.v6u16 t = 0) :
    from16 (clearBytes (2 * zs) (2 * (ze - zs)) (expandCopy (2 * (ze - zs)) (2 * zs) (2 * (8 - ze))
      (writeGroups ip (2 * zs) ze (8 - ze) (writeGroups ip 0 0 zs (List.replicate 16 0)))))
      = ⟨ip.addr, Zone.z6 []⟩ := by
  apply from16_of_bytes ip hx
  · simp [clearBytes_length, expandCopy_length, writeGroups_length]
  · intro j hj
    rw [clearBytes_getD, expandCopy_getD _ _ _ _ _
      (by simp only [writeGroups_length, List.length_replicate]; omega)]
    by_cases c1 : 2 * zs ≤ j ∧ j < 2 * zs + 2 * (ze - zs)
    · simp only [c1, and_self, if_true]
      exact (v6_zero_of_group ip j hj (hz _ (by omega) (by omega))).symm
    · simp only [c1, if_false]
      by_cases c2 : 2 * zs + 2 * (ze - zs) ≤ j ∧ j < 2 * zs + 2 * (8 - ze) + 2 * (ze - zs)
      · simp only [c2, and_self, if_true]
        rw [writeGroups_getD ip _ _ _ _ _
          (by simp only [writeGroups_length, List.length_replicate]; omega) (by omega)]
        have c3 : 2 * zs ≤ j - 2 * (ze - zs) ∧ j - 2 * (ze - zs) < 2 * zs + 2 * (8 - ze) := by omega
        simp only [c3, and_self, if_true]
        congr 1; omega
      · simp only [c2, if_false]
        rw [writeGroups_getD ip _ _ _ _ _
          (by simp only [writeGroups_length, List.length_replicate]; omega) (by omega)]
        have c3 : ¬ (2 * zs ≤ j ∧ j < 2 * zs + 2 * (8 - ze)) := by omega
        simp only [c3, if_false]
        rw [writeGroups_getD ip _ _ _ _ _ (by simp only [List.length_replicate]; omega) (by omega)]
        have c4 : 0 ≤ j ∧ j < 0 + 2 * zs := by omega
        simp only [c4, and_self, if_true]
        congr 1; omega

theorem full_bytes (ip : Addr) (hx : ip.addr < two128) :
    from16 (writeGroups ip 0 0 8 (List.replicate 16 0)) = ⟨ip.addr, Zone.z6 []⟩ := by
  apply from16_of_bytes ip hx
  · simp [writeGroups_length]
  · intro j hj
    rw [writeGroups_getD ip _ _ _ _ _ (by simp only [List.length_replicate]; omega) (by omega)]
    have c4 : 0 ≤ j ∧ j < 0 + 2 * 8 := by omega
    simp only [c4, and_self, if_true]
    congr 1; omega

theorem writeGroups_succ (ip : Addr) : ∀ (k i t : Nat) (bs : List Nat),
    writeGroups ip i t (k + 1) bs
      = writeGroup (writeGroups ip i t k bs) (i + 2 * k) (ip.v6u16 (t + k))
  | 0, i, t, bs => by simp [writeGroups]
  | k + 1, i, t, bs => by
    rw [writeGroups, writeGroups_succ ip k (i + 2) (t + 1)]
    rw [show i + 2 + 2 * k = i + 2 * (k + 1) by omega, show t + 1 + k = t + (k + 1) by omega]
    rfl

/-! ## `ParseAddr` reads back the text of an IPv6 address -/

theorem indexByte_none (s : Str) (x : Char) (h : ∀ c ∈ s, c ≠ x) : indexByte s x = none := by
  induction s with
  | nil => rfl
  | cons c cs ih =>
    have h1 : c ≠ x := h c (List.mem_cons_self _ _)
    simp only [indexByte, beq_iff_eq, h1, if_false,
      ih fun c' hc' => h c' (List.mem_cons_of_mem _ hc')]
    rfl

theorem ParseAddrScan_v6 (s0 : Str) : ∀ s : Str, (∀ c ∈ s, (hexVal c).isSome = true ∨ c = ':') →
    ':' ∈ s → ParseAddrScan s0 s = parseIPv6 s0
  | [], _, h => by simp at h
  | c :: cs, h, hm => by
    rcases h c (List.mem_cons_self _ _) with hc | hc
    · have := hexVal_sep hc
      simp only [ParseAddrScan, beq_iff_eq, this.1, this.2.1, this.2.2, if_false]
      refine ParseAddrScan_v6 s0 cs (fun c' hc' => h c' (List.mem_cons_of_mem _ hc')) ?_
      rcases List.mem_cons.mp hm with h1 | h1
      · exact absurd h1.symm this.2.1
      · exact h1
    · subst hc
      simp [ParseAddrScan]

theorem colonGroups_class (ip : Addr) : ∀ (k t : Nat), ∀ c ∈ colonGroups ip t k,
    (hexVal c).isSome = true ∨ c = ':'
  | 0, _, c, h => by simp [colonGroups] at h
  | k + 1, t, c, h => by
    simp only [colonGroups, List.mem_cons, List.mem_append] at h
    rcases h with h | h | h
    · exact Or.inr h
    · exact Or.inl (appendHex_hex _ (v6u16_lt _ _) c h)
    · exact colonGroups_class ip k (t + 1) c h

/-- The text of an IPv6 address without zone, from the shape of `appendTo6_shape`. -/
theorem appendTo6_text (ip : Addr) (hz : ip.z = Zone.z6 []) :
    ip.appendTo6 [] = appendTo6Loop ip (zeroRun ip 8 (255, 255)).1 (zeroRun ip 8 (255, 255)).2 8 0 []
    := by
  simp [appendTo6, hz]

theorem parseIPv6_plain (s : Str) (hp : indexByte s '%' = none) (c : Char) (cs : Str)
    (hs : s = c :: cs) (hc : c ≠ ':') :
    parseIPv6 s = parseIPv6Finish [] (parseIPv6Loop 8 s 0 (List.replicate 16 0) none) := by
  subst hs
  simp only [parseIPv6, hp, parseIPv6Addr]
  split
  · rename_i heq
    simp only [List.cons.injEq] at heq
    exact absurd heq.1 hc
  · rfl

theorem parseIPv6_lead (c : Char) (rest : Str)
    (hp : indexByte (':' :: ':' :: c :: rest) '%' = none) :
    parseIPv6 (':' :: ':' :: c :: rest)
      = parseIPv6Finish [] (parseIPv6Loop 8 (c :: rest) 0 (List.replicate 16 0) (some 0)) := by
  simp [parseIPv6, hp, parseIPv6Addr]

/-- The second part of the text, after `::`: the groups from `ze` to the end. -/
theorem parseIPv6Loop_rest (ip : Addr) (ze i n : Nat) (bs : List Nat) (e : Option Nat)
    (hze : ze < 8) (hi : i + 2 * (7 - ze) < 16) :
    parseIPv6Loop (n + 1 + (7 - ze)) (appendHex [] (ip.v6u16 ze) ++ colonGroups ip (ze + 1) (7 - ze))
      i bs e = some ⟨[], i + 2 * (8 - ze), writeGroups ip i ze (8 - ze) bs, e⟩ := by
  have := parseIPv6Loop_groups ip [] e (7 - ze) (n + 1) ze i bs hi
  simp only [List.append_nil] at this
  rw [this, parseIPv6Loop_group_end _ _ _ (v6u16_lt _ _) (by omega),
    show 8 - ze = (7 - ze) + 1 by omega, writeGroups_succ]
  congr 2

theorem from16_zeros : from16 (List.replicate 16 0) = ⟨0, Zone.z6 []⟩ := by decide

theorem WithZone_nil (x : Nat) : (Addr.mk x (Zone.z6 [])).WithZone [] = ⟨x, Zone.z6 []⟩ := rfl

theorem hex_or_colon_append {a b : Str} (ha : ∀ c ∈ a, (hexVal c).isSome = true ∨ c = ':')
    (hb : ∀ c ∈ b, (hexVal c).isSome = true ∨ c = ':') :
    ∀ c ∈ a ++ b, (hexVal c).isSome = true ∨ c = ':' := by
  intro c hc
  rcases List.mem_append.mp hc with h | h
  · exact ha c h
  · exact hb c h

theorem groups_class (ip : Addr) (t k : Nat) :
    ∀ c ∈ appendHex [] (ip.v6u16 t) ++ colonGroups ip (t + 1) k,
      (hexVal c).isSome = true ∨ c = ':' :=
  hex_or_colon_append (fun c hc => Or.inl (appendHex_hex _ (v6u16_lt _ _) c hc))
    (colonGroups_class ip k (t + 1))

/-- `parseIPv6` reads back the text that `appendTo6` writes for an address
without zone. -/
theorem ParseAddr_appendTo6 (ip : Addr) (hz : ip.z = Zone.z6 []) (hx : ip.addr < two128) :
    ParseAddr (ip.appendTo6 []) = some ip := by
  have hip : ip = ⟨ip.addr, Zone.z6 []⟩ := by rw [← hz]
  have hb := zeroRun_spec ip 8 (255, 255) (Or.inl rfl)
  rw [appendTo6_text ip hz, appendTo6_shape ip _ hb]
  generalize zeroRun ip 8 (255, 255) = b at hb
  obtain ⟨zs, ze⟩ := b
  obtain ⟨c0, cs0, hcs0, hc0⟩ := appendHex_cons (ip.v6u16 0) (v6u16_lt _ _)
  rcases hb with hb | ⟨h1, h2, h3⟩
  · -- no run of zeros: eight groups
    simp only [hb, if_true]
    have hcl := groups_class ip 0 7
    have hmem : ':' ∈ appendHex [] (ip.v6u16 0) ++ colonGroups ip (0 + 1) 7 := by
      simp [colonGroups]
    rw [ParseAddr, ParseAddrScan_v6 _ _ hcl hmem, parseIPv6_plain _
      (indexByte_none _ _ fun c hc => by
        rcases hcl c hc with h | h
        · exact (hexVal_sep h).2.2
        · rw [h]; decide) c0 (cs0 ++ colonGroups ip 1 7) (by rw [hcs0]; rfl) (ne_colon_of_hex hc0)]
    have := parseIPv6Loop_groups ip [] none 7 1 0 0 (List.replicate 16 0) (by omega)
    simp only [List.append_nil, Nat.zero_add] at this
    rw [this, parseIPv6Loop_group_end _ _ _ (v6u16_lt _ _) (by omega)]
    have w := writeGroups_succ ip 7 0 0 (List.replicate 16 0)
    simp only [Nat.zero_add] at w
    rw [← w]
    simp only [parseIPv6Finish]
    simp only [bne_self_eq_false, Bool.false_eq_true, if_false, Nat.lt_irrefl,
      Option.isSome_none]
    rw [full_bytes ip hx, WithZone_nil, ← hip]
  · simp only at h1 h2 h3
    have hne : (zs, ze) ≠ (255, 255) := by
      simp only [ne_eq, Prod.mk.injEq]; omega
    simp only [hne, if_false]
    have key := expand_bytes ip hx zs ze h1 h2 h3
    -- the characters of the text
    have hA : ∀ c ∈ (if zs = 0 then [] else appendHex [] (ip.v6u16 0) ++ colonGroups ip 1 (zs - 1)),
        (hexVal c).isSome = true ∨ c = ':' := by
      split_ifs
      · simp
      · exact groups_class ip 0 (zs - 1)
    have hB : ∀ c ∈ (if ze = 8 then [] else
        appendHex [] (ip.v6u16 ze) ++ colonGroups ip (ze + 1) (7 - ze)),
        (hexVal c).isSome = true ∨ c = ':' := by
      split_ifs
      · simp
      · exact groups_class ip ze (7 - ze)
    have hcl := hex_or_colon_append hA (hex_or_colon_append
      (show ∀ c ∈ [':', ':'], (hexVal c).isSome = true ∨ c = ':' by simp) hB)
    simp only [List.cons_append, List.nil_append] at hcl
    have hnp := indexByte_none _ '%' fun c hc => by
      rcases hcl c hc with h | h
      · exact (hexVal_sep h).2.2
      · rw [h]; decide
    rw [ParseAddr, ParseAddrScan_v6 _ _ hcl (by simp)]
    by_cases hzs : zs = 0
    · subst hzs
      simp only [if_true, List.nil_append] at hnp ⊢
      by_cases hze : ze = 8
      · subst hze
        simp only [if_true]
        have : ip = ⟨0, Zone.z6 []⟩ := by
          have := from16_of_bytes ip hx (List.replicate 16 0) (by simp) fun j hj => by
            rw [v6_zero_of_group ip j hj (h3 _ (by omega) (by omega))]
            interval_cases j <;> rfl
          rw [from16_zeros] at this
          rw [hip, ← this]
        rw [this]
        decide
      · simp only [hze, if_false] at hnp ⊢
        obtain ⟨c, cs, hcs, hc⟩ := appendHex_cons (ip.v6u16 ze) (v6u16_lt _ _)
        have e1 : appendHex [] (ip.v6u16 ze) ++ colonGroups ip (ze + 1) (7 - ze)
            = c :: (cs ++ colonGroups ip (ze + 1) (7 - ze)) := by rw [hcs]; rfl
        rw [e1] at hnp ⊢
        rw [parseIPv6_lead c _ hnp, ← e1]
        have := parseIPv6Loop_rest ip ze 0 ze (List.replicate 16 0) (some 0) (by omega) (by omega)
        rw [show ze + 1 + (7 - ze) = 8 by omega] at this
        rw [this]
        simp only [parseIPv6Finish, bne_self_eq_false, Bool.false_eq_true, if_false]
        have hi : 0 + 2 * (8 - ze) < 16 := by omega
        simp only [hi, if_true]
        simp only [writeGroups, Nat.mul_zero] at key
        rw [show 16 - (0 + 2 * (8 - ze)) = 2 * (ze - 0) by omega,
          show 0 + 2 * (8 - ze) - 0 = 2 * (8 - ze) by omega, key, WithZone_nil, ← hip]
    · obtain ⟨m, rfl⟩ : ∃ m, zs = m + 1 := ⟨zs - 1, by omega⟩
      simp only [hzs, if_false, Nat.add_sub_cancel, List.append_assoc] at hnp ⊢
      have e0 : appendHex [] (ip.v6u16 0) ++ (colonGroups ip 1 m ++ ':' :: ':' ::
          (if ze = 8 then [] else appendHex [] (ip.v6u16 ze) ++ colonGroups ip (ze + 1) (7 - ze)))
          = c0 :: (cs0 ++ (colonGroups ip 1 m ++ ':' :: ':' ::
          (if ze = 8 then [] else appendHex [] (ip.v6u16 ze) ++ colonGroups ip (ze + 1) (7 - ze))))
          := by rw [hcs0]; rfl
      rw [parseIPv6_plain _ hnp c0 _ e0 (ne_colon_of_hex hc0)]
      have w := writeGroups_succ ip m 0 0 (List.replicate 16 0)
      by_cases hze : ze = 8
      · subst hze
        simp only [if_true]
        have := parseIPv6Loop_groups ip [':', ':'] none m (8 - m) 0 0 (List.replicate 16 0)
          (by omega)
        rw [show 8 - m + m = 8 by omega] at this
        rw [this, show 8 - m = (7 - m) + 1 by omega,
          parseIPv6Loop_group_ellipsis_end _ _ _ (v6u16_lt _ _) (by omega), ← w]
        simp only [parseIPv6Finish, bne_self_eq_false, Bool.false_eq_true, if_false]
        have hi : 0 + 2 * m + 2 < 16 := by omega
        simp only [hi, if_true]
        have key' : from16 (clearBytes (2 * (m + 1)) (2 * (8 - (m + 1)))
            (writeGroups ip 0 0 (m + 1) (List.replicate 16 0))) = ⟨ip.addr, Zone.z6 []⟩ := key
        rw [show 0 + 2 * m + 2 - (0 + 2 * m + 2) = 0 by omega]
        simp only [expandCopy]
        rw [show 16 - (0 + 2 * m + 2) = 2 * (8 - (m + 1)) by omega,
          show 0 + 2 * m + 2 = 2 * (m + 1) by omega, key', WithZone_nil, ← hip]
      · simp only [hze, if_false]
        obtain ⟨c, cs, hcs, hc⟩ := appendHex_cons (ip.v6u16 ze) (v6u16_lt _ _)
        have e1 : appendHex [] (ip.v6u16 ze) ++ colonGroups ip (ze + 1) (7 - ze)
            = c :: (cs ++ colonGroups ip (ze + 1) (7 - ze)) := by rw [hcs]; rfl
        have := parseIPv6Loop_groups ip (':' :: ':' :: c :: (cs ++ colonGroups ip (ze + 1) (7 - ze)))
          none m (8 - m) 0 0 (List.replicate 16 0) (by omega)
        rw [show 8 - m + m = 8 by omega] at this
        rw [e1, this, show 8 - m = (7 - m) + 1 by omega,
          parseIPv6Loop_group_ellipsis _ _ _ (v6u16_lt _ _) (by omega), ← w, ← e1]
        have r := parseIPv6Loop_rest ip ze (0 + 2 * m + 2) (ze - (m + 1))
          (writeGroups ip 0 0 (m + 1) (List.replicate 16 0)) (some (0 + 2 * m + 2)) (by omega)
          (by omega)
        rw [show ze - (m + 1) + 1 + (7 - ze) = 7 - m by omega] at r
        rw [r]
        simp only [parseIPv6Finish, bne_self_eq_false, Bool.false_eq_true, if_false]
        have hi : 0 + 2 * m + 2 + 2 * (8 - ze) < 16 := by omega
        simp only [hi, if_true]
        rw [show 16 - (0 + 2 * m + 2 + 2 * (8 - ze)) = 2 * (ze - (m + 1)) by omega,
          show 0 + 2 * m + 2 + 2 * (8 - ze) - (0 + 2 * m + 2) = 2 * (8 - ze) by omega,
          show 0 + 2 * m + 2 = 2 * (m + 1) by omega, key, WithZone_nil, ← hip]

/-! ## `ParseAddr` reads back the text of an IPv4-mapped IPv6 address -/

theorem hexVal_of_isDigit_lt (c : Char) (h : isDigit c = true) : ∃ d, d < 10 ∧ hexVal c = some d := by
  simp [isDigit] at h
  exact ⟨c.toNat - 48, by omega, by simp [hexVal, h]⟩

theorem hexLoop_digits (rest : Str) : ∀ (ds : Str) (off acc : Nat), (∀ c ∈ ds, isDigit c = true) →
    off + ds.length ≤ 4 → acc < 16 ^ off →
    ∃ acc', hexLoop (ds ++ '.' :: rest) off acc = some (acc', off + ds.length, '.' :: rest)
  | [], off, acc, _, _, _ =>
    ⟨acc, by simpa using hexLoop_stop ('.' :: rest) (by simp; decide) off acc⟩
  | c :: cs, off, acc, h, hl, ha => by
    obtain ⟨d, hd, hv⟩ := hexVal_of_isDigit_lt c (h c (List.mem_cons_self _ _))
    simp only [List.length_cons] at hl
    have h16 : (16 : Nat) ^ (off + 1) ≤ 16 ^ 4 := Nat.pow_le_pow_right (by norm_num) (by omega)
    have hp : (16 : Nat) ^ (off + 1) = 16 ^ off * 16 := by ring
    have hacc : (acc * 16 + d) % two32 < 16 ^ (off + 1) := by
      have : acc * 16 + d < 16 ^ (off + 1) := by rw [hp]; omega
      exact lt_of_le_of_lt (Nat.mod_le _ _) this
    obtain ⟨acc', h'⟩ := hexLoop_digits rest cs (off + 1) _
      (fun c' hc' => h c' (List.mem_cons_of_mem _ hc')) (by omega) hacc
    refine ⟨acc', ?_⟩
    have c1 : ¬ off > 3 := by omega
    have c2 : ¬ (acc * 16 + d) % two32 > 65535 := by
      have := lt_of_lt_of_le hacc h16
      have e4 : (16 : Nat) ^ 4 = 65536 := by norm_num
      rw [e4] at this
      exact Nat.not_lt.mpr (by omega)
    rw [show off + 1 + cs.length = off + (cs.length + 1) by omega] at h'
    simp only [List.cons_append, hexLoop, hv, c1, c2, if_false, List.length_cons]
    exact h'

theorem appendDecimal_length (x : Nat) :
    1 ≤ (appendDecimal [] x).length ∧ (appendDecimal [] x).length ≤ 3 := by
  simp only [appendDecimal]
  split_ifs <;> simp

/-- The iteration of the main loop of `parseIPv6` that meets a trailing dotted
quad. -/
theorem parseIPv6Loop_embedded (n i a b c d : Nat) (ha : a ≤ 255) (hb : b ≤ 255) (hc : c ≤ 255)
    (hd : d ≤ 255) (hi : i + 4 ≤ 16) (bs : List Nat) (e : Nat) :
    parseIPv6Loop (n + 1) (appendDecimal [] a ++ '.' :: (appendDecimal [] b ++ '.' ::
      (appendDecimal [] c ++ '.' :: appendDecimal [] d))) i bs (some e)
      = some ⟨[], i + 4, (((bs.set i a).set (i + 1) b).set (i + 2) c).set (i + 3) d, some e⟩ := by
  obtain ⟨acc, hacc⟩ := hexLoop_digits (appendDecimal [] b ++ '.' ::
      (appendDecimal [] c ++ '.' :: appendDecimal [] d)) (appendDecimal [] a) 0 0
    (appendDecimal_digits a ha) (by have := appendDecimal_length a; omega) (by norm_num)
  have hl := (appendDecimal_length a).1
  have h0 : ¬ (0 + (appendDecimal [] a).length = 0) := by omega
  have h1 : i < 16 := by omega
  have h2 : ¬ (i + 4 > 16) := by omega
  simp [parseIPv6Loop, hacc, h0, h1, h2, parseIPv4Fields_dotted a b c d ha hb hc hd]
  exact appendDecimal_ne_nil a

/-- `ParseAddr` reads back the text `::ffff:a.b.c.d`. -/
theorem ParseAddr_String_4in6 (x : Nat) (h : x / two32 = 0xffff) :
    ParseAddr (Addr.mk x (Zone.z6 [])).String = some ⟨x, Zone.z6 []⟩ := by
  have h46 : (Addr.mk x (Zone.z6 [])).Is4In6 = true := by
    simp [Is4In6, Is6, h]
  have hu : (Addr.mk x (Zone.z6 [])).Unmap = ⟨x, Zone.z4⟩ := by
    simp [Unmap, h46]
  have e : (Addr.mk x (Zone.z6 [])).String
      = "::ffff:".toList ++ (Addr.mk x Zone.z4).appendTo4 [] := by
    simp [Addr.String, h46, hu, Addr.Zone]
  rw [e, appendTo4_eq]
  set a := (Addr.mk x Zone.z4).v4 0 with ha
  set b := (Addr.mk x Zone.z4).v4 1 with hb
  set c := (Addr.mk x Zone.z4).v4 2 with hc
  set d := (Addr.mk x Zone.z4).v4 3 with hd
  have la : a ≤ 255 := v4_le _ 0
  have lb : b ≤ 255 := v4_le _ 1
  have lc : c ≤ 255 := v4_le _ 2
  have ld : d ≤ 255 := v4_le _ 3
  set quad := appendDecimal [] a ++ '.' :: (appendDecimal [] b ++ '.' ::
      (appendDecimal [] c ++ '.' :: appendDecimal [] d)) with hq
  have hqc : ∀ ch ∈ quad, isDigit ch = true ∨ ch = '.' := by
    intro ch hch
    simp only [hq, List.mem_append, List.mem_cons] at hch
    rcases hch with h1 | h1 | h1 | h1 | h1 | h1 | h1
    · exact Or.inl (appendDecimal_digits a la ch h1)
    · exact Or.inr h1
    · exact Or.inl (appendDecimal_digits b lb ch h1)
    · exact Or.inr h1
    · exact Or.inl (appendDecimal_digits c lc ch h1)
    · exact Or.inr h1
    · exact Or.inl (appendDecimal_digits d ld ch h1)
  obtain ⟨q0, qs, hqs⟩ := List.exists_cons_of_ne_nil (appendDecimal_ne_nil a)
  have hq0 : (hexVal q0).isSome = true :=
    hexVal_of_isDigit q0 (appendDecimal_digits a la q0 (by rw [hqs]; exact List.mem_cons_self _ _))
  have hquad : quad = q0 :: (qs ++ '.' :: (appendDecimal [] b ++ '.' ::
      (appendDecimal [] c ++ '.' :: appendDecimal [] d))) := by
    rw [hq, hqs]; rfl
  have hnp : indexByte (':' :: ':' :: 'f' :: ('f' :: 'f' :: 'f' :: ':' :: quad)) '%' = none := by
    apply indexByte_none
    intro ch hch
    simp only [List.mem_cons] at hch
    rcases hch with h1 | h1 | h1 | h1 | h1 | h1 | h1 | h1
    any_goals (rw [h1]; decide)
    rcases hqc ch h1 with h2 | h2
    · exact (hexVal_sep (hexVal_of_isDigit ch h2)).2.2
    · rw [h2]; decide
  have etext : "::ffff:".toList ++ quad
      = ':' :: ':' :: 'f' :: ('f' :: 'f' :: 'f' :: ':' :: quad) := rfl
  rw [etext, ParseAddr]
  have scan : ParseAddrScan (':' :: ':' :: 'f' :: ('f' :: 'f' :: 'f' :: ':' :: quad))
      (':' :: ':' :: 'f' :: ('f' :: 'f' :: 'f' :: ':' :: quad))
      = parseIPv6 (':' :: ':' :: 'f' :: ('f' :: 'f' :: 'f' :: ':' :: quad)) := by
    simp [ParseAddrScan]
  rw [scan, parseIPv6_lead 'f' _ hnp]
  have e1 : 'f' :: ('f' :: 'f' :: 'f' :: ':' :: quad)
      = appendHex [] 0xffff ++ ':' :: q0 :: (qs ++ '.' :: (appendDecimal [] b ++ '.' ::
      (appendDecimal [] c ++ '.' :: appendDecimal [] d))) := by
    rw [hquad]; rfl
  rw [e1, parseIPv6Loop_group_colon 7 0xffff 0 (by norm_num) (by norm_num) q0 hq0, ← hquad, hq,
    parseIPv6Loop_embedded 6 (0 + 2) a b c d la lb lc ld (by norm_num)]
  have hbytes : ((((writeGroup (List.replicate 16 0) 0 0xffff).set (0 + 2) a).set (0 + 2 + 1) b).set
      (0 + 2 + 2) c).set (0 + 2 + 3) d = [255, 255, a, b, c, d, 0, 0, 0, 0, 0, 0, 0, 0, 0, 0] := by
    simp [writeGroup, List.replicate, List.set]
  rw [hbytes]
  simp only [parseIPv6Finish, bne_self_eq_false, Bool.false_eq_true, if_false]
  simp [expandCopy, clearBytes, List.set, List.getD, from16, WithZone, Is6]
  simp only [ha, hb, hc, hd, v4, two32] at *
  norm_num at *
  omega

/-! ## The text of an address, and reading it back -/

/-- `ParseAddr` reads back the text of every valid address without zone. -/
theorem ParseAddr_String (ip : Addr) (hw : ip.WF) (hz : ip.z = Zone.z4 ∨ ip.z = Zone.z6 []) :
    ParseAddr ip.String = some ip := by
  rcases ip with ⟨x, z⟩
  rcases hz with hz | hz <;> simp only at hz <;> subst hz
  · exact ParseAddr_String_v4 x (hw.2 rfl)
  · by_cases h : x / two32 = 0xffff
    · exact ParseAddr_String_4in6 x h
    · have e : (Addr.mk x (Zone.z6 [])).String = (Addr.mk x (Zone.z6 [])).appendTo6 [] := by
        simp [Addr.String, Is4In6, h]
      rw [e]
      exact ParseAddr_appendTo6 _ rfl hw.1

theorem inAddrClass_digit (k : Nat) (h : k < 16) : inAddrClass (digit k) = true := by
  interval_cases k <;> rfl

theorem appendHex_class (ret : Str) (x : Nat) (hx : x < 65536) :
    ∀ c ∈ appendHex ret x, c ∈ ret ∨ inAddrClass c = true := by
  have d0 := inAddrClass_digit (x % 16) (by omega)
  have d1 := inAddrClass_digit (x / 16 % 16) (by omega)
  have d2 := inAddrClass_digit (x / 256 % 16) (by omega)
  have d3 := inAddrClass_digit (x / 4096) (by omega)
  intro c hc
  simp only [appendHex] at hc
  split_ifs at hc <;> simp at hc <;> aesop

theorem appendDecimal_class (ret : Str) (x : Nat) (hx : x ≤ 255) :
    ∀ c ∈ appendDecimal ret x, c ∈ ret ∨ inAddrClass c = true := by
  intro c hc
  rw [appendDecimal_eq] at hc
  rcases List.mem_append.mp hc with h | h
  · exact Or.inl h
  · have := appendDecimal_digits x hx c h
    exact Or.inr (by simp [inAddrClass, this])

theorem appendTo6Loop_class (ip : Addr) (zs ze : Nat) : ∀ (n i : Nat) (ret : Str),
    ∀ c ∈ appendTo6Loop ip zs ze n i ret, c ∈ ret ∨ inAddrClass c = true
  | 0, _, ret, c, h => Or.inl h
  | n + 1, i, ret, c, h => by
    have hcolon : inAddrClass ':' = true := by decide
    simp only [appendTo6Loop] at h
    split_ifs at h with h1 h2 h3 h4
    · simp only [List.mem_append, List.mem_cons] at h
      rcases h with h | h | h | h
      · exact Or.inl h
      · exact Or.inr (h ▸ hcolon)
      · exact Or.inr (h ▸ hcolon)
      · simp at h
    · rcases appendTo6Loop_class ip zs ze n _ _ c h with h | h
      · rcases appendHex_class _ _ (v6u16_lt _ _) c h with h | h
        · simp only [List.mem_append, List.mem_cons] at h
          rcases h with h | h | h | h
          · exact Or.inl h
          · exact Or.inr (h ▸ hcolon)
          · exact Or.inr (h ▸ hcolon)
          · simp at h
        · exact Or.inr h
      · exact Or.inr h
    · rcases appendTo6Loop_class ip zs ze n _ _ c h with h | h
      · rcases appendHex_class _ _ (v6u16_lt _ _) c h with h | h
        · simp only [List.mem_append, List.mem_singleton] at h
          rcases h with h | h
          · exact Or.inl h
          · exact Or.inr (h ▸ hcolon)
        · exact Or.inr h
      · exact Or.inr h
    · rcases appendTo6Loop_class ip zs ze n _ _ c h with h | h
      · rcases appendHex_class _ _ (v6u16_lt _ _) c h with h | h
        · exact Or.inl h
        · exact Or.inr h
      · exact Or.inr h
    · exact Or.inl h

theorem appendTo4_class (ip : Addr) : ∀ c ∈ ip.appendTo4 [], inAddrClass c = true := by
  intro c hc
  rw [appendTo4_eq] at hc
  have hdot : inAddrClass '.' = true := by decide
  have key : ∀ i, ∀ c ∈ appendDecimal [] (ip.v4 i), inAddrClass c = true := fun i c h => by
    rcases appendDecimal_class [] _ (v4_le ip i) c h with h | h
    · simp at h
    · exact h
  simp only [List.mem_append, List.mem_cons] at hc
  rcases hc with h | h | h | h | h | h | h
  · exact key 0 c h
  · exact h ▸ hdot
  · exact key 1 c h
  · exact h ▸ hdot
  · exact key 2 c h
  · exact h ▸ hdot
  · exact key 3 c h

/-- The text of a valid address without zone is made of the characters
`0-9`, `a-f`, `.` and `:`. -/
theorem String_class (ip : Addr) (hz : ip.z = Zone.z4 ∨ ip.z = Zone.z6 []) :
    ∀ c ∈ ip.String, inAddrClass c = true := by
  rcases ip with ⟨x, z⟩
  rcases hz with hz | hz <;> simp only at hz <;> subst hz
  · exact appendTo4_class _
  · intro c hc
    simp only [Addr.String, Addr.Zone] at hc
    split_ifs at hc with h1 h2
    · simp at h2
    · simp only [List.mem_append] at hc
      rcases hc with h | h
      · revert c; decide
      · exact appendTo4_class _ c h
    · simp only [appendTo6] at hc
      simp only [bne_self_eq_false, Bool.false_eq_true, if_false] at hc
      rcases appendTo6Loop_class _ _ _ _ _ _ c hc with h | h
      · simp at h
      · exact h

/-! ## Lower-casing does not change what the address parser reads -/

theorem lowerChar_upper (c : Char) (h : 65 ≤ c.toNat ∧ c.toNat ≤ 90) :
    (lowerChar c).toNat = c.toNat + 32 := by
  have e : c = Char.ofNat c.toNat := (Char.ofNat_toNat c).symm
  obtain ⟨h1, h2⟩ := h
  generalize c.toNat = n at e h1 h2
  subst e
  interval_cases n <;> rfl

theorem lowerChar_other (c : Char) (h : ¬ (65 ≤ c.toNat ∧ c.toNat ≤ 90)) : lowerChar c = c := by
  simp only [lowerChar]
  simp [h]

theorem isDigit_lowerChar (c : Char) : isDigit (lowerChar c) = isDigit c := by
  by_cases h : 65 ≤ c.toNat ∧ c.toNat ≤ 90
  · have := lowerChar_upper c h
    have l : isDigit (lowerChar c) = false := by
      simp only [isDigit, this]; simp; omega
    have r : isDigit c = false := by
      simp only [isDigit]; simp; omega
    rw [l, r]
  · rw [lowerChar_other c h]

theorem hexVal_lowerChar (c : Char) : hexVal (lowerChar c) = hexVal c := by
  by_cases h : 65 ≤ c.toNat ∧ c.toNat ≤ 90
  · have := lowerChar_upper c h
    simp only [hexVal, this]
    simp
    split_ifs <;> first | omega | rfl
  · rw [lowerChar_other c h]

theorem lowerChar_eq_iff (c x : Char) (hx : ¬ (97 ≤ x.toNat ∧ x.toNat ≤ 122))
    (hx' : ¬ (65 ≤ x.toNat ∧ x.toNat ≤ 90)) : lowerChar c = x ↔ c = x := by
  by_cases h : 65 ≤ c.toNat ∧ c.toNat ≤ 90
  · have := lowerChar_upper c h
    constructor
    · intro e; rw [e] at this; omega
    · intro e; rw [e] at h; exact absurd h hx'
  · rw [lowerChar_other c h]

theorem lowerChar_beq (c x : Char) (hx : ¬ (97 ≤ x.toNat ∧ x.toNat ≤ 122))
    (hx' : ¬ (65 ≤ x.toNat ∧ x.toNat ≤ 90)) : (lowerChar c == x) = (c == x) := by
  rw [Bool.eq_iff_iff, beq_iff_eq, beq_iff_eq]
  exact lowerChar_eq_iff c x hx hx'

theorem lowerChar_dot (c : Char) : (lowerChar c == '.') = (c == '.') :=
  lowerChar_beq c '.' (by decide) (by decide)

theorem lowerChar_colon (c : Char) : (lowerChar c == ':') = (c == ':') :=
  lowerChar_beq c ':' (by decide) (by decide)

theorem lowerChar_percent (c : Char) : (lowerChar c == '%') = (c == '%') :=
  lowerChar_beq c '%' (by decide) (by decide)

theorem lowerChar_digit_val (c : Char) (h : isDigit c = true) : lowerChar c = c := by
  apply lowerChar_other
  simp [isDigit] at h
  omega

theorem indexByte_map_lower (x : Char) (hx : ∀ c, (lowerChar c == x) = (c == x)) :
    ∀ s : Str, indexByte (s.map lowerChar) x = indexByte s x
  | [] => rfl
  | c :: cs => by
    simp only [List.map, indexByte, hx c, indexByte_map_lower x hx cs]

theorem lastIndexByte_map_lower (x : Char) (hx : ∀ c, (lowerChar c == x) = (c == x)) :
    ∀ s : Str, lastIndexByte (s.map lowerChar) x = lastIndexByte s x
  | [] => rfl
  | c :: cs => by
    simp only [List.map, lastIndexByte, hx c, lastIndexByte_map_lower x hx cs]

theorem parseIPv4FieldsLoop_lower : ∀ (s : Str) (prev : Option Char) (val pos digLen : Nat)
    (fields : List Nat),
    parseIPv4FieldsLoop (s.map lowerChar) (prev.map lowerChar) val pos digLen fields
      = parseIPv4FieldsLoop s prev val pos digLen fields
  | [], _, _, _, _, _ => rfl
  | c :: cs, prev, val, pos, digLen, fields => by
    have ih := fun p v po d f => parseIPv4FieldsLoop_lower cs p v po d f
    have ih' := fun v po d f => ih (some c) v po d f
    simp only [Option.map] at ih'
    have hprev : (prev.map lowerChar == some '.') = (prev == some '.') := by
      cases prev with
      | none => rfl
      | some p =>
        rw [Bool.eq_iff_iff, beq_iff_eq, beq_iff_eq]
        simp only [Option.map, Option.some.injEq]
        exact lowerChar_eq_iff p '.' (by decide) (by decide)
    have hnone : (prev.map lowerChar).isNone = prev.isNone := by cases prev <;> rfl
    have hemp : (cs.map lowerChar).isEmpty = cs.isEmpty := by cases cs <;> rfl
    simp only [List.map, parseIPv4FieldsLoop, isDigit_lowerChar, lowerChar_dot, hprev, hnone,
      hemp, ih']
    by_cases hd : isDigit c = true
    · simp only [hd, if_true, lowerChar_digit_val c hd]
    · simp only [hd, if_false]
      simp only [Bool.false_eq_true]
      simp

theorem parseIPv4Fields_lower (s : Str) :
    parseIPv4Fields (s.map lowerChar) = parseIPv4Fields s :=
  parseIPv4FieldsLoop_lower s none 0 0 0 [0, 0, 0, 0]

theorem hexLoop_lower : ∀ (s : Str) (off acc : Nat),
    hexLoop (s.map lowerChar) off acc
      = (hexLoop s off acc).map fun r => (r.1, r.2.1, r.2.2.map lowerChar)
  | [], _, _ => rfl
  | c :: cs, off, acc => by
    simp only [List.map, hexLoop, hexVal_lowerChar]
    cases hexVal c with
    | none => rfl
    | some d =>
      simp only
      split_ifs
      · rfl
      · rfl
      · exact hexLoop_lower cs _ _


theorem parseIPv6Loop_lower : ∀ (n : Nat) (s : Str) (i : Nat) (bs : List Nat) (e : Option Nat),
    parseIPv6Loop n (s.map lowerChar) i bs e = (parseIPv6Loop n s i bs e).map V6State.lower
  | 0, _, _, _, _ => rfl
  | n + 1, s, i, bs, e => by
    simp only [parseIPv6Loop, hexLoop_lower, parseIPv4Fields_lower]
    by_cases hi : i < 16
    swap
    · simp only [hi, if_false]; rfl
    simp only [hi, if_true]
    cases hexLoop s 0 0 with
    | none => rfl
    | some r =>
      obtain ⟨acc, off, rest⟩ := r
      simp only [Option.map]
      have hh : ((rest.map lowerChar).head? == some '.') = (rest.head? == some '.') := by
        cases rest with
        | nil => rfl
        | cons c cs =>
          rw [Bool.eq_iff_iff, beq_iff_eq, beq_iff_eq]
          simp only [List.map, List.head?, Option.some.injEq]
          exact lowerChar_eq_iff c '.' (by decide) (by decide)
      simp only [hh]
      by_cases h0 : (off == 0) = true
      · simp [h0]
      simp only [h0, if_false, Bool.false_eq_true]
      by_cases hd : (rest.head? == some '.') = true
      · simp only [hd, if_true, if_false, Bool.false_eq_true]
        by_cases h1 : (e.isNone && i != 12) = true
        · simp [h1]
        simp only [h1, if_false, Bool.false_eq_true]
        by_cases h2 : i + 4 > 16
        · simp [h2]
        simp only [h2, if_false, Bool.false_eq_true]
        cases parseIPv4Fields s <;> rfl
      simp only [hd, if_false, Bool.false_eq_true]
      cases rest with
      | nil => rfl
      | cons c s1 =>
        have hc : (lowerChar c != ':') = (c != ':') := by
          simp only [bne, lowerChar_colon]
        simp only [List.map, hc]
        by_cases h3 : (c != ':') = true
        · simp [h3]
        simp only [h3, if_false, Bool.false_eq_true]
        cases s1 with
        | nil => rfl
        | cons c1 s2 =>
          simp only [List.map, lowerChar_colon]
          by_cases h4 : (c1 == ':') = true
          · simp [h4]
            by_cases h5 : e.isSome = true
            · simp [h5]
            simp only [h5, if_false, Bool.false_eq_true]
            cases s2 with
            | nil => rfl
            | cons c2 s3 => exact parseIPv6Loop_lower n (c2 :: s3) _ _ _
          · simp only [h4, if_false, Bool.false_eq_true]
            exact parseIPv6Loop_lower n (c1 :: s2) _ _ _

theorem parseIPv6Finish_lower (zone : Str) (r : Option V6State) :
    parseIPv6Finish zone (r.map V6State.lower) = parseIPv6Finish zone r := by
  cases r with
  | none => rfl
  | some st =>
    have : (st.s.map lowerChar != []) = (st.s != []) := by
      cases st.s <;> rfl
    simp only [Option.map, parseIPv6Finish, V6State.lower, this]

theorem parseIPv6Addr_lower (zone : Str) : ∀ s : Str,
    parseIPv6Addr (s.map lowerChar) zone = parseIPv6Addr s zone
  | [] => rfl
  | [c] => by
    have e : ∀ x : Char, parseIPv6Addr [x] zone
        = parseIPv6Finish zone (parseIPv6Loop 8 [x] 0 (List.replicate 16 0) none) := by
      intro x
      simp only [parseIPv6Addr]
    rw [show [c].map lowerChar = [lowerChar c] from rfl, e, e,
      show [lowerChar c] = [c].map lowerChar from rfl, parseIPv6Loop_lower, parseIPv6Finish_lower]
  | c :: c1 :: rest => by
    have key : parseIPv6Finish zone (parseIPv6Loop 8 ((c :: c1 :: rest).map lowerChar) 0
        (List.replicate 16 0) none)
        = parseIPv6Finish zone (parseIPv6Loop 8 (c :: c1 :: rest) 0 (List.replicate 16 0) none) := by
      rw [parseIPv6Loop_lower, parseIPv6Finish_lower]
    have l : lowerChar ':' = ':' := by decide
    by_cases hc : c = ':'
    · by_cases hc1 : c1 = ':'
      · subst hc hc1
        simp only [List.map, l, parseIPv6Addr]
        have : (rest.map lowerChar == []) = (rest == []) := by cases rest <;> rfl
        rw [this, parseIPv6Loop_lower, parseIPv6Finish_lower]
      · have hl : lowerChar c1 ≠ ':' := fun e =>
          hc1 ((lowerChar_eq_iff c1 ':' (by decide) (by decide)).mp e)
        have e1 : parseIPv6Addr ((c :: c1 :: rest).map lowerChar) zone
            = parseIPv6Finish zone (parseIPv6Loop 8 ((c :: c1 :: rest).map lowerChar) 0
              (List.replicate 16 0) none) := by
          simp only [List.map, parseIPv6Addr]
          split
          · rename_i heq; simp only [List.cons.injEq] at heq; exact absurd heq.2.1 hl
          · rfl
        have e2 : parseIPv6Addr (c :: c1 :: rest) zone
            = parseIPv6Finish zone (parseIPv6Loop 8 (c :: c1 :: rest) 0
              (List.replicate 16 0) none) := by
          simp only [parseIPv6Addr]
          split
          · rename_i heq; simp only [List.cons.injEq] at heq; exact absurd heq.2.1 hc1
          · rfl
        rw [e1, e2, key]
    · have hl : lowerChar c ≠ ':' := fun e =>
        hc ((lowerChar_eq_iff c ':' (by decide) (by decide)).mp e)
      have e1 : parseIPv6Addr ((c :: c1 :: rest).map lowerChar) zone
          = parseIPv6Finish zone (parseIPv6Loop 8 ((c :: c1 :: rest).map lowerChar) 0
            (List.replicate 16 0) none) := by
        simp only [List.map, parseIPv6Addr]
        split
        · rename_i heq; simp only [List.cons.injEq] at heq; exact absurd heq.1 hl
        · rfl
      have e2 : parseIPv6Addr (c :: c1 :: rest) zone
          = parseIPv6Finish zone (parseIPv6Loop 8 (c :: c1 :: rest) 0
            (List.replicate 16 0) none) := by
        simp only [parseIPv6Addr]
        split
        · rename_i heq; simp only [List.cons.injEq] at heq; exact absurd heq.1 hc
        · rfl
      rw [e1, e2, key]

theorem parseIPv6_lower (s : Str) (h : indexByte s '%' = none) :
    parseIPv6 (s.map lowerChar) = parseIPv6 s := by
  have h' : indexByte (s.map lowerChar) '%' = none := by
    rw [indexByte_map_lower '%' lowerChar_percent, h]
  simp only [parseIPv6, h, h', parseIPv6Addr_lower]

theorem parseIPv4_lower (s : Str) : parseIPv4 (s.map lowerChar) = parseIPv4 s := by
  simp only [parseIPv4, parseIPv4Fields_lower]

theorem ParseAddrScan_lower (s0 : Str) (h : indexByte s0 '%' = none) : ∀ s : Str,
    ParseAddrScan (s0.map lowerChar) (s.map lowerChar) = ParseAddrScan s0 s
  | [] => rfl
  | c :: cs => by
    simp only [List.map, ParseAddrScan, lowerChar_dot, lowerChar_colon, lowerChar_percent,
      parseIPv4_lower, parseIPv6_lower s0 h, ParseAddrScan_lower s0 h cs]

/-- `ParseAddr` reads the same address from a text without `%` and from its
lower-cased form. -/
theorem ParseAddr_lower (s : Str) (h : indexByte s '%' = none) :
    ParseAddr (ToLower s) = ParseAddr s :=
  ParseAddrScan_lower s h s

/-! ## What `ParseAddr` accepts -/

theorem parseIPv4FieldsLoop_class : ∀ (s : Str) (prev : Option Char) (val pos digLen : Nat)
    (fields r : List Nat), parseIPv4FieldsLoop s prev val pos digLen fields = some r →
    ∀ c ∈ s, inDotClass c = true
  | [], _, _, _, _, _, _ => by simp
  | c :: cs, prev, val, pos, digLen, fields, r => by
    intro h
    simp only [parseIPv4FieldsLoop] at h
    by_cases hd : isDigit c = true
    · simp only [hd, if_true] at h
      split_ifs at h
      intro x hx
      rcases List.mem_cons.mp hx with rfl | hx
      · simp [inDotClass, hd]
      · exact parseIPv4FieldsLoop_class cs _ _ _ _ _ _ h x hx
    · simp only [hd, if_false, Bool.false_eq_true] at h
      split_ifs at h with h1
      intro x hx
      rcases List.mem_cons.mp hx with rfl | hx
      · simp only [beq_iff_eq] at h1
        simp [inDotClass, h1]
      · exact parseIPv4FieldsLoop_class cs _ _ _ _ _ _ h x hx

theorem parseIPv4FieldsLoop_bound : ∀ (s : Str) (prev : Option Char) (val pos digLen : Nat)
    (fields r : List Nat), parseIPv4FieldsLoop s prev val pos digLen fields = some r →
    val ≤ 255 → fields.length = 4 → (∀ b ∈ fields, b ≤ 255) →
    r.length = 4 ∧ ∀ b ∈ r, b ≤ 255
  | [], _, val, pos, _, fields, r => by
    intro h hv hl hb
    simp only [parseIPv4FieldsLoop] at h
    split_ifs at h
    simp only [Option.some.injEq] at h
    subst h
    refine ⟨by simp [hl], fun b hb' => ?_⟩
    rcases List.mem_or_eq_of_mem_set hb' with h1 | h1
    · exact hb b h1
    · omega
  | c :: cs, prev, val, pos, digLen, fields, r => by
    intro h hv hl hb
    simp only [parseIPv4FieldsLoop] at h
    by_cases hd : isDigit c = true
    · simp only [hd, if_true] at h
      split_ifs at h with h1 h2
      exact parseIPv4FieldsLoop_bound cs _ _ _ _ _ _ h (by omega) hl hb
    · simp only [hd, if_false, Bool.false_eq_true] at h
      split_ifs at h with h1
      refine parseIPv4FieldsLoop_bound cs _ _ _ _ _ _ h (by omega) (by simp [hl]) fun b hb' => ?_
      rcases List.mem_or_eq_of_mem_set hb' with h1 | h1
      · exact hb b h1
      · omega

theorem getD_le_of_forall (l : List Nat) (k : Nat) (h : ∀ b ∈ l, b ≤ 255) : l.getD k 0 ≤ 255 := by
  by_cases hk : k < l.length
  · rw [List.getD_eq_getElem _ _ hk]
    exact h _ (List.getElem_mem _)
  · rw [List.getD_eq_default _ _ (by omega)]
    omega

theorem from4_WF (a b c d : Nat) (ha : a ≤ 255) (hb : b ≤ 255) (hc : c ≤ 255) (hd : d ≤ 255) :
    (from4 a b c d).WF := by
  refine ⟨?_, fun _ => ?_⟩
  · simp only [from4, two128]; norm_num; omega
  · simp only [from4, two32]; norm_num; omega

/-- What `parseIPv4` accepts is made of digits and dots, and what it returns is
a well-formed IPv4 address. -/
theorem parseIPv4_ok (s : Str) (a : Addr) (h : parseIPv4 s = some a) :
    a.z = Zone.z4 ∧ a.WF ∧ (∀ c ∈ s, inDotClass c = true) ∧ s ≠ [] := by
  simp only [parseIPv4] at h
  cases hf : parseIPv4Fields s with
  | none => simp [hf] at h
  | some f =>
    simp only [hf, Option.some.injEq] at h
    have hcl := parseIPv4FieldsLoop_class s none 0 0 0 [0, 0, 0, 0] f hf
    obtain ⟨-, hb⟩ := parseIPv4FieldsLoop_bound s none 0 0 0 [0, 0, 0, 0] f hf (by omega) rfl
      (by simp)
    have b0 := getD_le_of_forall f 0 hb
    have b1 := getD_le_of_forall f 1 hb
    have b2 := getD_le_of_forall f 2 hb
    have b3 := getD_le_of_forall f 3 hb
    subst h
    refine ⟨rfl, from4_WF _ _ _ _ b0 b1 b2 b3, hcl, ?_⟩
    · rintro rfl
      simp [parseIPv4Fields, parseIPv4FieldsLoop] at hf

theorem hexLoop_split : ∀ (s : Str) (off acc a o : Nat) (rest : Str),
    hexLoop s off acc = some (a, o, rest) →
    ∃ pre, s = pre ++ rest ∧ ∀ c ∈ pre, (hexVal c).isSome = true
  | [], off, acc, a, o, rest => by
    intro h
    simp only [hexLoop, Option.some.injEq, Prod.mk.injEq] at h
    exact ⟨[], by simp [h.2.2], by simp⟩
  | c :: cs, off, acc, a, o, rest => by
    intro h
    simp only [hexLoop] at h
    cases hv : hexVal c with
    | none =>
      simp only [hv, Option.some.injEq, Prod.mk.injEq] at h
      exact ⟨[], by simp [h.2.2], by simp⟩
    | some d =>
      simp only [hv] at h
      split_ifs at h
      obtain ⟨pre, h1, h2⟩ := hexLoop_split cs _ _ _ _ _ h
      refine ⟨c :: pre, by simp [h1], fun x hx => ?_⟩
      rcases List.mem_cons.mp hx with rfl | hx
      · simp [hv]
      · exact h2 x hx

theorem bytes16_set (bs : List Nat) (i v : Nat) (h : bytes16 bs) (hv : v < 256) :
    bytes16 (bs.set i v) := by
  refine ⟨by simp [h.1], fun b hb => ?_⟩
  rcases List.mem_or_eq_of_mem_set hb with h1 | h1
  · exact h.2 b h1
  · omega

theorem isAddrChar_of_hex {c : Char} (h : (hexVal c).isSome = true) : isAddrChar c = true := by
  simp [isAddrChar, h]

theorem isAddrChar_of_dot {c : Char} (h : inDotClass c = true) : isAddrChar c = true := by
  simp only [inDotClass, Bool.or_eq_true] at h
  rcases h with h | h
  · simp [isAddrChar, hexVal_of_isDigit c h]
  · simp [isAddrChar, h]

/-- The main loop of `parseIPv6` reads characters of an address only, and
stores bytes. -/
theorem parseIPv6Loop_ok : ∀ (n : Nat) (s : Str) (i : Nat) (bs : List Nat) (e : Option Nat)
    (st : V6State), parseIPv6Loop n s i bs e = some st → bytes16 bs →
    bytes16 st.ip ∧ ∃ pre, s = pre ++ st.s ∧ ∀ c ∈ pre, isAddrChar c = true
  | 0, s, i, bs, e, st => by
    intro h hb
    simp only [parseIPv6Loop, Option.some.injEq] at h
    subst h
    exact ⟨hb, [], rfl, by simp⟩
  | n + 1, s, i, bs, e, st => by
    intro h hb
    simp only [parseIPv6Loop] at h
    by_cases hi : i < 16
    swap
    · simp only [hi, if_false, Option.some.injEq] at h
      subst h
      exact ⟨hb, [], rfl, by simp⟩
    simp only [hi, if_true] at h
    cases hx : hexLoop s 0 0 with
    | none => simp [hx] at h
    | some r =>
      obtain ⟨acc, off, rest⟩ := r
      obtain ⟨pre, hpre, hcl⟩ := hexLoop_split s 0 0 acc off rest hx
      simp only [hx] at h
      by_cases h0 : (off == 0) = true
      · simp [h0] at h
      simp only [h0, if_false, Bool.false_eq_true] at h
      by_cases hd : (rest.head? == some '.') = true
      · simp only [hd, if_true] at h
        by_cases h1 : (e.isNone && i != 12) = true
        · simp [h1] at h
        simp only [h1, if_false, Bool.false_eq_true] at h
        by_cases h2 : i + 4 > 16
        · simp [h2] at h
        simp only [h2, if_false] at h
        cases hf : parseIPv4Fields s with
        | none => simp [hf] at h
        | some f =>
          simp only [hf, Option.some.injEq] at h
          subst h
          obtain ⟨-, hfb⟩ := parseIPv4FieldsLoop_bound s none 0 0 0 [0, 0, 0, 0] f hf (by omega) rfl
            (by simp)
          have g := fun k => Nat.lt_succ_of_le (getD_le_of_forall f k hfb)
          refine ⟨bytes16_set _ _ _ (bytes16_set _ _ _ (bytes16_set _ _ _
            (bytes16_set _ _ _ hb (g 0)) (g 1)) (g 2)) (g 3), s, by simp, fun c hc => ?_⟩
          exact isAddrChar_of_dot (parseIPv4FieldsLoop_class s none 0 0 0 [0, 0, 0, 0] f hf c hc)
      simp only [hd, if_false, Bool.false_eq_true] at h
      have hb' : bytes16 ((bs.set i (acc / 2 ^ 8 % 256)).set (i + 1) (acc % 256)) :=
        bytes16_set _ _ _ (bytes16_set _ _ _ hb (Nat.mod_lt _ (by norm_num)))
          (Nat.mod_lt _ (by norm_num))
      have hpc : ∀ c ∈ pre, isAddrChar c = true := fun c hc => isAddrChar_of_hex (hcl c hc)
      have hcolon : isAddrChar ':' = true := by decide
      cases rest with
      | nil =>
        simp only [Option.some.injEq] at h
        subst h
        exact ⟨hb', pre, hpre, hpc⟩
      | cons c s1 =>
        simp only at h
        by_cases h3 : (c != ':') = true
        · simp [h3] at h
        simp only [h3, if_false, Bool.false_eq_true] at h
        have hc : c = ':' := by simpa using h3
        subst hc
        cases s1 with
        | nil => simp at h
        | cons c1 s2 =>
          simp only at h
          by_cases h4 : (c1 == ':') = true
          · simp only [h4, if_true] at h
            have hc1 : c1 = ':' := by simpa using h4
            subst hc1
            by_cases h5 : e.isSome = true
            · simp [h5] at h
            simp only [h5, if_false, Bool.false_eq_true] at h
            cases s2 with
            | nil =>
              simp only [Option.some.injEq] at h
              subst h
              refine ⟨hb', pre ++ [':', ':'], by simp [hpre], fun c hc => ?_⟩
              rcases List.mem_append.mp hc with h6 | h6
              · exact hpc c h6
              · simp at h6; subst h6; exact hcolon
            | cons c2 s3 =>
              simp only at h
              obtain ⟨r1, pre2, r2, r3⟩ := parseIPv6Loop_ok n _ _ _ _ _ h hb'
              refine ⟨r1, pre ++ ':' :: ':' :: pre2, by simp [hpre, r2], fun c hc => ?_⟩
              simp only [List.mem_append, List.mem_cons] at hc
              rcases hc with h6 | h6 | h6 | h6
              · exact hpc c h6
              · subst h6; exact hcolon
              · subst h6; exact hcolon
              · exact r3 c h6
          · simp only [h4, if_false, Bool.false_eq_true] at h
            obtain ⟨r1, pre2, r2, r3⟩ := parseIPv6Loop_ok n _ _ _ _ _ h hb'
            refine ⟨r1, pre ++ ':' :: pre2, by simp [hpre, r2], fun c hc => ?_⟩
            simp only [List.mem_append, List.mem_cons] at hc
            rcases hc with h6 | h6 | h6
            · exact hpc c h6
            · subst h6; exact hcolon
            · exact r3 c h6

theorem expandCopy_bytes16 (n e : Nat) : ∀ (k : Nat) (bs : List Nat), bytes16 bs →
    bytes16 (expandCopy n e k bs)
  | 0, _, h => h
  | k + 1, bs, h => by
    simp only [expandCopy]
    apply expandCopy_bytes16 n e k
    apply bytes16_set _ _ _ h
    have := getD_le_of_forall bs (e + k) fun b hb => Nat.le_of_lt_succ (h.2 b hb)
    omega

theorem clearBytes_bytes16 (lo : Nat) : ∀ (k : Nat) (bs : List Nat), bytes16 bs →
    bytes16 (clearBytes lo k bs)
  | 0, _, h => h
  | k + 1, bs, h => by
    simp only [clearBytes]
    exact clearBytes_bytes16 lo k _ (bytes16_set _ _ _ h (by norm_num))

theorem foldl_bytes_lt : ∀ (bs : List Nat) (acc : Nat), (∀ b ∈ bs, b < 256) →
    bs.foldl (fun acc b => acc * 256 + b) acc < (acc + 1) * 256 ^ bs.length
  | [], acc, _ => by simp
  | b :: bs, acc, h => by
    simp only [List.foldl, List.length_cons]
    have hb := h b (List.mem_cons_self _ _)
    have ih := foldl_bytes_lt bs (acc * 256 + b) fun x hx => h x (List.mem_cons_of_mem _ hx)
    calc _ < (acc * 256 + b + 1) * 256 ^ bs.length := ih
      _ ≤ ((acc + 1) * 256) * 256 ^ bs.length := Nat.mul_le_mul_right _ (by omega)
      _ = (acc + 1) * 256 ^ (bs.length + 1) := by ring

theorem from16_WF (bs : List Nat) (h : bytes16 bs) (zone : Str) :
    ((from16 bs).WithZone zone).WF ∧ ((from16 bs).WithZone zone).z = Zone.z6 zone := by
  have := foldl_bytes_lt bs 0 h.2
  rw [h.1] at this
  refine ⟨⟨?_, fun hz => ?_⟩, rfl⟩
  · simp only [WithZone, from16, Is6, two128]
    simp
    norm_num at this
    exact this
  · simp [WithZone, from16, Is6] at hz

theorem bytes16_zeros : bytes16 (List.replicate 16 0) := by
  refine ⟨by simp, fun b hb => ?_⟩
  simp at hb
  omega

theorem parseIPv6Finish_ok (zone : Str) (r : Option V6State) (a : Addr)
    (h : parseIPv6Finish zone r = some a) :
    ∃ st, r = some st ∧ st.s = [] ∧ (bytes16 st.ip → a.WF ∧ a.z = Zone.z6 zone) := by
  cases r with
  | none => simp [parseIPv6Finish] at h
  | some st =>
    refine ⟨st, rfl, ?_⟩
    simp only [parseIPv6Finish] at h
    by_cases hs : st.s = []
    swap
    · simp [hs] at h
    refine ⟨hs, fun hb => ?_⟩
    simp only [hs, bne_self_eq_false, Bool.false_eq_true, if_false] at h
    by_cases hi : st.i < 16
    · simp only [hi, if_true] at h
      cases he : st.ellipsis with
      | none => simp [he] at h
      | some e =>
        simp only [he, Option.some.injEq] at h
        subst h
        exact from16_WF _ (clearBytes_bytes16 _ _ _ (expandCopy_bytes16 _ _ _ _ hb)) zone
    · simp only [hi, if_false] at h
      split_ifs at h
      simp only [Option.some.injEq] at h
      subst h
      exact from16_WF _ hb zone

theorem parseIPv6Addr_ok (s zone : Str) (a : Addr) (h : parseIPv6Addr s zone = some a) :
    a.WF ∧ a.z = Zone.z6 zone ∧ (∀ c ∈ s, isAddrChar c = true) ∧ s ≠ [] := by
  have hcolon : isAddrChar ':' = true := by decide
  have plain : ∀ s', parseIPv6Finish zone (parseIPv6Loop 8 s' 0 (List.replicate 16 0) none) = some a →
      a.WF ∧ a.z = Zone.z6 zone ∧ (∀ c ∈ s', isAddrChar c = true) ∧ s' ≠ [] := by
    intro s' h'
    obtain ⟨st, h1, h2, h3⟩ := parseIPv6Finish_ok zone _ a h'
    obtain ⟨r1, pre, r2, r3⟩ := parseIPv6Loop_ok 8 s' 0 _ none st h1 bytes16_zeros
    rw [h2, List.append_nil] at r2
    refine ⟨(h3 r1).1, (h3 r1).2, by rw [r2]; exact r3, ?_⟩
    rintro rfl
    simp [parseIPv6Loop, hexLoop] at h1
  unfold parseIPv6Addr at h
  split at h
  · rename_i rest
    by_cases hr : rest = []
    · subst hr
      simp only [beq_self_eq_true, if_true, Option.some.injEq] at h
      subst h
      refine ⟨⟨by simp [WithZone, Is6, two128], fun hz => by simp [WithZone, Is6] at hz⟩, rfl, ?_,
        by simp⟩
      intro c hc
      simp at hc
      subst hc; exact hcolon
    · have hr' : (rest == []) = false := by simpa using hr
      simp only [hr', Bool.false_eq_true, if_false] at h
      obtain ⟨st, h1, h2, h3⟩ := parseIPv6Finish_ok zone _ a h
      obtain ⟨r1, pre, r2, r3⟩ := parseIPv6Loop_ok 8 rest 0 _ (some 0) st h1 bytes16_zeros
      rw [h2, List.append_nil] at r2
      refine ⟨(h3 r1).1, (h3 r1).2, fun c hc => ?_, by simp⟩
      simp only [List.mem_cons] at hc
      rcases hc with h6 | h6 | h6
      · subst h6; exact hcolon
      · subst h6; exact hcolon
      · rw [r2] at h6; exact r3 c h6
  · exact plain s h

theorem indexByte_some (x : Char) : ∀ (s : Str) (i : Nat), indexByte s x = some i →
    s = s.take i ++ x :: s.drop (i + 1) ∧ s.take i ≠ s ∧ ∀ c ∈ s.take i, c ≠ x
  | [], _, h => by simp [indexByte] at h
  | c :: cs, i, h => by
    simp only [indexByte] at h
    by_cases hc : (c == x) = true
    · simp only [hc, if_true, Option.some.injEq] at h
      subst h
      have : c = x := by simpa using hc
      simp [this]
    · simp only [hc, if_false, Bool.false_eq_true] at h
      cases hi : indexByte cs x with
      | none => simp [hi] at h
      | some j =>
        simp only [hi, Option.map, Option.some.injEq] at h
        subst h
        obtain ⟨h1, h2, h3⟩ := indexByte_some x cs j hi
        have hne : c ≠ x := by simpa using hc
        refine ⟨by simp only [List.take_succ_cons, List.drop_succ_cons, List.cons_append]; rw [← h1],
          by simpa using h2, fun y hy => ?_⟩
        simp only [List.take_succ_cons, List.mem_cons] at hy
        rcases hy with rfl | hy
        · exact hne
        · exact h3 y hy

/-- What `parseIPv6` accepts: the result is a well-formed IPv6 address, and
when it has no zone the text has no `%` and is made of hexadecimal digits,
dots and colons. -/
theorem parseIPv6_ok (s : Str) (a : Addr) (h : parseIPv6 s = some a) :
    a.WF ∧ (∃ zone, a.z = Zone.z6 zone) ∧ s ≠ [] ∧
      (a.Zone = [] → indexByte s '%' = none ∧ ∀ c ∈ s, isAddrChar c = true) := by
  simp only [parseIPv6] at h
  cases hi : indexByte s '%' with
  | none =>
    simp only [hi] at h
    obtain ⟨h1, h2, h3, h4⟩ := parseIPv6Addr_ok s [] a h
    exact ⟨h1, ⟨[], h2⟩, h4, fun _ => ⟨rfl, h3⟩⟩
  | some i =>
    simp only [hi] at h
    by_cases hz : (List.drop (i + 1) s == []) = true
    · simp [hz] at h
    simp only [hz, if_false, Bool.false_eq_true] at h
    obtain ⟨h1, h2, -, -⟩ := parseIPv6Addr_ok _ _ a h
    refine ⟨h1, ⟨_, h2⟩, ?_, fun hz' => ?_⟩
    · rintro rfl; simp [indexByte] at hi
    · simp only [Addr.Zone, h2] at hz'
      rw [hz'] at hz
      simp at hz

theorem ParseAddrScan_cases (s0 : Str) (a : Addr) : ∀ s : Str, ParseAddrScan s0 s = some a →
    parseIPv4 s0 = some a ∨ parseIPv6 s0 = some a
  | [], h => by simp [ParseAddrScan] at h
  | c :: cs, h => by
    simp only [ParseAddrScan] at h
    split_ifs at h
    · exact Or.inl h
    · exact Or.inr h
    · exact ParseAddrScan_cases s0 a cs h

theorem inDotClass_ne_percent {c : Char} (h : inDotClass c = true) : c ≠ '%' := by
  rintro rfl
  revert h
  decide

/-- What `ParseAddr` accepts. The address it returns is valid and well formed;
when that address has no zone, the text has no `%` and is made of hexadecimal
digits, dots and colons; when it is an IPv4 address, the text is made of digits
and dots. -/
theorem ParseAddr_ok (s : Str) (a : Addr) (h : ParseAddr s = some a) :
    a.WF ∧ a.z ≠ Zone.z0 ∧ s ≠ [] ∧
    (a.Zone = [] → indexByte s '%' = none ∧ (∀ c ∈ s, isAddrChar c = true) ∧
      (a.z = Zone.z4 ∨ a.z = Zone.z6 [])) ∧
    (a.z = Zone.z4 → ∀ c ∈ s, inDotClass c = true) := by
  rcases ParseAddrScan_cases s a s h with h4 | h6
  · obtain ⟨h1, h2, h3, h5⟩ := parseIPv4_ok s a h4
    refine ⟨h2, by rw [h1]; simp, h5, fun _ => ⟨?_, fun c hc => isAddrChar_of_dot (h3 c hc),
      Or.inl h1⟩, fun _ => h3⟩
    exact indexByte_none _ _ fun c hc => inDotClass_ne_percent (h3 c hc)
  · obtain ⟨h1, ⟨zone, h2⟩, h3, h5⟩ := parseIPv6_ok s a h6
    refine ⟨h1, by rw [h2]; simp, h3, fun hz => ⟨(h5 hz).1, (h5 hz).2, Or.inr ?_⟩, fun hz => ?_⟩
    · simp only [Addr.Zone, h2] at hz
      rw [h2, hz]
    · rw [h2] at hz; simp at hz

/-! ## Character classes and the position of a separator -/

theorem inAddrClass_lower_of_isAddrChar (c : Char) (h : isAddrChar c = true) :
    inAddrClass (lowerChar c) = true := by
  by_cases hu : 65 ≤ c.toNat ∧ c.toNat ≤ 90
  · have := lowerChar_upper c hu
    simp only [isAddrChar, hexVal, Bool.or_eq_true, beq_iff_eq] at h
    have hdot : c ≠ '.' := by rintro rfl; revert hu; decide
    have hcol : c ≠ ':' := by rintro rfl; revert hu; decide
    simp only [hdot, hcol, or_false] at h
    have hr : c.toNat ≤ 70 := by
      by_contra hgt
      simp at h
      split_ifs at h <;> first | omega | simp at h
    simp only [inAddrClass, isDigit, this]
    simp
    omega
  · rw [lowerChar_other c hu]
    simp only [isAddrChar, hexVal, Bool.or_eq_true, beq_iff_eq] at h
    simp only [inAddrClass, isDigit, Bool.or_eq_true, beq_iff_eq]
    rcases h with (h | h) | h
    · simp at h
      split_ifs at h with h1 h2 h3
      · left; left; left; simpa using h1
      · left; left; right; simpa using h2
      · simp at h3; omega
      · simp at h
    · left; right; exact h
    · right; exact h

theorem inAddrClass_sep {c : Char} (h : inAddrClass c = true) :
    c ≠ '-' ∧ c ≠ '/' ∧ c ≠ '%' := by
  refine ⟨?_, ?_, ?_⟩ <;> rintro rfl <;> revert h <;> decide

theorem isAddrChar_sep {c : Char} (h : isAddrChar c = true) :
    c ≠ '-' ∧ c ≠ '/' ∧ c ≠ '%' := by
  refine ⟨?_, ?_, ?_⟩ <;> rintro rfl <;> revert h <;> decide

theorem inAddrClass_of_dot {c : Char} (h : inDotClass c = true) : inAddrClass c = true := by
  simp only [inDotClass, Bool.or_eq_true] at h
  simp only [inAddrClass, Bool.or_eq_true]
  rcases h with h | h
  · left; left; left; exact h
  · left; right; exact h

theorem lowerChar_of_inAddrClass {c : Char} (h : inAddrClass c = true) : lowerChar c = c := by
  apply lowerChar_other
  rintro ⟨h1, h2⟩
  simp only [inAddrClass, isDigit, Bool.or_eq_true, Bool.and_eq_true, decide_eq_true_eq,
    beq_iff_eq] at h
  rcases h with ((h | h) | h) | h
  · simp at h; omega
  · simp at h; omega
  · subst h; revert h1 h2; decide
  · subst h; revert h1 h2; decide

theorem ToLower_of_class (s : Str) (h : ∀ c ∈ s, inAddrClass c = true ∨ c = '-' ∨ c = '/') :
    ToLower s = s := by
  induction s with
  | nil => rfl
  | cons c cs ih =>
    have hc : lowerChar c = c := by
      rcases h c (List.mem_cons_self _ _) with h1 | h1 | h1
      · exact lowerChar_of_inAddrClass h1
      · subst h1; decide
      · subst h1; decide
    simp only [ToLower, List.map, hc] at ih ⊢
    rw [ih fun c' hc' => h c' (List.mem_cons_of_mem _ hc')]

theorem indexByte_append (x : Char) (rest : Str) : ∀ pre : Str, (∀ c ∈ pre, c ≠ x) →
    indexByte (pre ++ x :: rest) x = some pre.length
  | [], _ => by simp [indexByte]
  | c :: cs, h => by
    have hc : c ≠ x := h c (List.mem_cons_self _ _)
    have ih := indexByte_append x rest cs fun c' hc' => h c' (List.mem_cons_of_mem _ hc')
    simp [indexByte, hc, ih]

theorem lastIndexByte_none (x : Char) : ∀ s : Str, (∀ c ∈ s, c ≠ x) → lastIndexByte s x = none
  | [], _ => rfl
  | c :: cs, h => by
    have hc : c ≠ x := h c (List.mem_cons_self _ _)
    simp only [lastIndexByte, lastIndexByte_none x cs fun c' hc' => h c' (List.mem_cons_of_mem _ hc'),
      beq_iff_eq, hc, if_false]

theorem lastIndexByte_append (x : Char) (rest : Str) (hr : ∀ c ∈ rest, c ≠ x) : ∀ pre : Str,
    lastIndexByte (pre ++ x :: rest) x = some pre.length
  | [] => by simp [lastIndexByte, lastIndexByte_none x rest hr]
  | c :: cs => by
    have ih := lastIndexByte_append x rest hr cs
    simp [lastIndexByte, ih]

theorem lastIndexByte_some (x : Char) : ∀ (s : Str) (i : Nat), lastIndexByte s x = some i →
    s = s.take i ++ x :: s.drop (i + 1) ∧ ∀ c ∈ s.drop (i + 1), c ≠ x
  | [], _, h => by simp [lastIndexByte] at h
  | c :: cs, i, h => by
    simp only [lastIndexByte] at h
    cases hl : lastIndexByte cs x with
    | some j =>
      simp only [hl, Option.some.injEq] at h
      subst h
      obtain ⟨h1, h2⟩ := lastIndexByte_some x cs j hl
      exact ⟨by simp only [List.take_succ_cons, List.drop_succ_cons, List.cons_append]; rw [← h1],
        by simpa using h2⟩
    | none =>
      simp only [hl] at h
      split_ifs at h with hc
      simp only [Option.some.injEq] at h
      subst h
      have hcx : c = x := by simpa using hc
      refine ⟨by simp [hcx], fun y hy => ?_⟩
      simp only [Nat.zero_add, List.drop_succ_cons, List.drop_zero] at hy
      intro hyx
      subst hyx
      have : ∀ (t : Str), y ∈ t → lastIndexByte t y ≠ none := by
        intro t
        induction t with
        | nil => simp
        | cons d ds ih =>
          intro hm
          simp only [lastIndexByte]
          cases hd : lastIndexByte ds y with
          | some k => simp
          | none =>
            rcases List.mem_cons.mp hm with rfl | hm'
            · simp
            · exact absurd hd (ih hm')
      exact this cs hy hl

theorem take_append_cons (pre rest : Str) (x : Char) :
    (pre ++ x :: rest).take pre.length = pre ∧ (pre ++ x :: rest).drop (pre.length + 1) = rest := by
  constructor
  · simp
  · rw [show pre ++ x :: rest = (pre ++ [x]) ++ rest by simp,
      show pre.length + 1 = (pre ++ [x]).length by simp, List.drop_left]

/-! ## `parseRange` on two address texts around a hyphen -/

theorem WithZone_noZone (a : Addr) (h : a.z = Zone.z4 ∨ a.z = Zone.z6 []) : a.WithZone [] = a := by
  rcases a with ⟨x, z⟩
  rcases h with h | h <;> simp only at h <;> subst h <;> rfl

theorem Compare_range (a b : Addr) : a.Compare b = -1 ∨ a.Compare b = 0 ∨ a.Compare b = 1 := by
  simp only [Addr.Compare]
  split_ifs <;> simp

theorem Compare_lt_flip (a b : Addr) : b.Compare a < 0 ↔ a.Compare b > 0 := by
  have := Compare_flip a b
  constructor
  · intro h; by_contra h'; have := this.mpr (by omega); omega
  · intro h; by_contra h'; have := this.mp (by omega); omega

/-- A pair of valid addresses without zone is a valid `IPRange` exactly when
they are of one family and the first is not above the second. -/
theorem IsValid_iff (x y : Addr) (hx : x.z = Zone.z4 ∨ x.z = Zone.z6 [])
    (hy : y.z = Zone.z4 ∨ y.z = Zone.z6 []) :
    IPRange.IsValid ⟨x, y⟩ = true ↔ x.BitLen = y.BitLen ∧ Addr.le x y := by
  have hv : x.IsValid = true := by
    rcases hx with h | h <;> simp [Addr.IsValid, h]
  have hzx : x.Zone = [] := by
    rcases hx with h | h <;> simp [Addr.Zone, h]
  have hzy : y.Zone = [] := by
    rcases hy with h | h <;> simp [Addr.Zone, h]
  have hl : (y.Less x = true) ↔ ¬ Addr.le x y := by
    simp only [Addr.Less, Addr.le, beq_iff_eq]
    have := Compare_lt_flip x y
    rcases Compare_range y x with h | h | h <;> rw [h] at this ⊢ <;> simp at this ⊢ <;> omega
  simp only [IPRange.IsValid, hv, hzx, hzy, Bool.true_and, Bool.and_eq_true, beq_iff_eq,
    Bool.not_eq_true', beq_self_eq_true, Bool.and_true]
  constructor
  · rintro ⟨h1, h2⟩
    refine ⟨h1, ?_⟩
    by_contra hn
    rw [hl.mpr hn] at h2
    simp at h2
  · rintro ⟨h1, h2⟩
    refine ⟨h1, ?_⟩
    by_contra hn
    simp only [Bool.not_eq_false] at hn
    exact hl.mp hn h2

theorem ParseAddr_noZone (t : Str) (z : Addr) (h : ParseAddr t = some z)
    (hp : indexByte t '%' = none) : z.Zone = [] := by
  rcases ParseAddrScan_cases t z t h with h4 | h6
  · rw [Addr.Zone, (parseIPv4_ok t z h4).1]
  · simp only [parseIPv6, hp] at h6
    rw [Addr.Zone, (parseIPv6Addr_ok t [] z h6).2.1]

/-- No text with a hyphen and without `%` is an address. -/
theorem ParseAddr_hyphen (a b : Str) (ha : ∀ c ∈ a, c ≠ '%') (hb : ∀ c ∈ b, c ≠ '%') :
    ParseAddr (a ++ '-' :: b) = none := by
  cases h : ParseAddr (a ++ '-' :: b) with
  | none => rfl
  | some z =>
    exfalso
    have hp : indexByte (a ++ '-' :: b) '%' = none := by
      apply indexByte_none
      intro c hc
      simp only [List.mem_append, List.mem_cons] at hc
      rcases hc with h1 | h1 | h1
      · exact ha c h1
      · rw [h1]; decide
      · exact hb c h1
    have hz := ParseAddr_noZone _ z h hp
    have := ((ParseAddr_ok _ z h).2.2.2.1 hz).2.1 '-' (by simp)
    revert this; decide

/-- `netipx.ParseIPRange` on the texts of two addresses without zone around a
hyphen. -/
theorem ParseIPRange_text (a b : Str) (x y : Addr) (ha : ParseAddr a = some x)
    (hb : ParseAddr b = some y) (hzx : x.Zone = []) (hzy : y.Zone = []) :
    ParseIPRange (a ++ '-' :: b) = if IPRange.IsValid ⟨x, y⟩ = true then some ⟨x, y⟩ else none := by
  obtain ⟨-, hca, hxz⟩ := (ParseAddr_ok a x ha).2.2.2.1 hzx
  obtain ⟨-, -, hyz⟩ := (ParseAddr_ok b y hb).2.2.2.1 hzy
  have hi := indexByte_append '-' b a fun c hc => (isAddrChar_sep (hca c hc)).1
  obtain ⟨t1, t2⟩ := take_append_cons a b '-'
  simp only [ParseIPRange, hi, t1, t2, ha, hb, WithZone_noZone x hxz, WithZone_noZone y hyz]
  split_ifs <;> simp_all

/-- `parseRange` on the texts of two addresses without zone around a hyphen:
the range of the two addresses when they are of one family and in order, and
nil otherwise. -/
theorem parseRange_text (a b : Str) (x y : Addr) (ha : ParseAddr a = some x)
    (hb : ParseAddr b = some y) (hzx : x.Zone = []) (hzy : y.Zone = []) :
    parseRange (a ++ '-' :: b)
      = if x.BitLen = y.BitLen ∧ Addr.le x y then some ⟨x, y⟩ else none := by
  obtain ⟨-, hca, hxz⟩ := (ParseAddr_ok a x ha).2.2.2.1 hzx
  obtain ⟨-, hcb, hyz⟩ := (ParseAddr_ok b y hb).2.2.2.1 hzy
  have hv := IsValid_iff x y hxz hyz
  simp only [parseRange, ParseIPRange_text a b x y ha hb hzx hzy]
  by_cases h : IPRange.IsValid ⟨x, y⟩ = true
  · simp only [h, if_true, hv.mp h, and_self, New]
  · have h' : ¬ (x.BitLen = y.BitLen ∧ Addr.le x y) := fun c => h (hv.mpr c)
    simp only [h, if_false, h', Bool.false_eq_true,
      ParseAddr_hyphen a b (fun c hc => (isAddrChar_sep (hca c hc)).2.2)
        (fun c hc => (isAddrChar_sep (hcb c hc)).2.2)]

/-! ## `ParseRange` on the forms of a token -/

theorem ParseRange_of_reRange (s : Str) (hr : reRange (ToLower s) = true) :
    ParseRange s = rangeOrError (ToLower s) (parseRange (ToLower s)) := by
  have hs : (ToLower s == []) = false := by
    simp only [reRange, Bool.and_eq_true, bne_iff_ne, ne_eq] at hr
    simpa using hr.1
  simp only [ParseRange, hs, hr, if_true, Bool.false_eq_true, if_false]
  rfl

theorem ParseRange_of_reCIDR (s : Str) (hs : ToLower s ≠ []) (hr : reRange (ToLower s) = false)
    (hc : reCIDR (ToLower s) = true) :
    ParseRange s = rangeOrError (ToLower s) (parseCIDR (ToLower s)) := by
  have hs' : (ToLower s == []) = false := by simpa using hs
  simp only [ParseRange, hs', hr, hc, if_true, Bool.false_eq_true, if_false]
  rfl

theorem ParseRange_of_reSubnetMask (s : Str) (hs : ToLower s ≠ [])
    (hr : reRange (ToLower s) = false) (hc : reCIDR (ToLower s) = false)
    (hm : reSubnetMask (ToLower s) = true) :
    ParseRange s = rangeOrError (ToLower s) (parseSubnetMask (ToLower s)) := by
  have hs' : (ToLower s == []) = false := by simpa using hs
  simp only [ParseRange, hs', hr, hc, hm, if_true, Bool.false_eq_true, if_false]
  rfl

theorem ToLower_append (a b : Str) : ToLower (a ++ b) = ToLower a ++ ToLower b := by
  simp [ToLower]

theorem ToLower_class (a : Str) (h : ∀ c ∈ a, isAddrChar c = true) :
    ∀ c ∈ ToLower a, inAddrClass c = true := by
  intro c hc
  simp only [ToLower, List.mem_map] at hc
  obtain ⟨d, hd, rfl⟩ := hc
  exact inAddrClass_lower_of_isAddrChar d (h d hd)

theorem Size_single (ip : Addr) (h : ip.z = Zone.z4 ∨ ip.z = Zone.z6 []) :
    (ipRange.mk ip ip).Size = 1 := by
  rcases ip with ⟨x, z⟩
  rcases h with h | h <;> simp only at h <;> subst h <;> simp [ipRange.Size, Addr.Is4, Addr.Is6]

theorem Compare_self (ip : Addr) : ip.Compare ip = 0 := by
  have h : ∀ s : Str, strLess s s = false := by
    intro s
    induction s with
    | nil => rfl
    | cons c cs ih => simp [strLess, ih]
  simp [Addr.Compare, h]

/-- C8: for every valid dotted-quad IPv4 address text `a`, `ParseRange(a)`
returns without error the range whose start and end are the address of `a`;
its `Size` is 1 and it contains that address. -/
theorem ParseRange_v4_address (a : Str) (ip : Addr) (h : ParseAddr a = some ip)
    (h4 : ip.Is4 = true) :
    ParseRange a = (some ⟨ip, ip⟩, none) ∧ (ipRange.mk ip ip).Size = 1 ∧
      (ipRange.mk ip ip).Contains ip = true := by
  have hz : ip.z = Zone.z4 := by simpa [Addr.Is4] using h4
  obtain ⟨-, -, hne, -, hcl⟩ := ParseAddr_ok a ip h
  have hcl := hcl hz
  have hlow : ToLower a = a :=
    ToLower_of_class a fun c hc => Or.inl (inAddrClass_of_dot (hcl c hc))
  have hre : reRange (ToLower a) = true := by
    rw [hlow]
    simp only [reRange, Bool.and_eq_true, bne_iff_ne, ne_eq, List.all_eq_true, Bool.or_eq_true]
    exact ⟨hne, fun c hc => Or.inl (inAddrClass_of_dot (hcl c hc))⟩
  have hidx : indexByte a '-' = none :=
    indexByte_none a '-' fun c hc => (inAddrClass_sep (inAddrClass_of_dot (hcl c hc))).1
  have hv : ip.IsValid = true := by simp [Addr.IsValid, hz]
  refine ⟨?_, Size_single ip (Or.inl hz), ?_⟩
  · rw [ParseRange_of_reRange a hre, hlow]
    simp only [parseRange, ParseIPRange, hidx, h, hv, if_true, New, rangeOrError]
  · simp [ipRange.Contains, Compare_self]

theorem ParseRange_v4_address_witness :
    ParseRange "192.0.2.1".toList
      = (some ⟨Addr.from4 192 0 2 1, Addr.from4 192 0 2 1⟩, none) :=
  (ParseRange_v4_address "192.0.2.1".toList (Addr.from4 192 0 2 1) (by decide) (by decide)).1

/-- C9: for address texts `a` and `b` of addresses without zone, `ParseRange`
of `a-b` returns the range from the address of `a` to the address of `b` when
they are of one family and in order, and a syntax error and no range when they
are reversed or of different families; `10.0.0.5-10.0.0.3` is a syntax error. -/
theorem ParseRange_pair (a b : Str) (x y : Addr) (ha : ParseAddr a = some x)
    (hb : ParseAddr b = some y) (hzx : x.Zone = []) (hzy : y.Zone = []) :
    (x.BitLen = y.BitLen → Addr.le x y → ParseRange (a ++ '-' :: b) = (some ⟨x, y⟩, none)) ∧
    (x.BitLen ≠ y.BitLen ∨ ¬ Addr.le x y →
      ParseRange (a ++ '-' :: b) = (none, some (syntaxError (ToLower (a ++ '-' :: b))))) ∧
    ParseRange "10.0.0.5-10.0.0.3".toList
      = (none, some "ip range (10.0.0.5-10.0.0.3) invalid syntax".toList) := by
  obtain ⟨hpa, hca, -⟩ := (ParseAddr_ok a x ha).2.2.2.1 hzx
  obtain ⟨hpb, hcb, -⟩ := (ParseAddr_ok b y hb).2.2.2.1 hzy
  have hla : ParseAddr (ToLower a) = some x := by rw [ParseAddr_lower a hpa, ha]
  have hlb : ParseAddr (ToLower b) = some y := by rw [ParseAddr_lower b hpb, hb]
  have hlow : ToLower (a ++ '-' :: b) = ToLower a ++ '-' :: ToLower b := by
    rw [ToLower_append]; rfl
  have hre : reRange (ToLower (a ++ '-' :: b)) = true := by
    rw [hlow]
    simp only [reRange, Bool.and_eq_true, bne_iff_ne, ne_eq, List.all_eq_true, Bool.or_eq_true,
      beq_iff_eq]
    refine ⟨by simp, fun c hc => ?_⟩
    simp only [List.mem_append, List.mem_cons] at hc
    rcases hc with h1 | h1 | h1
    · exact Or.inl (ToLower_class a hca c h1)
    · exact Or.inr h1
    · exact Or.inl (ToLower_class b hcb c h1)
  have key := parseRange_text (ToLower a) (ToLower b) x y hla hlb hzx hzy
  rw [← hlow] at key
  refine ⟨fun h1 h2 => ?_, fun h1 => ?_, by decide⟩
  · rw [ParseRange_of_reRange _ hre, key]
    simp only [h1, h2, and_self, if_true, rangeOrError]
  · rw [ParseRange_of_reRange _ hre, key]
    have : ¬ (x.BitLen = y.BitLen ∧ Addr.le x y) := by
      rintro ⟨c1, c2⟩
      rcases h1 with h1 | h1
      · exact h1 c1
      · exact h1 c2
    simp only [this, if_false, rangeOrError]

theorem ParseRange_pair_witness :
    ParseRange "192.0.2.0-192.0.2.10".toList
      = (some ⟨Addr.from4 192 0 2 0, Addr.from4 192 0 2 10⟩, none) :=
  (ParseRange_pair "192.0.2.0".toList "192.0.2.10".toList (Addr.from4 192 0 2 0)
    (Addr.from4 192 0 2 10) (by decide) (by decide) rfl rfl).1 rfl (by decide)

/-! ## The arithmetic of a prefix -/

/-- Clearing and setting the low `h` bits of `x` stays within the block of size
`2 ^ w` of `x`, for `h ≤ w`. -/
theorem prefix_block (x h w : Nat) (hw : h ≤ w) :
    (x - x % 2 ^ h) / 2 ^ w = x / 2 ^ w ∧ (x - x % 2 ^ h + (2 ^ h - 1)) / 2 ^ w = x / 2 ^ w := by
  obtain ⟨k, rfl⟩ : ∃ k, w = h + k := ⟨w - h, by omega⟩
  have hpos : 0 < 2 ^ h := Nat.two_pow_pos h
  have e : x - x % 2 ^ h = 2 ^ h * (x / 2 ^ h) := by
    have := Nat.div_add_mod x (2 ^ h)
    omega
  rw [e, pow_add, ← Nat.div_div_eq_div_mul, ← Nat.div_div_eq_div_mul, ← Nat.div_div_eq_div_mul,
    Nat.mul_div_cancel_left _ hpos]
  refine ⟨rfl, ?_⟩
  have : (2 ^ h * (x / 2 ^ h) + (2 ^ h - 1)) / 2 ^ h = x / 2 ^ h := by
    generalize x / 2 ^ h = q
    generalize 2 ^ h = H at hpos
    apply Nat.div_eq_of_lt_le
    · rw [Nat.mul_comm]; omega
    · rw [Nat.add_mul, Nat.mul_comm, Nat.one_mul]; omega
  rw [this]

theorem prefix_low (x h : Nat) (hh : 2 ≤ h) :
    4 ≤ 2 ^ h ∧ 2 ^ h % 4 = 0 ∧ (x - x % 2 ^ h) % 4 = 0 := by
  obtain ⟨k, rfl⟩ : ∃ k, h = 2 + k := ⟨h - 2, by omega⟩
  have hpos : 0 < 2 ^ k := Nat.two_pow_pos k
  have e4 : 2 ^ (2 + k) = 4 * 2 ^ k := by rw [pow_add]; norm_num
  have e : x - x % 2 ^ (2 + k) = 2 ^ (2 + k) * (x / 2 ^ (2 + k)) := by
    have := Nat.div_add_mod x (2 ^ (2 + k))
    omega
  rw [e, e4]
  refine ⟨by omega, by omega, ?_⟩
  rw [Nat.mul_assoc]
  exact Nat.mul_mod_right _ _

/-! ## What `ParsePrefix` accepts -/

theorem foldl_dec_ge : ∀ (cs : Str) (acc : Nat),
    acc * 10 ^ cs.length ≤ cs.foldl (fun acc c => acc * 10 + (c.toNat - '0'.toNat)) acc
  | [], acc => by simp
  | c :: cs, acc => by
    simp only [List.foldl, List.length_cons]
    have ih := foldl_dec_ge cs (acc * 10 + (c.toNat - '0'.toNat))
    have : acc * 10 ^ (cs.length + 1) ≤ (acc * 10 + (c.toNat - '0'.toNat)) * 10 ^ cs.length := by
      rw [pow_succ, ← Nat.mul_assoc, Nat.mul_right_comm]
      exact Nat.mul_le_mul_right _ (by omega)
    omega

/-- The text of a prefix length that `ParsePrefix` accepts has at most three
digits. -/
theorem bits_length (d : Str) (n : Nat) (ha : atoi d = some n) (hn : n ≤ 128)
    (hl : ¬ (d.length > 1 ∧ (d.head?.any fun c => c.toNat < '1'.toNat || c.toNat > '9'.toNat) = true)) :
    d ≠ [] ∧ d.length ≤ 3 ∧ ∀ c ∈ d, isDigit c = true := by
  simp only [atoi] at ha
  split_ifs at ha with h
  simp only [Bool.and_eq_true, bne_iff_ne, ne_eq, List.all_eq_true] at h
  simp only [Option.some.injEq] at ha
  refine ⟨h.1, ?_, h.2⟩
  by_contra hlen
  cases d with
  | nil => simp at hlen
  | cons c cs =>
    simp only [List.length_cons] at hlen
    have h1 : (c :: cs).length > 1 := by simp only [List.length_cons]; omega
    have h2 : ¬ ((c :: cs).head?.any fun c => c.toNat < '1'.toNat || c.toNat > '9'.toNat) = true :=
      fun hh => hl ⟨h1, hh⟩
    simp at h2
    have hge := foldl_dec_ge cs (0 * 10 + (c.toNat - '0'.toNat))
    simp only [List.foldl] at ha
    rw [ha] at hge
    have hc : 1 ≤ c.toNat - '0'.toNat := by
      have : '0'.toNat = 48 := rfl
      omega
    have hp : 10 ^ 3 ≤ 10 ^ cs.length := Nat.pow_le_pow_right (by norm_num) (by omega)
    have : 1 * 10 ^ cs.length ≤ (0 * 10 + (c.toNat - '0'.toNat)) * 10 ^ cs.length :=
      Nat.mul_le_mul_right _ (by omega)
    omega

/-- `ParsePrefix` on a text split at its last `/`. -/
theorem ParsePrefix_append (a d : Str) (hd : ∀ c ∈ d, c ≠ '/') :
    ParsePrefix (a ++ '/' :: d) =
      match ParseAddr a with
      | none => none
      | some ip =>
        if ip.Is6 && ip.z != Zone.z6 [] then none
        else if d.length > 1 && (d.head?.any fun c => c.toNat < '1'.toNat || c.toNat > '9'.toNat)
        then none
        else
          match atoi d with
          | none => none
          | some bits => if bits > (if ip.Is6 then 128 else 32) then none else some ⟨ip, bits⟩ := by
  obtain ⟨t1, t2⟩ := take_append_cons a d '/'
  simp only [ParsePrefix, lastIndexByte_append '/' d hd a, t1, t2]

/-- What `ParsePrefix` accepts: an address text without zone, a `/`, and at most
three digits that give a prefix length within the bit length of the address. -/
theorem ParsePrefix_ok (s : Str) (p : Prefix) (h : ParsePrefix s = some p) :
    ∃ a d, s = a ++ '/' :: d ∧ ParseAddr a = some p.ip ∧
      (p.ip.z = Zone.z4 ∨ p.ip.z = Zone.z6 []) ∧ p.bits ≤ p.ip.BitLen ∧
      d ≠ [] ∧ d.length ≤ 3 ∧ (∀ c ∈ d, isDigit c = true) := by
  have h0 := h
  simp only [ParsePrefix] at h
  cases hi : lastIndexByte s '/' with
  | none => simp [hi] at h
  | some i =>
    obtain ⟨hs, hd⟩ := lastIndexByte_some '/' s i hi
    refine ⟨s.take i, s.drop (i + 1), hs, ?_⟩
    rw [hs, ParsePrefix_append _ _ hd] at h0
    cases ha : ParseAddr (s.take i) with
    | none => simp [ha] at h0
    | some ip =>
      simp only [ha] at h0
      by_cases hz : (ip.Is6 && ip.z != Zone.z6 []) = true
      · simp only [hz, if_true] at h0
        cases h0
      simp only [hz, if_false, Bool.false_eq_true] at h0
      by_cases hl : (decide ((s.drop (i + 1)).length > 1) && (s.drop (i + 1)).head?.any
          fun c => decide (c.toNat < '1'.toNat) || decide (c.toNat > '9'.toNat)) = true
      · simp only [hl, if_true] at h0
        cases h0
      simp only [hl, if_false, Bool.false_eq_true] at h0
      cases hb : atoi (s.drop (i + 1)) with
      | none => simp [hb] at h0
      | some bits =>
        simp only [hb] at h0
        by_cases hm : bits > (if ip.Is6 = true then 128 else 32)
        · simp only [hm, if_true] at h0
          cases h0
        simp only [hm, if_false, Option.some.injEq] at h0
        subst h0
        obtain ⟨-, hv, -⟩ := ParseAddr_ok _ ip ha
        have hzz : ip.z = Zone.z4 ∨ ip.z = Zone.z6 [] := by
          rcases ip with ⟨x, z⟩
          cases z with
          | z0 => simp at hv
          | z4 => exact Or.inl rfl
          | z6 zone =>
            simp [Addr.Is6] at hz
            exact Or.inr (by simp only [hz])
        have hbl : bits ≤ ip.BitLen := by
          rcases hzz with e | e <;> simp [Addr.BitLen, Addr.Is6, e] at hm ⊢ <;> omega
        have hn : bits ≤ 128 := by
          split_ifs at hm <;> omega
        have hl' : ¬ ((s.drop (i + 1)).length > 1 ∧ ((s.drop (i + 1)).head?.any
            fun c => c.toNat < '1'.toNat || c.toNat > '9'.toNat) = true) := by
          rintro ⟨c1, c2⟩
          apply hl
          simp only [Bool.and_eq_true, decide_eq_true_eq]
          exact ⟨c1, c2⟩
        exact ⟨rfl, hzz, hbl, bits_length _ bits hb hn hl'⟩

/-! ## A CIDR token reaches `parseCIDR` -/

theorem ToLower_digits (d : Str) (h : ∀ c ∈ d, isDigit c = true) : ToLower d = d :=
  ToLower_of_class d fun c hc =>
    Or.inl (inAddrClass_of_dot (by simp [inDotClass, h c hc]))

theorem reRange_slash (a d : Str) : reRange (a ++ '/' :: d) = false := by
  simp only [reRange, Bool.and_eq_false_iff]
  right
  rw [List.all_eq_false]
  exact ⟨'/', by simp, by decide⟩

/-- A token that `ParsePrefix` accepts matches `reCIDR` and not `reRange` after
lower-casing, and `ParsePrefix` reads the same prefix from the lower-cased
token. -/
theorem CIDR_token (s : Str) (p : Prefix) (h : ParsePrefix s = some p) :
    ToLower s ≠ [] ∧ reRange (ToLower s) = false ∧ reCIDR (ToLower s) = true ∧
      ParsePrefix (ToLower s) = some p := by
  obtain ⟨a, d, hs, ha, hz, hb, hd1, hd2, hd3⟩ := ParsePrefix_ok s p h
  have hzone : p.ip.Zone = [] := by
    rcases hz with e | e <;> simp [Addr.Zone, e]
  obtain ⟨-, -, hne, hcl, -⟩ := ParseAddr_ok a p.ip ha
  obtain ⟨hnp, hca, -⟩ := hcl hzone
  have hlow : ToLower s = ToLower a ++ '/' :: d := by
    rw [hs, ToLower_append]
    show ToLower a ++ '/' :: ToLower d = _
    rw [ToLower_digits d hd3]
  have hlc := ToLower_class a hca
  have hdslash : ∀ c ∈ d, c ≠ '/' := fun c hc => by
    have := hd3 c hc
    rintro rfl
    revert this; decide
  have hla : ToLower a ≠ [] := by
    intro e
    apply hne
    simpa [ToLower] using e
  refine ⟨by rw [hlow]; simp, by rw [hlow]; exact reRange_slash _ _, ?_, ?_⟩
  · rw [hlow]
    obtain ⟨t1, t2⟩ := take_append_cons (ToLower a) d '/'
    simp only [reCIDR, indexByte_append '/' d (ToLower a) fun c hc => (inAddrClass_sep (hlc c hc)).2.1,
      t1, t2, Bool.and_eq_true, bne_iff_ne, ne_eq, List.all_eq_true, decide_eq_true_eq]
    refine ⟨⟨⟨⟨hla, hlc⟩, ?_⟩, hd2⟩, hd3⟩
    cases d with
    | nil => exact absurd rfl hd1
    | cons c cs => simp
  · rw [hs, ParsePrefix_append a d hdslash] at h
    rw [hlow, ParsePrefix_append (ToLower a) d hdslash, ParseAddr_lower a hnp]
    exact h

/-! ## The range of a prefix -/

/-- The first and last address of a prefix, as `RangeOfPrefix` computes them,
are well formed, and in numeric value they are the address with its host bits
cleared, and that plus `2 ^ h - 1`. -/
theorem RangeOfPrefix_facts (x : Nat) (z : Zone) (bits : Nat) (hz : z = Zone.z4 ∨ z = Zone.z6 [])
    (hw : (Addr.mk x z).WF) (hb : bits ≤ (Addr.mk x z).BitLen) :
    RangeOfPrefix ⟨⟨x, z⟩, bits⟩
      = ⟨⟨x - x % 2 ^ ((Addr.mk x z).BitLen - bits), z⟩,
         ⟨x - x % 2 ^ ((Addr.mk x z).BitLen - bits) + (2 ^ ((Addr.mk x z).BitLen - bits) - 1), z⟩⟩ ∧
    (Addr.mk (x - x % 2 ^ ((Addr.mk x z).BitLen - bits)) z).WF ∧
    (Addr.mk (x - x % 2 ^ ((Addr.mk x z).BitLen - bits)
      + (2 ^ ((Addr.mk x z).BitLen - bits) - 1)) z).WF ∧
    (Addr.mk (x - x % 2 ^ ((Addr.mk x z).BitLen - bits)) z).value
      = (Addr.mk x z).value - (Addr.mk x z).value % 2 ^ ((Addr.mk x z).BitLen - bits) ∧
    (Addr.mk (x - x % 2 ^ ((Addr.mk x z).BitLen - bits)
      + (2 ^ ((Addr.mk x z).BitLen - bits) - 1)) z).value
      = (Addr.mk (x - x % 2 ^ ((Addr.mk x z).BitLen - bits)) z).value
        + (2 ^ ((Addr.mk x z).BitLen - bits) - 1) := by
  have hne : (z == Zone.z0) = false := by
    rcases hz with e | e <;> subst e <;> rfl
  have hgt : ¬ bits > (Addr.mk x z).BitLen := by omega
  refine ⟨by simp [RangeOfPrefix, hne, hgt], ?_⟩
  rcases hz with e | e <;> subst e
  · -- IPv4: the block of size 2 ^ 32
    simp only [Addr.BitLen] at hb ⊢
    obtain ⟨b1, b2⟩ := prefix_block x (32 - bits) 32 (by omega)
    have hx := hw.2 rfl
    have hx1 := hw.1
    have hpos : 0 < 2 ^ (32 - bits) := Nat.two_pow_pos _
    have hdvd : 2 ^ (32 - bits) ∣ 2 ^ 32 := Nat.pow_dvd_pow 2 (by omega)
    have hmm : x % 2 ^ (32 - bits) = x % 2 ^ 32 % 2 ^ (32 - bits) :=
      (Nat.mod_mod_of_dvd x hdvd).symm
    have hle : x % 2 ^ (32 - bits) ≤ x % 2 ^ 32 := by
      rw [hmm]; exact Nat.mod_le _ _
    simp only [Addr.WF, Addr.value, Addr.Is4, two32, two128, beq_self_eq_true, if_true,
      true_implies] at hx hx1 ⊢
    rw [← hmm]
    generalize 2 ^ (32 - bits) = H at *
    norm_num at *
    omega
  · simp only [Addr.BitLen] at hb ⊢
    obtain ⟨b1, b2⟩ := prefix_block x (128 - bits) 128 (by omega)
    have hx1 := hw.1
    have hpos : 0 < 2 ^ (128 - bits) := Nat.two_pow_pos _
    simp only [Addr.WF, Addr.value, Addr.Is4, two128] at hx1 ⊢
    have hle : x % 2 ^ (128 - bits) ≤ x := Nat.mod_le _ _
    generalize 2 ^ (128 - bits) = H at *
    simp
    norm_num at *
    omega

/-- The successor of the first address of a prefix of at least four addresses
and the predecessor of its last address: no overflow, and the first is below
the second. -/
theorem Next_Prev_facts (f H : Nat) (z : Zone) (hz : z = Zone.z4 ∨ z = Zone.z6 [])
    (hf : (Addr.mk f z).WF) (hl : (Addr.mk (f + (H - 1)) z).WF) (h4 : 4 ≤ H) (hH : H % 4 = 0)
    (hf4 : f % 4 = 0) :
    (Addr.mk f z).Next = ⟨f + 1, z⟩ ∧ (Addr.mk (f + (H - 1)) z).Prev = ⟨f + (H - 1) - 1, z⟩ ∧
    (Addr.mk (f + 1) z).WF ∧ (Addr.mk (f + (H - 1) - 1) z).WF ∧
    (Addr.mk (f + 1) z).Compare ⟨f + (H - 1) - 1, z⟩ < 0 ∧
    (Addr.mk (f + 1) z).value = (Addr.mk f z).value + 1 ∧
    (Addr.mk (f + (H - 1) - 1) z).value = (Addr.mk (f + (H - 1)) z).value - 1 ∧
    (Addr.mk f z).Compare ⟨f + 1, z⟩ < 0 ∧
    (Addr.mk (f + (H - 1) - 1) z).Compare ⟨f + (H - 1), z⟩ < 0 := by
  have hlt : f + 1 < f + (H - 1) - 1 := by omega
  have cmp : ∀ a b : Nat, a < b → (Addr.mk a z).Compare ⟨b, z⟩ < 0 := by
    intro a b hab
    simp [Addr.Compare, Addr.BitLen, hab]
  rcases hz with e | e <;> subst e
  · have a1 := hf.1
    have a2 := hf.2 rfl
    have a3 := hl.1
    have a4 := hl.2 rfl
    simp only [two32, two128] at a1 a2 a3 a4
    norm_num at a1 a2 a3 a4
    refine ⟨?_, ?_, ⟨?_, fun _ => ?_⟩, ⟨?_, fun _ => ?_⟩, cmp _ _ hlt, ?_, ?_, cmp _ _ (by omega),
      cmp _ _ (by omega)⟩
    · have e1 : (f + 1) % 340282366920938463463374607431768211456 = f + 1 :=
        Nat.mod_eq_of_lt (by omega)
      have e2 : ¬ (f + 1) % 4294967296 = 0 := by omega
      simp only [Addr.Next, Addr.Is4, two32, two128, beq_self_eq_true, if_true]
      norm_num
      simp [e1, e2]
    · have e1 : (f + (H - 1) + 340282366920938463463374607431768211455)
          % 340282366920938463463374607431768211456 = f + (H - 1) - 1 := by omega
      have e2 : ¬ (f + (H - 1)) % 4294967296 = 0 := by omega
      simp only [Addr.Prev, Addr.Is4, two32, two128, beq_self_eq_true, if_true]
      norm_num
      simp [e1, e2]
    · simp only [two128]; norm_num; omega
    · simp only [two32]; norm_num; omega
    · simp only [two128]; norm_num; omega
    · simp only [two32]; norm_num; omega
    · simp only [Addr.value, Addr.Is4, two32, beq_self_eq_true, if_true]; norm_num; omega
    · simp only [Addr.value, Addr.Is4, two32, beq_self_eq_true, if_true]; norm_num; omega
  · have a1 := hf.1
    have a3 := hl.1
    simp only [two128] at a1 a3
    norm_num at a1 a3
    refine ⟨?_, ?_, ⟨?_, fun hc => by simp at hc⟩, ⟨?_, fun hc => by simp at hc⟩, cmp _ _ hlt,
      rfl, rfl, cmp _ _ (by omega), cmp _ _ (by omega)⟩
    · have e1 : (f + 1) % 340282366920938463463374607431768211456 = f + 1 :=
        Nat.mod_eq_of_lt (by omega)
      simp only [Addr.Next, Addr.Is4, two128]
      norm_num
      simp [e1]
    · have e1 : (f + (H - 1) + 340282366920938463463374607431768211455)
          % 340282366920938463463374607431768211456 = f + (H - 1) - 1 := by omega
      have e2 : ¬ (f = 0 ∧ H - 1 = 0) := by omega
      simp only [Addr.Prev, Addr.Is4, two128]
      norm_num
      simp [e1, e2]
    · simp only [two128]; norm_num; omega
    · simp only [two128]; norm_num; omega

/-! ## The CIDR form -/

/-- C2: for every token that `ParsePrefix` accepts, with a prefix length of at
most 30 for IPv4 and at most 126 for IPv6, `ParseRange` returns without error
the range from the successor of the first address of the prefix to the
predecessor of its last address. The first address is the address with its
`h = bits - n` host bits cleared and the last one is `2 ^ h - 1` above it; the
range holds neither of them, and its `Size` is `2 ^ h - 2`. -/
theorem ParseRange_CIDR_hosts (s : Str) (p : Prefix) (hp : ParsePrefix s = some p)
    (h4 : p.ip.Is4 = true → p.bits ≤ 30) (h6 : p.ip.Is6 = true → p.bits ≤ 126) :
    ParseRange s = (some ⟨(RangeOfPrefix p).From.Next, (RangeOfPrefix p).To.Prev⟩, none) ∧
    (RangeOfPrefix p).From.value = p.ip.value - p.ip.value % 2 ^ (p.ip.BitLen - p.bits) ∧
    (RangeOfPrefix p).To.value = (RangeOfPrefix p).From.value + (2 ^ (p.ip.BitLen - p.bits) - 1) ∧
    (RangeOfPrefix p).From.Next.value = (RangeOfPrefix p).From.value + 1 ∧
    (RangeOfPrefix p).To.Prev.value = (RangeOfPrefix p).To.value - 1 ∧
    (ipRange.mk (RangeOfPrefix p).From.Next (RangeOfPrefix p).To.Prev).Contains
      (RangeOfPrefix p).From = false ∧
    (ipRange.mk (RangeOfPrefix p).From.Next (RangeOfPrefix p).To.Prev).Contains
      (RangeOfPrefix p).To = false ∧
    (ipRange.mk (RangeOfPrefix p).From.Next (RangeOfPrefix p).To.Prev).Size
      = ((2 ^ (p.ip.BitLen - p.bits) - 2 : Nat) : Int) := by
  obtain ⟨a, d, -, ha, hz, hb, -⟩ := ParsePrefix_ok s p hp
  obtain ⟨hw, -⟩ := ParseAddr_ok a p.ip ha
  obtain ⟨hne, hrr, hrc, hpl⟩ := CIDR_token s p hp
  obtain ⟨⟨x, z⟩, bits⟩ := p
  simp only at ha hz hb hw h4 h6 ⊢
  have h2 : 2 ≤ (Addr.mk x z).BitLen - bits := by
    rcases hz with e | e <;> subst e
    · have := h4 rfl; simp only [Addr.BitLen]; omega
    · have := h6 rfl; simp only [Addr.BitLen]; omega
  obtain ⟨r1, r2, r3, r4, r5⟩ := RangeOfPrefix_facts x z bits hz hw hb
  obtain ⟨l1, l2, l3⟩ := prefix_low x _ h2
  obtain ⟨n1, n2, n3, n4, n5, n6, n7, n8, n9⟩ := Next_Prev_facts _ _ z hz r2 r3 l1 l2 l3
  have hzone : ∀ v : Nat, (Addr.mk v z).Zone = [] := by
    intro v
    rcases hz with e | e <;> subst e <;> rfl
  have hzz : ∀ v : Nat, (Addr.mk v z).z = Zone.z4 ∨ (Addr.mk v z).z = Zone.z6 [] := fun _ => hz
  have hfam : ∀ v w : Nat, (Addr.mk v z).Is4 = true ∧ (Addr.mk w z).Is4 = true ∨
      (Addr.mk v z).Is6 = true ∧ (Addr.mk w z).Is6 = true := by
    intro v w
    rcases hz with e | e <;> subst e
    · exact Or.inl ⟨rfl, rfl⟩
    · exact Or.inr ⟨rfl, rfl⟩
  rw [r1]
  simp only [n1, n2]
  generalize (Addr.mk x z).BitLen - bits = h at *
  generalize 2 ^ h = H at *
  generalize x - x % H = f at *
  have hle : Addr.le (Addr.mk (f + 1) z) ⟨f + (H - 1) - 1, z⟩ := le_of_lt n5
  refine ⟨?_, r4, r5, n6, n7, ?_, ?_, ?_⟩
  · rw [ParseRange_of_reCIDR s hne hrr hrc]
    simp only [parseCIDR, hpl, r1, n1, n2, n5, if_true]
    have key := parseRange_text _ _ _ _ (ParseAddr_String _ n3 (hzz _)) (ParseAddr_String _ n4 (hzz _))
      (hzone _) (hzone _)
    simp only [List.append_assoc, List.singleton_append]
    rw [key, if_pos ⟨rfl, hle⟩]
    rfl
  · have := (Compare_lt_flip (Addr.mk (f + 1) z) ⟨f, z⟩).mp n8
    have h' : ¬ (Addr.mk (f + 1) z).Compare ⟨f, z⟩ ≤ 0 := by omega
    simp [ipRange.Contains, h']
  · have h' : ¬ (Addr.mk (f + (H - 1) - 1) z).Compare ⟨f + (H - 1), z⟩ ≥ 0 := by omega
    simp only [ipRange.Contains]
    simp only [ge_iff_le] at h'
    simp [h']
  · rw [Size_eq_value _ n3 n4 (hfam _ _)]
    simp only [n6, n7, r5]
    generalize (Addr.mk f z).value = v
    omega

theorem ParseRange_CIDR_hosts_witness :
    ParseRange "10.0.0.0/30".toList = (some ⟨Addr.from4 10 0 0 1, Addr.from4 10 0 0 2⟩, none) ∧
    (ipRange.mk (Addr.from4 10 0 0 1) (Addr.from4 10 0 0 2)).Size = 2 :=
  ⟨(ParseRange_CIDR_hosts "10.0.0.0/30".toList ⟨Addr.from4 10 0 0 0, 30⟩ (by decide)
      (fun _ => by decide) (fun h => by revert h; decide)).1,
    (ParseRange_CIDR_hosts "10.0.0.0/30".toList ⟨Addr.from4 10 0 0 0, 30⟩ (by decide)
      (fun _ => by decide) (fun h => by revert h; decide)).2.2.2.2.2.2.2⟩

/-! ## The subnet-mask form -/

/-- A text that the loop of `parseIPv4Fields` accepts still holds, for each of
the dots to come, the dot and a digit after it, and one more digit when the
byte before is not a digit. -/
theorem parseIPv4FieldsLoop_length : ∀ (s : Str) (prev : Option Char) (val pos digLen : Nat)
    (fields r : List Nat), parseIPv4FieldsLoop s prev val pos digLen fields = some r →
    ((prev = none ∨ prev = some '.') → s ≠ [] → 1 + 2 * (3 - pos) ≤ s.length) ∧
    (¬ (prev = none ∨ prev = some '.') → 2 * (3 - pos) ≤ s.length)
  | [], prev, val, pos, digLen, fields, r => by
    intro h
    simp only [parseIPv4FieldsLoop] at h
    split_ifs at h with h1
    exact ⟨fun _ hne => absurd rfl hne, fun _ => by simp only [List.length_nil]; omega⟩
  | c :: cs, prev, val, pos, digLen, fields, r => by
    intro h
    simp only [parseIPv4FieldsLoop] at h
    have hdig : isDigit '.' = false := by decide
    by_cases hd : isDigit c = true
    · simp only [hd, if_true] at h
      split_ifs at h
      have hc : ¬ (some c = none ∨ some c = some '.') := by
        rintro (e | e)
        · cases e
        · simp only [Option.some.injEq] at e; subst e; simp [hdig] at hd
      have ih := (parseIPv4FieldsLoop_length cs _ _ _ _ _ _ h).2 hc
      simp only [List.length_cons]
      exact ⟨fun _ _ => by omega, fun _ => by omega⟩
    · simp only [hd, if_false, Bool.false_eq_true] at h
      by_cases hdot : (c == '.') = true
      swap
      · simp [hdot] at h
      simp only [hdot, if_true] at h
      by_cases hp : (prev.isNone || cs.isEmpty || prev == some '.') = true
      · simp [hp] at h
      simp only [hp, if_false, Bool.false_eq_true] at h
      by_cases h3 : (pos == 3) = true
      · simp [h3] at h
      simp only [h3, if_false, Bool.false_eq_true] at h
      simp only [Bool.or_eq_true, Option.isNone_iff_eq_none, List.isEmpty_iff, beq_iff_eq,
        not_or] at hp
      have hcd : c = '.' := by simpa using hdot
      subst hcd
      have ih := (parseIPv4FieldsLoop_length cs _ _ _ _ _ _ h).1 (Or.inr rfl) hp.1.2
      simp only [List.length_cons]
      refine ⟨fun hpr => ?_, fun _ => by omega⟩
      rcases hpr with e | e
      · exact absurd e hp.1.1
      · exact absurd e hp.2

/-- A dotted quad has at least seven characters. -/
theorem parseIPv4_length (s : Str) (a : Addr) (h : parseIPv4 s = some a) : 7 ≤ s.length := by
  simp only [parseIPv4] at h
  cases hf : parseIPv4Fields s with
  | none => simp [hf] at h
  | some f =>
    have hne := (parseIPv4_ok s a h).2.2.2
    exact (parseIPv4FieldsLoop_length s none 0 0 0 [0, 0, 0, 0] f hf).1 (Or.inl rfl) hne

theorem parseIPv4_of_ParseAddr (s : Str) (a : Addr) (h : ParseAddr s = some a)
    (h4 : a.z = Zone.z4) : parseIPv4 s = some a := by
  rcases ParseAddrScan_cases s a s h with c | c
  · exact c
  · obtain ⟨-, ⟨zone, hz⟩, -⟩ := parseIPv6_ok s a c
    rw [h4] at hz; cases hz

theorem ParseAddrScan_digits (s0 : Str) : ∀ s : Str, (∀ c ∈ s, isDigit c = true) →
    ParseAddrScan s0 s = none
  | [], _ => rfl
  | c :: cs, h => by
    have hc := hexVal_sep (hexVal_of_isDigit c (h c (List.mem_cons_self _ _)))
    simp only [ParseAddrScan, beq_iff_eq, hc.1, hc.2.1, hc.2.2, if_false]
    exact ParseAddrScan_digits s0 cs fun c' hc' => h c' (List.mem_cons_of_mem _ hc')

/-- The prefix length that `IPMask.Size` gives for the mask with `n` leading one
bits. -/
theorem IPMaskSize_contiguous (n : Nat) (hn : n ≤ 32) :
    IPMaskSize (To4 (some ((List.range 16).map
      (Addr.mk (0xffff00000000 + (2 ^ 32 - 2 ^ (32 - n))) Zone.z4).v6))) = (n, 32) := by
  interval_cases n <;> decide

theorem itoa_prefix (n : Nat) (hn : n ≤ 32) :
    itoa n ≠ [] ∧ (itoa n).length ≤ 3 ∧ ∀ c ∈ itoa n, isDigit c = true := by
  interval_cases n <;> decide

/-- C10: for an IPv4 address text `a` and a dotted-quad mask `m` whose value is
`n` one bits followed by zero bits, `ParseRange` of `a/m` and of `a/n` return
the same range, or both return a syntax error. -/
theorem ParseRange_mask_eq_CIDR (a m : Str) (ipa ipm : Addr) (n : Nat)
    (ha : ParseAddr a = some ipa) (h4 : ipa.Is4 = true) (hm : ParseAddr m = some ipm)
    (hm4 : ipm.Is4 = true) (hn : n ≤ 32) (hv : ipm.value = 2 ^ 32 - 2 ^ (32 - n)) :
    (ParseRange (a ++ '/' :: m)).1 = (ParseRange (a ++ '/' :: itoa n)).1 ∧
    ((ParseRange (a ++ '/' :: m)).2 = none ↔ (ParseRange (a ++ '/' :: itoa n)).2 = none) := by
  have hza : ipa.z = Zone.z4 := by simpa [Addr.Is4] using h4
  have hzm : ipm.z = Zone.z4 := by simpa [Addr.Is4] using hm4
  obtain ⟨-, -, hnea, -, hcla⟩ := ParseAddr_ok a ipa ha
  obtain ⟨hwm, -, hnem, -, hclm⟩ := ParseAddr_ok m ipm hm
  have hcla := hcla hza
  have hclm := hclm hzm
  obtain ⟨i1, i2, i3⟩ := itoa_prefix n hn
  -- the mask is the address with `n` leading one bits
  have hipm : ipm = ⟨0xffff00000000 + (2 ^ 32 - 2 ^ (32 - n)), Zone.z4⟩ := by
    rcases ipm with ⟨x, z⟩
    simp only at hzm
    subst hzm
    have h1 := hwm.2 rfl
    simp only [Addr.value, Addr.Is4, two32, beq_self_eq_true, if_true] at hv h1
    have hpos : 2 ^ (32 - n) ≤ 2 ^ 32 := Nat.pow_le_pow_right (by norm_num) (by omega)
    have : x = 0xffff00000000 + (2 ^ 32 - 2 ^ (32 - n)) := by
      rw [← hv]
      have := Nat.div_add_mod x (2 ^ 32)
      omega
    rw [this]
  have hsize : IPMaskSize (To4 (ParseIP m)) = (n, 32) := by
    have hz : ipm.Zone = [] := by simp [Addr.Zone, hzm]
    simp only [ParseIP, hm, hz, bne_self_eq_false, Bool.false_eq_true, if_false]
    rw [hipm]
    exact IPMaskSize_contiguous n hn
  -- the classes of the characters
  have hslash_m : ∀ c ∈ m, c ≠ '/' := fun c hc => (inAddrClass_sep (inAddrClass_of_dot (hclm c hc))).2.1
  have hslash_a : ∀ c ∈ a, c ≠ '/' := fun c hc => (inAddrClass_sep (inAddrClass_of_dot (hcla c hc))).2.1
  have hslash_n : ∀ c ∈ itoa n, c ≠ '/' := fun c hc => by
    have := i3 c hc
    rintro rfl
    revert this; decide
  have hlow1 : ToLower (a ++ '/' :: m) = a ++ '/' :: m := by
    apply ToLower_of_class
    intro c hc
    simp only [List.mem_append, List.mem_cons] at hc
    rcases hc with h | h | h
    · exact Or.inl (inAddrClass_of_dot (hcla c h))
    · exact Or.inr (Or.inr h)
    · exact Or.inl (inAddrClass_of_dot (hclm c h))
  have hlow2 : ToLower (a ++ '/' :: itoa n) = a ++ '/' :: itoa n := by
    apply ToLower_of_class
    intro c hc
    simp only [List.mem_append, List.mem_cons] at hc
    rcases hc with h | h | h
    · exact Or.inl (inAddrClass_of_dot (hcla c h))
    · exact Or.inr (Or.inr h)
    · exact Or.inl (inAddrClass_of_dot (by simp [inDotClass, i3 c h]))
  have hidx : ∀ t : Str, indexByte (a ++ '/' :: t) '/' = some a.length :=
    fun t => indexByte_append '/' t a hslash_a
  -- the mask form
  have hmlen : 7 ≤ m.length := parseIPv4_length m ipm (parseIPv4_of_ParseAddr m ipm hm hzm)
  have hmdig : m.all isDigit = false := by
    by_contra hc
    simp only [Bool.not_eq_false, List.all_eq_true] at hc
    have := ParseAddrScan_digits m m hc
    rw [ParseAddr] at hm
    rw [hm] at this
    cases this
  have e1 : ParseRange (a ++ '/' :: m)
      = rangeOrError (a ++ '/' :: m) (parseCIDR (a ++ '/' :: itoa n)) := by
    have hc : reCIDR (ToLower (a ++ '/' :: m)) = false := by
      rw [hlow1]
      obtain ⟨t1, t2⟩ := take_append_cons a m '/'
      simp only [reCIDR, hidx, t1, t2, hmdig, Bool.and_false]
    have hs : reSubnetMask (ToLower (a ++ '/' :: m)) = true := by
      rw [hlow1]
      obtain ⟨t1, t2⟩ := take_append_cons a m '/'
      simp only [reSubnetMask, hidx, t1, t2, Bool.and_eq_true, bne_iff_ne, ne_eq, List.all_eq_true,
        decide_eq_true_eq]
      exact ⟨⟨⟨hnea, hcla⟩, hmlen⟩, hclm⟩
    rw [ParseRange_of_reSubnetMask _ (by rw [hlow1]; simp) (by rw [hlow1]; exact reRange_slash _ _)
      hc hs, hlow1]
    obtain ⟨t1, t2⟩ := take_append_cons a m '/'
    simp only [parseSubnetMask, lastIndexByte_append '/' m hslash_m a, t1, t2, hsize]
    simp
  have e2 : ParseRange (a ++ '/' :: itoa n)
      = rangeOrError (a ++ '/' :: itoa n) (parseCIDR (a ++ '/' :: itoa n)) := by
    have hc : reCIDR (ToLower (a ++ '/' :: itoa n)) = true := by
      rw [hlow2]
      obtain ⟨t1, t2⟩ := take_append_cons a (itoa n) '/'
      simp only [reCIDR, hidx, t1, t2, Bool.and_eq_true, bne_iff_ne, ne_eq, List.all_eq_true,
        decide_eq_true_eq]
      refine ⟨⟨⟨⟨hnea, fun c hc => inAddrClass_of_dot (hcla c hc)⟩, ?_⟩, i2⟩, i3⟩
      cases hi : itoa n with
      | nil => exact absurd hi i1
      | cons c cs => simp
    rw [ParseRange_of_reCIDR _ (by rw [hlow2]; simp) (by rw [hlow2]; exact reRange_slash _ _) hc,
      hlow2]
  rw [e1, e2]
  cases parseCIDR (a ++ '/' :: itoa n) <;> simp [rangeOrError]

theorem ParseRange_mask_eq_CIDR_witness :
    (ParseRange "192.0.2.0/255.255.255.0".toList).1 = (ParseRange "192.0.2.0/24".toList).1 :=
  (ParseRange_mask_eq_CIDR "192.0.2.0".toList "255.255.255.0".toList (Addr.from4 192 0 2 0)
    (Addr.from4 255 255 255 0) 24 (by decide) (by decide) (by decide) (by decide) (by decide)
    (by decide)).1

/-- C3 (code bug): `ParseRange` of `255.255.255.255/32`, and of
`ffff:ffff:ffff:ffff:ffff:ffff:ffff:ffff/128`, is a syntax error: the successor
of the highest address is the invalid address, which compares below the
predecessor of the highest address, so `parseCIDR` takes the branch of the
reduced range and prints the invalid address. The bare address and the prefix
`0.0.0.0/32` do give the full span. -/
theorem ParseRange_top_prefix_fails :
    ParsePrefix "255.255.255.255/32".toList = some ⟨maxV4, 32⟩ ∧
    maxV4.Next = Addr.zero ∧ Addr.zero.Compare maxV4.Prev < 0 ∧
    Addr.zero.String ++ ['-'] ++ maxV4.Prev.String = "invalid IP-255.255.255.254".toList ∧
    ParseRange "255.255.255.255/32".toList
      = (none, some "ip range (255.255.255.255/32) invalid syntax".toList) ∧
    ParsePrefix "ffff:ffff:ffff:ffff:ffff:ffff:ffff:ffff/128".toList = some ⟨maxV6, 128⟩ ∧
    ParseRange "ffff:ffff:ffff:ffff:ffff:ffff:ffff:ffff/128".toList
      = (none, some "ip range (ffff:ffff:ffff:ffff:ffff:ffff:ffff:ffff/128) invalid syntax".toList) ∧
    ParseRange "255.255.255.255".toList = (some ⟨maxV4, maxV4⟩, none) ∧
    ParseRange "0.0.0.0/32".toList = (some ⟨Addr.from4 0 0 0 0, Addr.from4 0 0 0 0⟩, none) ∧
    ParseRange "10.0.0.0/31".toList = (some ⟨Addr.from4 10 0 0 0, Addr.from4 10 0 0 1⟩, none) := by
  refine ⟨by decide, by decide, by decide, by decide, by decide, by decide, by decide, by decide,
    by decide, by decide⟩

/-! ## Addresses of another family -/

theorem Compare_of_BitLen_lt (a b : Addr) (h : a.BitLen < b.BitLen) :
    a.Compare b = -1 ∧ b.Compare a = 1 := by
  constructor
  · simp only [Addr.Compare, h, if_true]
  · have h1 : ¬ b.BitLen < a.BitLen := by omega
    simp only [Addr.Compare, h1, if_false, gt_iff_lt, h, if_true]

theorem BitLen_cases (a : Addr) :
    (a.Is4 = true ∧ a.BitLen = 32 ∧ a.Is6 = false ∧ a.IsValid = true) ∨
    (a.Is6 = true ∧ a.BitLen = 128 ∧ a.Is4 = false ∧ a.IsValid = true) ∨
    (a.IsValid = false ∧ a.BitLen = 0 ∧ a.Is4 = false ∧ a.Is6 = false) := by
  rcases a with ⟨x, z⟩
  cases z <;> simp [Addr.Is4, Addr.Is6, Addr.BitLen, Addr.IsValid]

theorem Contains_of_BitLen_ne (r : ipRange) (ip : Addr) (hf : r.start.BitLen = r.end_.BitLen)
    (hne : ip.BitLen ≠ r.start.BitLen) : r.Contains ip = false := by
  rcases Nat.lt_or_gt_of_ne hne with h | h
  · have h1 := (Compare_of_BitLen_lt ip r.start h).2
    simp [ipRange.Contains, h1]
  · have h1 := (Compare_of_BitLen_lt r.end_ ip (hf ▸ h)).1
    simp [ipRange.Contains, h1]

/-- C20: a range whose endpoints are both IPv4 contains no IPv6 address and no
invalid address, a range whose endpoints are both IPv6 contains no IPv4 address
and no invalid address; the reason is that `Compare` orders two addresses of
different bit lengths by the bit length alone. -/
theorem Contains_other_family (r : ipRange) (ip : Addr) :
    (r.start.Is4 = true → r.end_.Is4 = true → (ip.Is6 = true ∨ ip.IsValid = false) →
      r.Contains ip = false) ∧
    (r.start.Is6 = true → r.end_.Is6 = true → (ip.Is4 = true ∨ ip.IsValid = false) →
      r.Contains ip = false) ∧
    (∀ a b : Addr, a.BitLen < b.BitLen → a.Compare b = -1 ∧ b.Compare a = 1) := by
  refine ⟨fun hs he hip => ?_, fun hs he hip => ?_, Compare_of_BitLen_lt⟩
  · apply Contains_of_BitLen_ne
    · rcases BitLen_cases r.start with h | h | h <;> rcases BitLen_cases r.end_ with h' | h' | h' <;>
        simp_all
    · rcases BitLen_cases r.start with h | h | h <;> rcases BitLen_cases ip with h' | h' | h' <;>
        simp_all
  · apply Contains_of_BitLen_ne
    · rcases BitLen_cases r.start with h | h | h <;> rcases BitLen_cases r.end_ with h' | h' | h' <;>
        simp_all
    · rcases BitLen_cases r.start with h | h | h <;> rcases BitLen_cases ip with h' | h' | h' <;>
        simp_all

theorem Contains_other_family_witness :
    (ipRange.mk (from4 10 0 0 1) (from4 10 0 0 9)).Contains ⟨0xffff0a000005, Zone.z6 []⟩ = false ∧
    (ipRange.mk (from4 10 0 0 1) (from4 10 0 0 9)).Contains Addr.zero = false ∧
    (ipRange.mk ⟨1, Zone.z6 []⟩ ⟨0xffffffffffff, Zone.z6 []⟩).Contains (from4 10 0 0 5) = false :=
  ⟨(Contains_other_family ⟨from4 10 0 0 1, from4 10 0 0 9⟩ ⟨0xffff0a000005, Zone.z6 []⟩).1
      (by decide) (by decide) (Or.inl (by decide)),
   (Contains_other_family ⟨from4 10 0 0 1, from4 10 0 0 9⟩ Addr.zero).1
      (by decide) (by decide) (Or.inr (by decide)),
   (Contains_other_family ⟨⟨1, Zone.z6 []⟩, ⟨0xffffffffffff, Zone.z6 []⟩⟩ (from4 10 0 0 5)).2.1
      (by decide) (by decide) (Or.inl (by decide))⟩

/-! ## The text of a range -/

/-- C16: the text of the range built from `start` and `end_` is the text of
`start`, a hyphen, and the text of `end_`; so the range from 192.0.2.0 to
192.0.2.10 prints as `192.0.2.0-192.0.2.10` and the range from 2001:db8:: to
2001:db8::10 as `2001:db8::-2001:db8::10`. -/
theorem String_of_New :
    (∀ start end_ : Addr,
      (New start end_).map ipRange.String = some (start.String ++ "-".toList ++ end_.String)) ∧
    (New (from4 192 0 2 0) (from4 192 0 2 10)).map ipRange.String
      = some "192.0.2.0-192.0.2.10".toList ∧
    (New ⟨0x20010db8 * 2 ^ 96, Zone.z6 []⟩ ⟨0x20010db8 * 2 ^ 96 + 16, Zone.z6 []⟩).map
      ipRange.String = some "2001:db8::-2001:db8::10".toList := by
  refine ⟨fun start end_ => rfl, by decide, by decide⟩

/-! ## The empty token, and tokens with a foreign character -/

theorem ToLower_eq_nil (s : Str) : ToLower s = [] ↔ s = [] := by
  cases s <;> simp [ToLower]

theorem ParseRange_cases (s : Str) (hs : s ≠ []) :
    (∃ r, ParseRange s = (some r, none)) ∨ ParseRange s = (none, some (syntaxError (ToLower s))) := by
  have hl : ToLower s ≠ [] := fun h => hs ((ToLower_eq_nil s).1 h)
  have hl' : (ToLower s == []) = false := by simpa using hl
  simp only [ParseRange, hl', Bool.false_eq_true, if_false]
  split
  · exact Or.inr rfl
  · exact Or.inl ⟨_, rfl⟩

/-- C12: `ParseRange` returns neither a range nor an error exactly for the empty
token; for a token that is not empty it returns either a range and no error, or
no range and the syntax error. -/
theorem ParseRange_none_iff_empty (s : Str) :
    (ParseRange s = (none, none) ↔ s = []) ∧
    (s ≠ [] → (∃ r, ParseRange s = (some r, none)) ∨
      ParseRange s = (none, some (syntaxError (ToLower s)))) := by
  refine ⟨⟨fun h => ?_, fun h => by subst h; rfl⟩, ParseRange_cases s⟩
  by_contra hs
  rcases ParseRange_cases s hs with ⟨r, hr⟩ | hr <;> rw [hr] at h <;> simp at h

theorem ParseRange_none_iff_empty_witness :
    ParseRange [] = (none, none) ∧
    ((∃ r, ParseRange "192.0.2.1".toList = (some r, none)) ∨
      ParseRange "192.0.2.1".toList
        = (none, some (syntaxError (ToLower "192.0.2.1".toList)))) :=
  ⟨(ParseRange_none_iff_empty []).1.2 rfl,
   (ParseRange_none_iff_empty "192.0.2.1".toList).2 (by decide)⟩

theorem inAddrClass_digit_of {c : Char} (h : isDigit c = true) : inAddrClass c = true := by
  simp [inAddrClass, h]

theorem reRange_mem (s : Str) (h : reRange s = true) :
    ∀ c ∈ s, inAddrClass c = true ∨ c = '-' := by
  intro c hc
  simp only [reRange, Bool.and_eq_true, List.all_eq_true, Bool.or_eq_true, beq_iff_eq] at h
  exact h.2 c hc

theorem reCIDR_mem (s : Str) (h : reCIDR s = true) :
    ∀ c ∈ s, inAddrClass c = true ∨ c = '/' := by
  intro c hc
  unfold reCIDR at h
  cases hi : indexByte s '/' with
  | none => simp [hi] at h
  | some i =>
    simp only [hi, Bool.and_eq_true, List.all_eq_true, decide_eq_true_eq] at h
    have hsplit := (indexByte_some '/' s i hi).1
    rw [hsplit] at hc
    rcases List.mem_append.1 hc with hc | hc
    · exact Or.inl (h.1.1.1.2 c hc)
    · rcases List.mem_cons.1 hc with hc | hc
      · exact Or.inr hc
      · exact Or.inl (inAddrClass_digit_of (h.2 c hc))

theorem reSubnetMask_mem (s : Str) (h : reSubnetMask s = true) :
    ∀ c ∈ s, inDotClass c = true ∨ c = '/' := by
  intro c hc
  unfold reSubnetMask at h
  cases hi : indexByte s '/' with
  | none => simp [hi] at h
  | some i =>
    simp only [hi, Bool.and_eq_true, List.all_eq_true, decide_eq_true_eq] at h
    have hsplit := (indexByte_some '/' s i hi).1
    rw [hsplit] at hc
    rcases List.mem_append.1 hc with hc | hc
    · exact Or.inl (h.1.1.2 c hc)
    · rcases List.mem_cons.1 hc with hc | hc
      · exact Or.inr hc
      · exact Or.inl (h.2 c hc)

/-- C15: a token that, lower-cased, holds a character other than `0`-`9`,
`a`-`f`, `.`, `:`, `-` and `/` matches none of the three patterns, and
`ParseRange` returns the syntax error and no range. -/
theorem ParseRange_foreign_char (s : Str) (c : Char) (hc : c ∈ ToLower s)
    (hout : inAddrClass c = false) (h1 : c ≠ '-') (h2 : c ≠ '/') :
    reRange (ToLower s) = false ∧ reCIDR (ToLower s) = false ∧
    reSubnetMask (ToLower s) = false ∧
    ParseRange s = (none, some (syntaxError (ToLower s))) := by
  have hr : reRange (ToLower s) = false := by
    by_contra h
    rcases reRange_mem _ (by simpa using h) c hc with h | h
    · simp [hout] at h
    · exact h1 h
  have hci : reCIDR (ToLower s) = false := by
    by_contra h
    rcases reCIDR_mem _ (by simpa using h) c hc with h | h
    · simp [hout] at h
    · exact h2 h
  have hm : reSubnetMask (ToLower s) = false := by
    by_contra h
    rcases reSubnetMask_mem _ (by simpa using h) c hc with h | h
    · simp [inAddrClass_of_dot h] at hout
    · exact h2 h
  refine ⟨hr, hci, hm, ?_⟩
  have hne : (ToLower s == []) = false := by
    cases hl : ToLower s with
    | nil => rw [hl] at hc; simp at hc
    | cons a l => rfl
  simp only [ParseRange, hne, hr, hci, hm, Bool.false_eq_true, if_false]

theorem ParseRange_foreign_char_witness :
    ParseRange "not-an-ip".toList
      = (none, some "ip range (not-an-ip) invalid syntax".toList) :=
  (ParseRange_foreign_char "not-an-ip".toList 'n' (by decide) (by decide) (by decide)
    (by decide)).2.2.2

/-! ## What `parseRange` returns -/

theorem WithZone_nil_facts (x : Addr) (hw : x.WF) (hv : x.z ≠ Zone.z0) :
    (x.WithZone []).WF ∧ ((x.WithZone []).z = Zone.z4 ∨ (x.WithZone []).z = Zone.z6 []) := by
  rcases x with ⟨a, z⟩
  cases z with
  | z0 => exact absurd rfl hv
  | z4 => exact ⟨hw, Or.inl rfl⟩
  | z6 zone =>
    refine ⟨⟨hw.1, fun h => ?_⟩, Or.inr rfl⟩
    simp [Addr.WithZone, Addr.Is6] at h

theorem ParseIPRange_some (s : Str) (r : IPRange) (h : ParseIPRange s = some r) :
    ∃ a b x y, s = a ++ '-' :: b ∧ ParseAddr a = some x ∧ ParseAddr b = some y ∧
      r = ⟨x.WithZone [], y.WithZone []⟩ ∧ r.IsValid = true := by
  unfold ParseIPRange at h
  cases hi : indexByte s '-' with
  | none => simp [hi] at h
  | some i =>
    simp only [hi] at h
    cases ha : ParseAddr (s.take i) with
    | none => simp [ha] at h
    | some x =>
      simp only [ha] at h
      cases hb : ParseAddr (s.drop (i + 1)) with
      | none => simp [hb] at h
      | some y =>
        simp only [hb] at h
        by_cases hv : IPRange.IsValid ⟨x.WithZone [], y.WithZone []⟩ = true
        · simp only [hv, Bool.not_true, Bool.false_eq_true, if_false, Option.some.injEq] at h
          exact ⟨_, _, x, y, (indexByte_some '-' s i hi).1, ha, hb, h.symm, h ▸ hv⟩
        · simp [hv] at h

/-- The range that `parseRange` returns has valid endpoints of one family, the
first not above the second. -/
theorem parseRange_sound (s : Str) (r : ipRange) (h : parseRange s = some r) :
    r.start.WF ∧ r.end_.WF ∧ r.start.z ≠ Zone.z0 ∧ r.start.BitLen = r.end_.BitLen ∧
    Addr.le r.start r.end_ ∧ r.start.value ≤ r.end_.value ∧
    ((∀ c ∈ s, c ≠ '%') → (r.start.z = Zone.z4 ∨ r.start.z = Zone.z6 []) ∧
      (r.end_.z = Zone.z4 ∨ r.end_.z = Zone.z6 [])) := by
  unfold parseRange at h
  cases hp : ParseIPRange s with
  | some ipr =>
    simp only [hp, New, Option.some.injEq] at h
    obtain ⟨a, b, x, y, -, ha, hb, hr, hv⟩ := ParseIPRange_some s ipr hp
    obtain ⟨hwx, hzx, -⟩ := ParseAddr_ok a x ha
    obtain ⟨hwy, hzy, -⟩ := ParseAddr_ok b y hb
    obtain ⟨hwx', hzx'⟩ := WithZone_nil_facts x hwx hzx
    obtain ⟨hwy', hzy'⟩ := WithZone_nil_facts y hwy hzy
    subst hr
    have hv' := (IsValid_iff _ _ hzx' hzy').1 hv
    subst h
    refine ⟨hwx', hwy', ?_, hv'.1, hv'.2, ?_, fun _ => ⟨hzx', hzy'⟩⟩
    · rcases hzx' with h | h <;> simp [h]
    · refine (le_iff_value _ _ hv'.1 ?_ ?_ hwx' hwy').1 hv'.2
      · rcases hzx' with h | h <;> simp [Addr.Zone, h]
      · rcases hzy' with h | h <;> simp [Addr.Zone, h]
  | none =>
    simp only [hp] at h
    cases ha : ParseAddr s with
    | none => simp [ha] at h
    | some x =>
      simp only [ha] at h
      by_cases hv : x.IsValid = true
      · simp only [hv, if_true, New, Option.some.injEq] at h
        subst h
        obtain ⟨hwx, hzx, -, hz, -⟩ := ParseAddr_ok s x ha
        refine ⟨hwx, hwx, hzx, rfl, ?_, le_refl _, fun hc => ?_⟩
        · simp [Addr.le, Compare_self]
        · have := (hz (ParseAddr_noZone s x ha (indexByte_none s '%' hc))).2.2
          exact ⟨this, this⟩
      · simp [hv] at h

/-! ## The texts that `parseCIDR` hands to `parseRange` -/

theorem Next_Zone (ip : Addr) (h : ip.Zone = []) : ip.Next.Zone = [] := by
  have hz : Addr.zero.Zone = [] := rfl
  have hk : ∀ a : Nat, (Addr.mk a ip.z).Zone = [] := fun a => h
  simp only [Addr.Next]
  split_ifs
  · exact hz
  · exact hk _
  · exact hz
  · exact hk _

theorem Prev_Zone (ip : Addr) (h : ip.Zone = []) : ip.Prev.Zone = [] := by
  have hz : Addr.zero.Zone = [] := rfl
  have hk : ∀ a : Nat, (Addr.mk a ip.z).Zone = [] := fun a => h
  simp only [Addr.Prev]
  split_ifs
  · exact hz
  · exact hk _
  · exact hz
  · exact hk _

theorem RangeOfPrefix_Zone (p : Prefix) (h : p.ip.Zone = []) :
    (RangeOfPrefix p).From.Zone = [] ∧ (RangeOfPrefix p).To.Zone = [] := by
  simp only [RangeOfPrefix]
  split_ifs
  · exact ⟨rfl, rfl⟩
  · exact ⟨h, h⟩

theorem String_noPercent (ip : Addr) (h : ip.Zone = []) : ∀ c ∈ ip.String, c ≠ '%' := by
  rcases ip with ⟨x, z⟩
  cases z with
  | z0 =>
    intro c hc
    have : c ∈ "invalid IP".toList := hc
    intro hcc
    subst hcc
    simp at this
  | z4 => exact fun c hc => (inAddrClass_sep (String_class _ (Or.inl rfl) c hc)).2.2
  | z6 zone =>
    have hz : zone = [] := h
    subst hz
    exact fun c hc => (inAddrClass_sep (String_class _ (Or.inr rfl) c hc)).2.2

theorem parseCIDR_some (s : Str) (r : ipRange) (h : parseCIDR s = some r) :
    ∃ t, parseRange t = some r ∧ ∀ c ∈ t, c ≠ '%' := by
  unfold parseCIDR at h
  cases hp : ParsePrefix s with
  | none => simp [hp] at h
  | some p =>
    simp only [hp] at h
    obtain ⟨a, d, -, -, hz, -⟩ := ParsePrefix_ok s p hp
    have hzone : p.ip.Zone = [] := by rcases hz with h | h <;> simp [Addr.Zone, h]
    obtain ⟨hF, hT⟩ := RangeOfPrefix_Zone p hzone
    have key : ∀ X Y : Addr, X.Zone = [] → Y.Zone = [] →
        ∀ c ∈ X.String ++ ['-'] ++ Y.String, c ≠ '%' := by
      intro X Y hX hY c hc
      simp only [List.mem_append, List.mem_singleton] at hc
      rcases hc with (hc | hc) | hc
      · exact String_noPercent X hX c hc
      · rw [hc]; decide
      · exact String_noPercent Y hY c hc
    by_cases hlt : (RangeOfPrefix p).From.Next.Compare (RangeOfPrefix p).To.Prev < 0
    · simp only [hlt, if_true] at h
      exact ⟨_, h, key _ _ (Next_Zone _ hF) (Prev_Zone _ hT)⟩
    · simp only [hlt, if_false] at h
      exact ⟨_, h, key _ _ hF hT⟩

theorem parseSubnetMask_some (s : Str) (r : ipRange) (h : parseSubnetMask s = some r) :
    ∃ t, parseRange t = some r ∧ ∀ c ∈ t, c ≠ '%' := by
  unfold parseSubnetMask at h
  cases hi : lastIndexByte s '/' with
  | none => simp [hi] at h
  | some i =>
    simp only [hi] at h
    split_ifs at h
    exact parseCIDR_some _ r h

/-- Every range that `ParseRange` returns comes from `parseRange`, run on a text
without `%`. -/
theorem ParseRange_some (s : Str) (r : ipRange) (h : (ParseRange s).1 = some r) :
    ∃ t, parseRange t = some r ∧ ∀ c ∈ t, c ≠ '%' := by
  unfold ParseRange at h
  by_cases he : (ToLower s == []) = true
  · simp [he] at h
  · simp only [he, Bool.false_eq_true, if_false] at h
    by_cases hr : reRange (ToLower s) = true
    · simp only [hr, if_true] at h
      cases hp : parseRange (ToLower s) with
      | none => simp [hp] at h
      | some r' =>
        simp only [hp, Option.some.injEq] at h
        subst h
        exact ⟨_, hp, fun c hc => by
          rcases reRange_mem _ hr c hc with h | h
          · exact (inAddrClass_sep h).2.2
          · rw [h]; decide⟩
    · simp only [hr, Bool.false_eq_true, if_false] at h
      by_cases hc : reCIDR (ToLower s) = true
      · simp only [hc, if_true] at h
        cases hp : parseCIDR (ToLower s) with
        | none => simp [hp] at h
        | some r' =>
          simp only [hp, Option.some.injEq] at h
          subst h
          exact parseCIDR_some _ _ hp
      · simp only [hc, Bool.false_eq_true, if_false] at h
        by_cases hm : reSubnetMask (ToLower s) = true
        · simp only [hm, if_true] at h
          cases hp : parseSubnetMask (ToLower s) with
          | none => simp [hp] at h
          | some r' =>
            simp only [hp, Option.some.injEq] at h
            subst h
            exact parseSubnetMask_some _ _ hp
        · simp [hm] at h

/-- The endpoints of a range that `ParseRange` returns are valid addresses
without zone, of one family, the first not above the second. -/
theorem ParseRange_sound (s : Str) (r : ipRange) (h : (ParseRange s).1 = some r) :
    r.start.WF ∧ r.end_.WF ∧ (r.start.z = Zone.z4 ∨ r.start.z = Zone.z6 []) ∧
    (r.end_.z = Zone.z4 ∨ r.end_.z = Zone.z6 []) ∧ r.start.BitLen = r.end_.BitLen ∧
    Addr.le r.start r.end_ ∧ r.start.value ≤ r.end_.value := by
  obtain ⟨t, ht, hc⟩ := ParseRange_some s r h
  obtain ⟨h1, h2, -, h4, h5, h6, h7⟩ := parseRange_sound t r ht
  exact ⟨h1, h2, (h7 hc).1, (h7 hc).2, h4, h5, h6⟩

/-- C11: a range that `ParseRange` returns without error has both endpoints
IPv4, and then `Family` is `V4Family`, or both endpoints IPv6, and then `Family`
is `V6Family`; its start is not above its end, and its `Size` is at least 1. -/
theorem ParseRange_invariant (s : Str) (r : ipRange) (h : ParseRange s = (some r, none)) :
    ((r.start.Is4 = true ∧ r.end_.Is4 = true ∧ r.Family = Family.V4Family) ∨
     (r.start.Is6 = true ∧ r.end_.Is6 = true ∧ r.Family = Family.V6Family)) ∧
    r.start.Compare r.end_ ≤ 0 ∧ r.start.value ≤ r.end_.value ∧ 1 ≤ r.Size := by
  obtain ⟨h1, h2, h3, h4, h5, h6, h7⟩ := ParseRange_sound s r (by rw [h])
  have hfam : (r.start.Is4 = true ∧ r.end_.Is4 = true) ∨ (r.start.Is6 = true ∧ r.end_.Is6 = true) := by
    rcases h3 with h3 | h3 <;> rcases h4 with h4 | h4 <;>
      simp [Addr.BitLen, Addr.Is4, Addr.Is6, h3, h4] at h5 ⊢
  refine ⟨?_, h6, h7, ?_⟩
  · rcases hfam with ⟨ha, hb⟩ | ⟨ha, hb⟩
    · refine Or.inl ⟨ha, hb, ?_⟩
      have : r.start.Is6 = false := by
        rcases BitLen_cases r.start with h | h | h <;> simp_all
      simp [ipRange.Family, this]
    · exact Or.inr ⟨ha, hb, by simp [ipRange.Family, ha]⟩
  · rw [Size_eq_value r h1 h2 hfam]
    omega

theorem ParseRange_invariant_witness :
    ((from4 10 0 0 1).Is4 = true ∧ (from4 10 0 0 2).Is4 = true ∧
      (ipRange.mk (from4 10 0 0 1) (from4 10 0 0 2)).Family = Family.V4Family ∨
     (from4 10 0 0 1).Is6 = true ∧ (from4 10 0 0 2).Is6 = true ∧
      (ipRange.mk (from4 10 0 0 1) (from4 10 0 0 2)).Family = Family.V6Family) ∧
    (from4 10 0 0 1).Compare (from4 10 0 0 2) ≤ 0 ∧
    (from4 10 0 0 1).value ≤ (from4 10 0 0 2).value ∧
    1 ≤ (ipRange.mk (from4 10 0 0 1) (from4 10 0 0 2)).Size :=
  ParseRange_invariant "10.0.0.0/30".toList ⟨from4 10 0 0 1, from4 10 0 0 2⟩ (by decide)

/-! ## Reading back the text of a range -/

/-- `ParseRange` on two address texts without zone around a hyphen. -/
theorem ParseRange_hyphen (a b : Str) (x y : Addr) (ha : ParseAddr a = some x)
    (hb : ParseAddr b = some y) (hzx : x.Zone = []) (hzy : y.Zone = []) :
    ParseRange (a ++ '-' :: b) = rangeOrError (ToLower (a ++ '-' :: b))
      (if x.BitLen = y.BitLen ∧ Addr.le x y then some ⟨x, y⟩ else none) := by
  obtain ⟨hpa, hca, -⟩ := (ParseAddr_ok a x ha).2.2.2.1 hzx
  obtain ⟨hpb, hcb, -⟩ := (ParseAddr_ok b y hb).2.2.2.1 hzy
  have hla : ParseAddr (ToLower a) = some x := by rw [ParseAddr_lower a hpa, ha]
  have hlb : ParseAddr (ToLower b) = some y := by rw [ParseAddr_lower b hpb, hb]
  have hlow : ToLower (a ++ '-' :: b) = ToLower a ++ '-' :: ToLower b := by
    rw [ToLower_append]; rfl
  have hre : reRange (ToLower (a ++ '-' :: b)) = true := by
    rw [hlow]
    simp only [reRange, Bool.and_eq_true, bne_iff_ne, ne_eq, List.all_eq_true, Bool.or_eq_true,
      beq_iff_eq]
    refine ⟨by simp, fun c hc => ?_⟩
    simp only [List.mem_append, List.mem_cons] at hc
    rcases hc with h1 | h1 | h1
    · exact Or.inl (ToLower_class a hca c h1)
    · exact Or.inr h1
    · exact Or.inl (ToLower_class b hcb c h1)
  have key := parseRange_text (ToLower a) (ToLower b) x y hla hlb hzx hzy
  rw [← hlow] at key
  rw [ParseRange_of_reRange _ hre, key]

theorem Zone_of_z (x : Addr) (h : x.z = Zone.z4 ∨ x.z = Zone.z6 []) : x.Zone = [] := by
  rcases h with h | h <;> simp [Addr.Zone, h]

/-- C17: when `ParseRange` returns the range `r` for some token, it returns the
same range `r`, and no error, for the text `r.String()`. -/
theorem ParseRange_String (s : Str) (r : ipRange) (h : (ParseRange s).1 = some r) :
    ParseRange r.String = (some r, none) := by
  obtain ⟨h1, h2, h3, h4, h5, h6, -⟩ := ParseRange_sound s r h
  have key := ParseRange_hyphen r.start.String r.end_.String r.start r.end_
    (ParseAddr_String _ h1 h3) (ParseAddr_String _ h2 h4) (Zone_of_z _ h3) (Zone_of_z _ h4)
  have hs : r.String = r.start.String ++ '-' :: r.end_.String := by
    simp [ipRange.String]
  rw [hs, key]
  simp only [h5, h6, and_self, if_true, rangeOrError]

theorem ParseRange_String_witness :
    ParseRange (ipRange.mk (from4 192 0 2 1) (from4 192 0 2 254)).String
      = (some ⟨from4 192 0 2 1, from4 192 0 2 254⟩, none) :=
  ParseRange_String "192.0.2.77/24".toList ⟨from4 192 0 2 1, from4 192 0 2 254⟩ (by decide)

/-! ## The CIDR form reads the network part only -/

theorem RangeOfPrefix_masked (p p0 : Prefix) (hb : p0.bits = p.bits) (hz : p0.ip.z = p.ip.z)
    (ha : p0.ip.addr = p.ip.addr - p.ip.addr % 2 ^ (p.ip.BitLen - p.bits)) :
    RangeOfPrefix p0 = RangeOfPrefix p := by
  rcases p with ⟨⟨x, z⟩, bits⟩
  rcases p0 with ⟨⟨x0, zz⟩, bits0⟩
  simp only at hb hz ha
  subst hb hz
  have hmod : (x - x % 2 ^ ((Addr.mk x zz).BitLen - bits0)) % 2 ^ ((Addr.mk x zz).BitLen - bits0)
      = 0 := Nat.sub_mod_eq_zero_of_mod_eq (by simp)
  have hbl : (Addr.mk x0 zz).BitLen = (Addr.mk x zz).BitLen := rfl
  simp only [RangeOfPrefix, hbl]
  rw [ha, hmod]
  simp

theorem rangeOrError_fst (s : Str) (r : Option ipRange) : (rangeOrError s r).1 = r := by
  cases r <;> rfl

theorem rangeOrError_snd (s : Str) (r : Option ipRange) :
    (rangeOrError s r).2 = none ↔ r.isSome = true := by
  cases r <;> simp [rangeOrError]

theorem ParseRange_of_ParsePrefix (s : Str) (p : Prefix) (hp : ParsePrefix s = some p) :
    ParseRange s = rangeOrError (ToLower s)
      (if (RangeOfPrefix p).From.Next.Compare (RangeOfPrefix p).To.Prev < 0 then
        parseRange ((RangeOfPrefix p).From.Next.String ++ ['-'] ++ (RangeOfPrefix p).To.Prev.String)
      else parseRange ((RangeOfPrefix p).From.String ++ ['-'] ++ (RangeOfPrefix p).To.String)) := by
  obtain ⟨h1, h2, h3, h4⟩ := CIDR_token s p hp
  rw [ParseRange_of_reCIDR s h1 h2 h3]
  simp only [parseCIDR, h4]

/-- C19: two valid CIDR tokens with the same prefix length, the address of the
second being the address of the first with its host bits cleared, give the same
range (or both give none); so do `192.0.2.77/24` and `192.0.2.0/24`. -/
theorem ParseRange_CIDR_network (s s0 : Str) (p p0 : Prefix) (hp : ParsePrefix s = some p)
    (hp0 : ParsePrefix s0 = some p0) (hb : p0.bits = p.bits) (hz : p0.ip.z = p.ip.z)
    (ha : p0.ip.addr = p.ip.addr - p.ip.addr % 2 ^ (p.ip.BitLen - p.bits)) :
    (ParseRange s).1 = (ParseRange s0).1 ∧
    ((ParseRange s).2 = none ↔ (ParseRange s0).2 = none) := by
  rw [ParseRange_of_ParsePrefix s p hp, ParseRange_of_ParsePrefix s0 p0 hp0,
    RangeOfPrefix_masked p p0 hb hz ha]
  simp only [rangeOrError_fst, rangeOrError_snd, and_self]

theorem ParseRange_CIDR_network_witness :
    (ParseRange "192.0.2.77/24".toList).1 = (ParseRange "192.0.2.0/24".toList).1 ∧
    ((ParseRange "192.0.2.77/24".toList).2 = none ↔ (ParseRange "192.0.2.0/24".toList).2 = none) :=
  ParseRange_CIDR_network "192.0.2.77/24".toList "192.0.2.0/24".toList
    ⟨from4 192 0 2 77, 24⟩ ⟨from4 192 0 2 0, 24⟩ (by decide) (by decide) rfl rfl (by decide)

/-! ## Masks that `IPMask.Size` rejects -/

theorem leadingOnes_add : ∀ (k n m v : Nat),
    leadingOnes k (n + m) v = (n + (leadingOnes k m v).1, (leadingOnes k m v).2)
  | 0, n, m, v => rfl
  | k + 1, n, m, v => by
    simp only [leadingOnes]
    split_ifs
    · rw [Nat.add_assoc, leadingOnes_add k n (m + 1)]
    · rfl

set_option maxRecDepth 100000 in
theorem leadingOnes_byte : ∀ v, v < 256 → (leadingOnes 8 0 v).2 = 0 →
    (leadingOnes 8 0 v).1 ≤ 8 ∧ v = 256 - 2 ^ (8 - (leadingOnes 8 0 v).1) := by
  decide

theorem setBytes_acc : ∀ (bs : List Nat) (acc : Nat),
    bs.foldl (fun acc b => acc * 256 + b) acc = acc * 256 ^ bs.length + setBytes bs
  | [], acc => by simp [setBytes]
  | b :: bs, acc => by
    simp only [List.foldl, setBytes, List.length_cons]
    rw [setBytes_acc bs (acc * 256 + b), setBytes_acc bs (0 * 256 + b)]
    ring

theorem setBytes_cons (v : Nat) (bs : List Nat) :
    setBytes (v :: bs) = v * 256 ^ bs.length + setBytes bs := by
  have := setBytes_acc bs (0 * 256 + v)
  simp only [setBytes, List.foldl] at this ⊢
  rw [this]
  simp [setBytes]

theorem setBytes_zeros : ∀ bs : List Nat, (bs.all (· == 0)) = true → setBytes bs = 0
  | [], _ => rfl
  | b :: bs, h => by
    simp only [List.all_cons, Bool.and_eq_true, beq_iff_eq] at h
    rw [setBytes_cons, h.1, setBytes_zeros bs h.2]
    simp

/-- When `simpleMaskLength` returns a length, the mask is that many one bits
followed by zero bits. -/
theorem simpleMaskLength_some : ∀ (bs : List Nat) (n k : Nat), (∀ b ∈ bs, b < 256) →
    simpleMaskLength bs n = some k →
    ∃ j, j ≤ 8 * bs.length ∧ k = n + j ∧
      setBytes bs = 2 ^ (8 * bs.length) - 2 ^ (8 * bs.length - j)
  | [], n, k, _, h => by
    simp only [simpleMaskLength, Option.some.injEq] at h
    exact ⟨0, by simp, by omega, by simp [setBytes]⟩
  | v :: rest, n, k, hb, h => by
    have hP : (256 : Nat) ^ rest.length = 2 ^ (8 * rest.length) := by
      rw [show (256 : Nat) = 2 ^ 8 by norm_num, ← pow_mul]
    simp only [simpleMaskLength] at h
    by_cases hv : (v == 0xff) = true
    · simp only [hv, if_true] at h
      obtain ⟨j, hj, hk, hs⟩ := simpleMaskLength_some rest (n + 8) k
        (fun b hb' => hb b (List.mem_cons_of_mem _ hb')) h
      have hv' : v = 255 := by simpa using hv
      refine ⟨8 + j, by simp only [List.length_cons]; omega, by omega, ?_⟩
      rw [setBytes_cons, hs, hP, hv']
      have e1 : 8 * (rest.length + 1) - (8 + j) = 8 * rest.length - j := by omega
      have e2 : 2 ^ (8 * (rest.length + 1)) = 256 * 2 ^ (8 * rest.length) := by
        rw [show 8 * (rest.length + 1) = 8 + 8 * rest.length by ring, pow_add]; norm_num
      have e3 : 2 ^ (8 * rest.length - j) ≤ 2 ^ (8 * rest.length) :=
        Nat.pow_le_pow_right (by norm_num) (by omega)
      simp only [List.length_cons]
      rw [e1, e2]
      omega
    · simp only [hv, Bool.false_eq_true, if_false] at h
      by_cases h2 : ((leadingOnes 8 n v).2 != 0) = true
      · simp [h2] at h
      · simp only [h2, Bool.false_eq_true, if_false] at h
        by_cases hz : (rest.all (· == 0)) = true
        · simp only [hz, if_true, Option.some.injEq] at h
          have hl := leadingOnes_add 8 n 0 v
          simp only [Nat.add_zero] at hl
          have h2' : (leadingOnes 8 0 v).2 = 0 := by
            rw [hl] at h2
            simpa using h2
          obtain ⟨c1, c2⟩ := leadingOnes_byte v (hb v (List.mem_cons_self _ _)) h2'
          rw [hl] at h
          simp only at h
          generalize (leadingOnes 8 0 v).1 = c at c1 c2 h
          refine ⟨c, by simp only [List.length_cons]; omega, by omega, ?_⟩
          rw [setBytes_cons, setBytes_zeros rest hz, hP, c2]
          simp only [List.length_cons, Nat.add_zero]
          rw [show 8 * (rest.length + 1) - c = (8 - c) + 8 * rest.length by omega,
            show 8 * (rest.length + 1) = 8 + 8 * rest.length by ring, pow_add, pow_add,
            Nat.sub_mul]
          norm_num
        · simp [hz] at h

theorem To4_v4 (x : Nat) (h : x / two32 = 0xffff) :
    To4 (some ((List.range 16).map (Addr.mk x Zone.z4).v6))
      = some ((List.range 4).map (Addr.mk x Zone.z4).v4) := by
  simp only [two32] at h
  have h0 : ∀ i, i < 10 → (Addr.mk x Zone.z4).v6 i = 0 := by
    intro i hi
    simp only [Addr.v6]
    interval_cases i <;> norm_num <;> omega
  have h10 : (Addr.mk x Zone.z4).v6 10 = 0xff := by
    simp only [Addr.v6]; norm_num; omega
  have h11 : (Addr.mk x Zone.z4).v6 11 = 0xff := by
    simp only [Addr.v6]; norm_num; omega
  have e : ∀ i, (Addr.mk x Zone.z4).v6 (12 + i) = (Addr.mk x Zone.z4).v4 i := by
    intro i
    simp only [Addr.v6, Addr.v4]
    rw [show 15 - (12 + i) = 3 - i by omega]
  simp only [To4, range16, range4, List.map, List.length_cons, List.length_nil, List.take,
    List.all_cons, List.all_nil, List.getD_cons_succ, List.getD_cons_zero, List.drop,
    h0 0 (by norm_num), h0 1 (by norm_num), h0 2 (by norm_num), h0 3 (by norm_num),
    h0 4 (by norm_num), h0 5 (by norm_num), h0 6 (by norm_num), h0 7 (by norm_num),
    h0 8 (by norm_num), h0 9 (by norm_num), h10, h11, e 0, e 1, e 2, e 3]
  simp

theorem setBytes_v4 (x : Nat) :
    setBytes ((List.range 4).map (Addr.mk x Zone.z4).v4) = x % 2 ^ 32 := by
  simp only [range4, List.map, setBytes, List.foldl, Addr.v4]
  norm_num
  omega

/-- `IPMask.Size` returns `(0, 0)` for the four bytes of an IPv4 address that is
not a run of one bits followed by zero bits. -/
theorem IPMaskSize_bad (x : Nat) (h : x / two32 = 0xffff)
    (hbad : ∀ n, n ≤ 32 → x % 2 ^ 32 ≠ 2 ^ 32 - 2 ^ (32 - n)) :
    IPMaskSize (To4 (some ((List.range 16).map (Addr.mk x Zone.z4).v6))) = (0, 0) := by
  rw [To4_v4 x h]
  simp only [IPMaskSize, Option.getD_some]
  cases hs : simpleMaskLength ((List.range 4).map (Addr.mk x Zone.z4).v4) 0 with
  | none => rfl
  | some k =>
    exfalso
    obtain ⟨j, hj, -, hv⟩ := simpleMaskLength_some _ 0 k (by
      intro b hb
      simp only [List.mem_map] at hb
      obtain ⟨i, -, rfl⟩ := hb
      exact Nat.mod_lt _ (by norm_num)) hs
    rw [setBytes_v4] at hv
    simp only [List.length_map, List.length_range] at hv hj
    exact hbad j (by omega) hv

/-! ## The subnet-mask form with a mask that is not a prefix mask -/

theorem inDotClass_lowerChar (c : Char) : inDotClass (lowerChar c) = inDotClass c := by
  simp only [inDotClass, isDigit_lowerChar, lowerChar_dot]

theorem ToLower_dotclass : ∀ m : Str, (∀ c ∈ ToLower m, inDotClass c = true) → ToLower m = m
  | [], _ => rfl
  | c :: cs, h => by
    simp only [ToLower, List.map_cons, List.mem_cons, forall_eq_or_imp] at h ⊢
    have h1 : inDotClass c = true := by rw [← inDotClass_lowerChar]; exact h.1
    rw [lowerChar_of_inAddrClass (inAddrClass_of_dot h1)]
    exact congrArg (c :: ·) (ToLower_dotclass cs h.2)

theorem ParseAddrScan_dotclass (s0 : Str) (a : Addr) : ∀ s : Str,
    (∀ c ∈ s, inDotClass c = true) → ParseAddrScan s0 s = some a → parseIPv4 s0 = some a
  | [], _, h => by simp [ParseAddrScan] at h
  | c :: cs, hc, h => by
    simp only [ParseAddrScan] at h
    by_cases h1 : (c == '.') = true
    · simpa only [h1, if_true] using h
    · have hd : isDigit c = true := by
        have := hc c (List.mem_cons_self _ _)
        simp only [inDotClass, Bool.or_eq_true] at this
        rcases this with h | h
        · exact h
        · exact absurd h h1
      have hs := hexVal_sep (hexVal_of_isDigit c hd)
      simp only [beq_iff_eq, hs.1, hs.2.1, hs.2.2, if_false] at h
      exact ParseAddrScan_dotclass s0 a cs (fun c' hc' => hc c' (List.mem_cons_of_mem _ hc')) h

/-- C14: for a valid IPv4 address text `a` and a mask operand `m` in dotted
form (it holds a dot, or the token matches the subnet-mask pattern) that is not
the text of an IPv4 address, or is one whose 32 bits are not a run of one bits
followed by zero bits, `ParseRange` of `a/m` returns the syntax error and no
range. -/
theorem ParseRange_bad_mask (a m : Str) (ipa : Addr) (ha : ParseAddr a = some ipa)
    (h4 : ipa.Is4 = true) (hshape : '.' ∈ m ∨ reSubnetMask (a ++ '/' :: m) = true)
    (hbad : ∀ ipm, ParseAddr m = some ipm → ipm.Is4 = true →
      ∀ n, n ≤ 32 → ipm.value ≠ 2 ^ 32 - 2 ^ (32 - n)) :
    ParseRange (a ++ '/' :: m) = (none, some (syntaxError (ToLower (a ++ '/' :: m)))) := by
  have hza : ipa.z = Zone.z4 := by simpa [Addr.Is4] using h4
  obtain ⟨-, -, hnea, -, hcla⟩ := ParseAddr_ok a ipa ha
  have hcla := hcla hza
  have hslash_a : ∀ c ∈ a, c ≠ '/' :=
    fun c hc => (inAddrClass_sep (inAddrClass_of_dot (hcla c hc))).2.1
  have hla : ToLower a = a :=
    ToLower_of_class a fun c hc => Or.inl (inAddrClass_of_dot (hcla c hc))
  have hlow : ToLower (a ++ '/' :: m) = a ++ '/' :: ToLower m := by
    rw [ToLower_append, hla]; rfl
  have hidx : ∀ t : Str, indexByte (a ++ '/' :: t) '/' = some a.length :=
    fun t => indexByte_append '/' t a hslash_a
  have hne : ToLower (a ++ '/' :: m) ≠ [] := by rw [hlow]; simp
  have hr : reRange (ToLower (a ++ '/' :: m)) = false := by rw [hlow]; exact reRange_slash _ _
  have hc : reCIDR (ToLower (a ++ '/' :: m)) = false := by
    rw [hlow]
    obtain ⟨t1, t2⟩ := take_append_cons a (ToLower m) '/'
    simp only [reCIDR, hidx, t1, t2]
    rcases hshape with hdot | hsm
    · have hmem : '.' ∈ ToLower m := List.mem_map.2 ⟨'.', hdot, by decide⟩
      have : (ToLower m).all isDigit = false := by
        by_contra hall
        simp only [Bool.not_eq_false, List.all_eq_true] at hall
        exact absurd (hall '.' hmem) (by decide)
      simp [this]
    · obtain ⟨u1, u2⟩ := take_append_cons a m '/'
      simp only [reSubnetMask, hidx, u1, u2, Bool.and_eq_true, decide_eq_true_eq] at hsm
      have hlen : (ToLower m).length = m.length := List.length_map _ _
      have : decide ((ToLower m).length ≤ 3) = false := by
        simp only [hlen, decide_eq_false_iff_not]
        omega
      simp [this]
  by_cases hs : reSubnetMask (ToLower (a ++ '/' :: m)) = true
  · rw [ParseRange_of_reSubnetMask _ hne hr hc hs]
    have hclm : ∀ c ∈ ToLower m, inDotClass c = true := by
      rw [hlow] at hs
      obtain ⟨t1, t2⟩ := take_append_cons a (ToLower m) '/'
      simp only [reSubnetMask, hidx, t1, t2, Bool.and_eq_true, List.all_eq_true] at hs
      exact hs.2
    have hLm : ToLower m = m := ToLower_dotclass m hclm
    rw [hLm] at hclm hlow
    rw [hlow]
    have hslash_m : ∀ c ∈ m, c ≠ '/' :=
      fun c hc => (inAddrClass_sep (inAddrClass_of_dot (hclm c hc))).2.1
    have hsize : IPMaskSize (To4 (ParseIP m)) = (0, 0) := by
      cases hm : ParseAddr m with
      | none =>
        simp only [ParseIP, hm]
        rfl
      | some ipm =>
        have hp4 : parseIPv4 m = some ipm := ParseAddrScan_dotclass m ipm m hclm hm
        obtain ⟨hz4, hw, -⟩ := parseIPv4_ok m ipm hp4
        have hz : ipm.Zone = [] := by simp [Addr.Zone, hz4]
        simp only [ParseIP, hm, hz, bne_self_eq_false, Bool.false_eq_true, if_false]
        have hb := hbad ipm hm (by simp [Addr.Is4, hz4])
        rcases ipm with ⟨x, z⟩
        simp only at hz4
        subst hz4
        refine IPMaskSize_bad x (hw.2 rfl) fun n hn => ?_
        have := hb n hn
        simpa [Addr.value, Addr.Is4, two32] using this
    obtain ⟨t1, t2⟩ := take_append_cons a m '/'
    simp only [parseSubnetMask, lastIndexByte_append '/' m hslash_m a, t1, t2, hsize]
    simp [rangeOrError]
  · have hne' : (ToLower (a ++ '/' :: m) == []) = false := by simpa using hne
    simp only [ParseRange, hne', hr, hc, hs, Bool.false_eq_true, if_false]

theorem ParseRange_bad_mask_witness :
    ParseRange "192.0.2.0/255.0.255.0".toList
      = (none, some "ip range (192.0.2.0/255.0.255.0) invalid syntax".toList) ∧
    ParseRange "192.0.2.0/255.255.255".toList
      = (none, some "ip range (192.0.2.0/255.255.255) invalid syntax".toList) :=
  ⟨ParseRange_bad_mask "192.0.2.0".toList "255.0.255.0".toList (from4 192 0 2 0) (by decide)
      (by decide) (Or.inl (by decide)) (fun ipm hm _ n hn => by
        have e : ParseAddr "255.0.255.0".toList = some (from4 255 0 255 0) := by decide
        rw [e] at hm
        cases hm
        interval_cases n <;> decide),
   ParseRange_bad_mask "192.0.2.0".toList "255.255.255".toList (from4 192 0 2 0) (by decide)
      (by decide) (Or.inl (by decide)) (fun ipm hm _ n _ => by
        have e : ParseAddr "255.255.255".toList = none := by decide
        rw [e] at hm
        cases hm)⟩

/-! ## `ParseRanges` -/

theorem FieldsLoop_fields : ∀ (s : Str) (cur : Option Str) (spans : List Str),
    (∀ f ∈ spans, f ≠ [] ∧ ∀ c ∈ f, isSpace c = false) →
    (∀ f, cur = some f → f ≠ [] ∧ ∀ c ∈ f, isSpace c = false) →
    ∀ f ∈ FieldsLoop s cur spans, f ≠ [] ∧ ∀ c ∈ f, isSpace c = false
  | [], none, spans, hs, _ => by simpa [FieldsLoop] using hs
  | [], some g, spans, hs, hc => by
    intro f hf
    simp only [FieldsLoop, List.mem_append, List.mem_singleton] at hf
    rcases hf with hf | hf
    · exact hs f hf
    · exact hc f (by rw [hf])
  | c :: cs, cur, spans, hs, hc => by
    simp only [FieldsLoop]
    by_cases hsp : isSpace c = true
    · simp only [hsp, if_true]
      cases cur with
      | none => exact FieldsLoop_fields cs none spans hs (fun f h => by cases h)
      | some g =>
        refine FieldsLoop_fields cs none (spans ++ [g]) ?_ (fun f h => by cases h)
        intro f hf
        simp only [List.mem_append, List.mem_singleton] at hf
        rcases hf with hf | hf
        · exact hs f hf
        · exact hc f (by rw [hf])
    · simp only [hsp, Bool.false_eq_true, if_false]
      refine FieldsLoop_fields cs _ spans hs ?_
      intro f hf
      simp only [Option.some.injEq] at hf
      subst hf
      refine ⟨by simp, fun c' hc' => ?_⟩
      simp only [List.mem_append, List.mem_singleton] at hc'
      rcases hc' with h | h
      · cases cur with
        | none => simp at h
        | some g => exact (hc g rfl).2 c' h
      · rw [h]; simpa using hsp

theorem Fields_fields (s : Str) : ∀ f ∈ Fields s, f ≠ [] ∧ ∀ c ∈ f, isSpace c = false :=
  FieldsLoop_fields s none [] (fun f h => by simp at h) (fun f h => by cases h)

theorem FieldsLoop_spaces : ∀ (s : Str) (spans : List Str), (∀ c ∈ s, isSpace c = true) →
    FieldsLoop s none spans = spans
  | [], _, _ => rfl
  | c :: cs, spans, h => by
    have hc := h c (List.mem_cons_self _ _)
    simp only [FieldsLoop, hc, if_true]
    exact FieldsLoop_spaces cs spans fun c' hc' => h c' (List.mem_cons_of_mem _ hc')

theorem FieldsLoop_spans : ∀ (s : Str) (cur : Option Str) (spans : List Str),
    FieldsLoop s cur spans = spans ++ FieldsLoop s cur []
  | [], none, spans => by simp [FieldsLoop]
  | [], some f, spans => by simp [FieldsLoop]
  | c :: cs, cur, spans => by
    simp only [FieldsLoop]
    by_cases hsp : isSpace c = true
    · simp only [hsp, if_true]
      cases cur with
      | none => exact FieldsLoop_spans cs none spans
      | some g =>
        simp only
        rw [FieldsLoop_spans cs none (spans ++ [g]), FieldsLoop_spans cs none ([] ++ [g])]
        simp
    · simp only [hsp, Bool.false_eq_true, if_false]
      exact FieldsLoop_spans cs _ spans

theorem FieldsLoop_skip : ∀ (sp s : Str) (spans : List Str), (∀ c ∈ sp, isSpace c = true) →
    FieldsLoop (sp ++ s) none spans = FieldsLoop s none spans
  | [], _, _, _ => rfl
  | c :: cs, s, spans, h => by
    have hc := h c (List.mem_cons_self _ _)
    simp only [List.cons_append, FieldsLoop, hc, if_true]
    exact FieldsLoop_skip cs s spans fun c' hc' => h c' (List.mem_cons_of_mem _ hc')

theorem FieldsLoop_run : ∀ (t s : Str) (cur : Option Str) (spans : List Str),
    (∀ c ∈ t, isSpace c = false) →
    FieldsLoop (t ++ s) cur spans
      = FieldsLoop s (if t = [] then cur else some (cur.getD [] ++ t)) spans
  | [], _, _, _, _ => by simp
  | c :: cs, s, cur, spans, h => by
    have hc := h c (List.mem_cons_self _ _)
    have key := FieldsLoop_run cs s (some (cur.getD [] ++ [c])) spans
      fun c' hc' => h c' (List.mem_cons_of_mem _ hc')
    have e : FieldsLoop (c :: (cs ++ s)) cur spans
        = FieldsLoop (cs ++ s) (some (cur.getD [] ++ [c])) spans := by
      simp only [FieldsLoop, hc, Bool.false_eq_true, if_false]
    rw [List.cons_append, e, key]
    by_cases hcs : cs = []
    · simp [hcs]
    · simp [hcs]

theorem FieldsLoop_close (rest g : Str) (spans : List Str)
    (hrest : rest = [] ∨ ∃ c cs, rest = c :: cs ∧ isSpace c = true) :
    FieldsLoop rest (some g) spans = FieldsLoop rest none (spans ++ [g]) := by
  rcases hrest with h | ⟨c, cs, h, hc⟩
  · subst h; simp [FieldsLoop]
  · subst h; simp [FieldsLoop, hc]

/-- `Fields` takes the first token off a text: after white space `sp`, a run `t`
without white space that ends at the end of the text or at a white-space
character is the first field, and the other fields are those of the rest. -/
theorem Fields_first (sp t rest : Str) (hsp : ∀ c ∈ sp, isSpace c = true) (ht : t ≠ [])
    (htc : ∀ c ∈ t, isSpace c = false)
    (hrest : rest = [] ∨ ∃ c cs, rest = c :: cs ∧ isSpace c = true) :
    Fields (sp ++ t ++ rest) = t :: Fields rest := by
  simp only [Fields, List.append_assoc]
  rw [FieldsLoop_skip sp _ [] hsp, FieldsLoop_run t rest none [] htc]
  simp only [ht, if_false, Option.getD_none, List.nil_append]
  rw [FieldsLoop_close rest t [] hrest, FieldsLoop_spans]
  simp

theorem ParseRange_of_no_error (t : Str) (ht : t ≠ []) (h : (ParseRange t).2 = none) :
    ∃ r, ParseRange t = (some r, none) := by
  rcases ParseRange_cases t ht with hr | hr
  · exact hr
  · rw [hr] at h; simp at h

theorem ParseRangesLoop_ok : ∀ (parts : List Str) (ranges : List ipRange),
    (∀ t ∈ parts, t ≠ []) → (∀ t ∈ parts, (ParseRange t).2 = none) →
    ∃ rs, ParseRangesLoop parts ranges = (ranges ++ rs, none) ∧
      rs.map some = parts.map fun t => (ParseRange t).1
  | [], ranges, _, _ => ⟨[], by simp [ParseRangesLoop], rfl⟩
  | v :: rest, ranges, hne, hok => by
    obtain ⟨r, hr⟩ := ParseRange_of_no_error v (hne v (List.mem_cons_self _ _))
      (hok v (List.mem_cons_self _ _))
    obtain ⟨rs, h1, h2⟩ := ParseRangesLoop_ok rest (ranges ++ [r])
      (fun t ht => hne t (List.mem_cons_of_mem _ ht)) (fun t ht => hok t (List.mem_cons_of_mem _ ht))
    refine ⟨r :: rs, ?_, ?_⟩
    · simp only [ParseRangesLoop, hr, h1]
      simp
    · simp only [List.map_cons, h2, hr]

theorem ParseRangesLoop_error : ∀ (pre : List Str) (ranges : List ipRange) (t : Str)
    (post : List Str) (e : Str), (∀ u ∈ pre, u ≠ []) → (∀ u ∈ pre, (ParseRange u).2 = none) →
    (ParseRange t).2 = some e → ParseRangesLoop (pre ++ t :: post) ranges = ([], some e)
  | [], ranges, t, post, e, _, _, he => by
    simp only [List.nil_append, ParseRangesLoop]
    rcases hp : ParseRange t with ⟨r, err⟩
    rw [hp] at he
    simp only at he
    subst he
    cases r <;> rfl
  | u :: pre, ranges, t, post, e, hne, hok, he => by
    obtain ⟨r, hr⟩ := ParseRange_of_no_error u (hne u (List.mem_cons_self _ _))
      (hok u (List.mem_cons_self _ _))
    simp only [List.cons_append, ParseRangesLoop, hr]
    exact ParseRangesLoop_error pre _ t post e (fun t ht => hne t (List.mem_cons_of_mem _ ht))
      (fun t ht => hok t (List.mem_cons_of_mem _ ht)) he

/-- C13: `ParseRanges` is all or nothing and keeps the order. The tokens of a
text are its maximal runs without white space (`Fields`): none is empty or holds
white space, and the first token of a text is followed by the tokens of the rest. When `ParseRange`
accepts every token, the result is the list of the tokens' ranges in the order of
the text, as long as the list of tokens, with no error; when it rejects a token,
the result is the error of the first such token and no range; for a text of
white space only, the empty text included, the result is empty with no error.
The text `192.0.2.1 2001:db8::1` gives two ranges, of families V4 and V6. -/
theorem ParseRanges_all_or_nothing (s : Str) :
    (∀ t ∈ Fields s, t ≠ [] ∧ ∀ c ∈ t, isSpace c = false) ∧
    (∀ sp t rest : Str, s = sp ++ t ++ rest → (∀ c ∈ sp, isSpace c = true) → t ≠ [] →
      (∀ c ∈ t, isSpace c = false) → (rest = [] ∨ ∃ c cs, rest = c :: cs ∧ isSpace c = true) →
      Fields s = t :: Fields rest) ∧
    ((∀ t ∈ Fields s, (ParseRange t).2 = none) →
      (ParseRanges s).2 = none ∧ (ParseRanges s).1.length = (Fields s).length ∧
      (ParseRanges s).1.map some = (Fields s).map fun t => (ParseRange t).1) ∧
    (∀ (pre : List Str) (t : Str) (post : List Str) (e : Str), Fields s = pre ++ t :: post →
      (∀ u ∈ pre, (ParseRange u).2 = none) → (ParseRange t).2 = some e →
      ParseRanges s = ([], some e)) ∧
    ((∀ c ∈ s, isSpace c = true) → ParseRanges s = ([], none)) ∧
    (ParseRanges "192.0.2.1 2001:db8::1".toList).2 = none ∧
    (ParseRanges "192.0.2.1 2001:db8::1".toList).1.map ipRange.Family
      = [Family.V4Family, Family.V6Family] := by
  refine ⟨Fields_fields s, fun sp t rest hs h1 h2 h3 h4 => hs ▸ Fields_first sp t rest h1 h2 h3 h4,
    fun hok => ?_, fun pre t post e hf hok he => ?_, fun hsp => ?_, by decide, by decide⟩
  · obtain ⟨rs, h1, h2⟩ := ParseRangesLoop_ok (Fields s) []
      (fun t ht => (Fields_fields s t ht).1) hok
    have hlen : rs.length = (Fields s).length := by
      have := congrArg List.length h2
      simpa using this
    by_cases h0 : ((Fields s).length == 0) = true
    · have hnil : Fields s = [] := by simpa using h0
      simp [ParseRanges, hnil]
    · simp only [ParseRanges, h0, Bool.false_eq_true, if_false, h1, List.nil_append]
      exact ⟨trivial, hlen, h2⟩
  · have h0 : ((Fields s).length == 0) = false := by rw [hf]; simp
    simp only [ParseRanges, h0, Bool.false_eq_true, if_false]
    rw [hf]
    refine ParseRangesLoop_error pre [] t post e (fun u hu => ?_) hok he
    exact (Fields_fields s u (by rw [hf]; exact List.mem_append_left _ hu)).1
  · have hnil : Fields s = [] := FieldsLoop_spaces s [] hsp
    simp [ParseRanges, hnil]

theorem ParseRanges_all_or_nothing_witness :
    ParseRanges "192.0.2.1  10.0.0.0/30".toList
      = ([⟨from4 192 0 2 1, from4 192 0 2 1⟩, ⟨from4 10 0 0 1, from4 10 0 0 2⟩], none) ∧
    ParseRanges "192.0.2.1 10.0.0.5-10.0.0.3 10.0.0.1".toList
      = ([], some "ip range (10.0.0.5-10.0.0.3) invalid syntax".toList) ∧
    ParseRanges " \t\n ".toList = ([], none) :=
  ⟨by
    have h := (ParseRanges_all_or_nothing "192.0.2.1  10.0.0.0/30".toList).2.2.1 (by decide)
    rcases hp : ParseRanges "192.0.2.1  10.0.0.0/30".toList with ⟨rs, err⟩
    rw [hp] at h
    obtain ⟨h1, -, h3⟩ := h
    simp only at h1 h3
    subst h1
    have e : (Fields "192.0.2.1  10.0.0.0/30".toList).map (fun t => (ParseRange t).1)
        = [some ⟨from4 192 0 2 1, from4 192 0 2 1⟩, some ⟨from4 10 0 0 1, from4 10 0 0 2⟩] := by
      decide
    rw [e] at h3
    have : rs = [⟨from4 192 0 2 1, from4 192 0 2 1⟩, ⟨from4 10 0 0 1, from4 10 0 0 2⟩] :=
      List.map_injective_iff.2 (Option.some_injective _) h3
    rw [this],
   (ParseRanges_all_or_nothing "192.0.2.1 10.0.0.5-10.0.0.3 10.0.0.1".toList).2.2.2.1
      ["192.0.2.1".toList] "10.0.0.5-10.0.0.3".toList ["10.0.0.1".toList]
      "ip range (10.0.0.5-10.0.0.3) invalid syntax".toList (by decide) (by decide) (by decide),
   (ParseRanges_all_or_nothing " \t\n ".toList).2.2.2.2.1 (by decide)⟩

/-! ## The loop of `rangeIps` below the top of the address space -/

theorem Compare_same_z (x y : Nat) (z : Zone) (hz : z = Zone.z4 ∨ z = Zone.z6 []) :
    (Addr.mk x z).Compare ⟨y, z⟩ ≤ 0 ↔ x ≤ y := by
  rcases hz with h | h <;> subst h <;>
    simp only [Addr.Compare, Addr.BitLen, Addr.Is6, Addr.Zone, strLess, lt_self_iff_false,
      if_false, gt_iff_lt] <;>
    split_ifs <;> simp <;> omega

theorem Next_same_z (x : Nat) (z : Zone) (h4 : z = Zone.z4 → (x + 1) % two32 ≠ 0)
    (hlt : x + 1 < two128) (hz : z = Zone.z4 ∨ z = Zone.z6 []) :
    (Addr.mk x z).Next = ⟨x + 1, z⟩ := by
  have hm : (x + 1) % two128 = x + 1 := Nat.mod_eq_of_lt hlt
  rcases hz with h | h
  · subst h
    have := h4 rfl
    simp [Addr.Next, Addr.Is4, hm, this]
  · subst h
    simp [Addr.Next, Addr.Is4, hm]

/-- The loop of `rangeIps` from `x` to an end `e` below the highest address of
the family: it returns, after `e + 1 - x` appends, the texts of `x, ..., e`. -/
theorem rangeIpsLoop_run (e : Nat) (z : Zone) (hz : z = Zone.z4 ∨ z = Zone.z6 [])
    (he4 : z = Zone.z4 → e / two32 = 0xffff ∧ e % two32 ≠ two32 - 1) (he6 : e + 1 < two128) :
    ∀ (d x fuel : Nat) (acc : List Str), (z = Zone.z4 → x / two32 = 0xffff) → x + d = e + 1 →
      d < fuel →
      rangeIpsLoop ⟨e, z⟩ fuel (acc, ⟨x, z⟩)
        = some (acc ++ (List.range d).map fun k => (Addr.mk (x + k) z).String)
  | 0, x, fuel, acc, _, hd, hf => by
    obtain ⟨f, rfl⟩ : ∃ f, fuel = f + 1 := ⟨fuel - 1, by omega⟩
    have hc : ¬ (Addr.mk x z).Compare ⟨e, z⟩ ≤ 0 := by
      rw [Compare_same_z x e z hz]; omega
    simp [rangeIpsLoop, rangeIpsStep, hc]
  | d + 1, x, fuel, acc, hx, hd, hf => by
    obtain ⟨f, rfl⟩ : ∃ f, fuel = f + 1 := ⟨fuel - 1, by omega⟩
    have hc : (Addr.mk x z).Compare ⟨e, z⟩ ≤ 0 := by
      rw [Compare_same_z x e z hz]; omega
    have hn : (Addr.mk x z).Next = ⟨x + 1, z⟩ := by
      refine Next_same_z x z (fun h => ?_) (by omega) hz
      have h1 := he4 h
      have h2 := hx h
      simp only [two32] at h1 h2 ⊢
      omega
    have ih := rangeIpsLoop_run e z hz he4 he6 d (x + 1) f (acc ++ [(Addr.mk x z).String])
      (fun h => by
        have h1 := he4 h
        have h2 := hx h
        simp only [two32] at h1 h2 ⊢
        omega) (by omega) (by omega)
    simp only [rangeIpsLoop, rangeIpsStep, hc, if_true, hn]
    rw [ih, List.range_succ_eq_map]
    simp only [List.map_cons, List.map_map, List.append_assoc, List.singleton_append,
      Nat.add_zero]
    congr 3
    apply List.map_congr_left
    intro k _
    simp only [Function.comp, Nat.succ_eq_add_one]
    rw [show x + 1 + k = x + (k + 1) by omega]

/-- Two valid addresses without zone that print the same are equal. -/
theorem String_inj (a b : Addr) (wa : a.WF) (wb : b.WF)
    (za : a.z = Zone.z4 ∨ a.z = Zone.z6 []) (zb : b.z = Zone.z4 ∨ b.z = Zone.z6 [])
    (h : a.String = b.String) : a = b := by
  have h1 := ParseAddr_String a wa za
  have h2 := ParseAddr_String b wb zb
  rw [h, h2] at h1
  exact (Option.some.inj h1).symm

theorem maxV4_eq : maxV4 = ⟨0xffffffffffff, Zone.z4⟩ := by decide

theorem Contains_same_z (s e x : Nat) (z : Zone) (hz : z = Zone.z4 ∨ z = Zone.z6 []) :
    (ipRange.mk ⟨s, z⟩ ⟨e, z⟩).Contains ⟨x, z⟩ = true ↔ s ≤ x ∧ x ≤ e := by
  have h1 := Compare_same_z s x z hz
  have h2 := Compare_same_z x e z hz
  have h3 := Compare_flip ⟨x, z⟩ ⟨e, z⟩
  simp only [ipRange.Contains]
  constructor
  · intro h
    split_ifs at h with hc
    simp only [Bool.and_eq_true, decide_eq_true_eq] at hc
    exact ⟨h1.1 hc.1, h2.1 (h3.1 hc.2)⟩
  · rintro ⟨a1, a2⟩
    have c1 := h1.2 a1
    have c2 := h3.2 (h2.2 a2)
    simp [c1, c2]

/-- C18 (amended): for a range of valid addresses without zone of one family, with
`start ≤ end` and `end` below the highest address of the family, `Ips` returns
(for every iteration budget above the number of addresses) the texts of `start`,
`start + 1`, ..., `end`: as many as `Size`, without repeats, the first the text
of `start` and the last the text of `end`; and the text of an address without
zone of the range's family is in the list exactly when `Contains` holds of the
address. -/
theorem Ips_agrees_with_Contains (r : ipRange) (ws : r.start.WF) (we : r.end_.WF)
    (hzs : r.start.z = Zone.z4 ∨ r.start.z = Zone.z6 []) (hz : r.end_.z = r.start.z)
    (hle : Addr.le r.start r.end_) (htop : r.end_ ≠ maxV4 ∧ r.end_ ≠ maxV6) :
    ∃ ips : List Str,
      (∀ fuel, r.end_.value - r.start.value + 1 < fuel → r.Ips fuel = some ips) ∧
      ips = (List.range (r.end_.value - r.start.value + 1)).map
        (fun k => (Addr.mk (r.start.addr + k) r.start.z).String) ∧
      (ips.length : Int) = r.Size ∧ ips.Nodup ∧
      ips.head? = some r.start.String ∧ ips.getLast? = some r.end_.String ∧
      ∀ a : Addr, a.WF → a.z = r.start.z → (a.String ∈ ips ↔ r.Contains a = true) := by
  rcases r with ⟨⟨s, z'⟩, ⟨e, z⟩⟩
  simp only at ws we hzs hz hle htop ⊢
  subst hz
  have hse : s ≤ e := (Compare_same_z s e z hzs).1 hle
  have hs4 : z = Zone.z4 → s / two32 = 0xffff := fun h => ws.2 h
  have he4' : z = Zone.z4 → e / two32 = 0xffff := fun h => we.2 h
  have hfam : ((Addr.mk s z).Is4 = true ∧ (Addr.mk e z).Is4 = true) ∨
      ((Addr.mk s z).Is6 = true ∧ (Addr.mk e z).Is6 = true) := by
    rcases hzs with h | h <;> subst h <;> simp [Addr.Is4, Addr.Is6]
  have hvs : (Addr.mk e z).value = (Addr.mk s z).value + (e - s) := by
    rcases hzs with h | h
    · subst h
      have h1 := hs4 rfl
      have h2 := he4' rfl
      simp only [Addr.value, Addr.Is4, two32, beq_self_eq_true, if_true] at h1 h2 ⊢
      omega
    · subst h
      simp only [Addr.value, Addr.Is4]
      simp
      omega
  have hn : (Addr.mk e z).value - (Addr.mk s z).value + 1 = e + 1 - s := by omega
  have he4 : z = Zone.z4 → e / two32 = 0xffff ∧ e % two32 ≠ two32 - 1 := by
    intro h
    refine ⟨he4' h, fun hc => htop.1 ?_⟩
    have h2 := he4' h
    subst h
    rw [maxV4_eq]
    simp only [two32] at hc h2
    have : e = 0xffffffffffff := by omega
    rw [this]
  have he6 : e + 1 < two128 := by
    rcases hzs with h | h
    · have h2 := he4' h
      simp only [two32, two128] at h2 ⊢
      omega
    · subst h
      have h1 := we.1
      by_contra hc
      apply htop.2
      simp only [two128] at h1 hc
      have : e = two128 - 1 := by simp only [two128]; omega
      rw [this]
      rfl
  have hwf : ∀ k, k < e + 1 - s → (Addr.mk (s + k) z).WF := by
    intro k hk
    refine ⟨by simp only [two128] at he6 ⊢; omega, fun h => ?_⟩
    have h1 := hs4 h
    have h2 := he4' h
    simp only [two32] at h1 h2 ⊢
    omega
  rw [hn]
  refine ⟨_, fun fuel hf => ?_, rfl, ?_, ?_, ?_, ?_, ?_⟩
  · have := rangeIpsLoop_run e z hzs he4 he6 (e + 1 - s) s fuel [] hs4 (by omega) hf
    simpa [ipRange.Ips, rangeIps] using this
  · rw [Size_eq_value _ ws we hfam]
    simp only [List.length_map, List.length_range]
    omega
  · refine List.Nodup.map_on ?_ (List.nodup_range _)
    intro k1 h1 k2 h2 hs
    have := String_inj _ _ (hwf k1 (List.mem_range.1 h1)) (hwf k2 (List.mem_range.1 h2)) hzs hzs hs
    simp only [Addr.mk.injEq, and_true] at this
    omega
  · obtain ⟨m, hm⟩ : ∃ m, e + 1 - s = m + 1 := ⟨e - s, by omega⟩
    rw [hm, List.range_succ_eq_map]
    simp
  · obtain ⟨m, hm⟩ : ∃ m, e + 1 - s = m + 1 := ⟨e - s, by omega⟩
    rw [hm, List.range_succ]
    have : s + m = e := by omega
    simp [this]
  · intro a wa haz
    rcases a with ⟨x, za⟩
    simp only at haz
    subst haz
    rw [Contains_same_z s e x _ hzs]
    simp only [List.mem_map, List.mem_range]
    constructor
    · rintro ⟨k, hk, hs⟩
      have := String_inj _ _ (hwf k hk) wa hzs hzs hs
      simp only [Addr.mk.injEq, and_true] at this
      omega
    · rintro ⟨h1, h2⟩
      exact ⟨x - s, by omega, by rw [show s + (x - s) = x by omega]⟩

theorem Ips_agrees_with_Contains_witness :
    ∃ ips : List Str,
      (∀ fuel, (from4 10 0 0 3).value - (from4 10 0 0 1).value + 1 < fuel →
        (ipRange.mk (from4 10 0 0 1) (from4 10 0 0 3)).Ips fuel = some ips) ∧
      ips = (List.range ((from4 10 0 0 3).value - (from4 10 0 0 1).value + 1)).map
        (fun k => (Addr.mk ((from4 10 0 0 1).addr + k) (from4 10 0 0 1).z).String) ∧
      (ips.length : Int) = (ipRange.mk (from4 10 0 0 1) (from4 10 0 0 3)).Size ∧ ips.Nodup ∧
      ips.head? = some (from4 10 0 0 1).String ∧ ips.getLast? = some (from4 10 0 0 3).String ∧
      ∀ a : Addr, a.WF → a.z = (from4 10 0 0 1).z →
        (a.String ∈ ips ↔ (ipRange.mk (from4 10 0 0 1) (from4 10 0 0 3)).Contains a = true) :=
  Ips_agrees_with_Contains ⟨from4 10 0 0 1, from4 10 0 0 3⟩ (by decide) (by decide)
    (Or.inl rfl) rfl (by decide) (by decide)

/-! ## `Ips` and `Contains` on addresses with a zone -/

theorem rangeIpsLoop_succ (end_ : Addr) : ∀ (f : Nat) (st : List Str × Addr) (L : List Str),
    rangeIpsLoop end_ f st = some L → rangeIpsLoop end_ (f + 1) st = some L
  | 0, st, L, h => by simp [rangeIpsLoop] at h
  | f + 1, st, L, h => by
    rw [rangeIpsLoop] at h ⊢
    cases hs : rangeIpsStep end_ st with
    | none =>
      simp only [hs] at h ⊢
      exact h
    | some st' =>
      simp only [hs] at h ⊢
      exact rangeIpsLoop_succ end_ f st' L h

/-- A larger iteration budget does not change what the loop of `rangeIps` returns. -/
theorem rangeIpsLoop_ge (end_ : Addr) (f : Nat) (st : List Str × Addr) (L : List Str)
    (h : rangeIpsLoop end_ f st = some L) : ∀ g, f ≤ g → rangeIpsLoop end_ g st = some L := by
  intro g hg
  induction g, hg using Nat.le_induction with
  | base => exact h
  | succ n _ ih => exact rangeIpsLoop_succ end_ n st L ih

set_option maxRecDepth 100000 in
/-- C18 (counterexample): with addresses that carry a zone, `Ips` and `Contains`
do not agree. The range from `fe80::1` to `fe80::5` contains the IPv6 address
`fe80::3%eth0`, whose text is not in the list that `Ips` returns. The range from
`fe80::1%a` to `fe80::1%b` has IPv6 endpoints with start not above end, and `Ips`
returns the one text `fe80::1%a`: the text of its end, which it contains, is not
in the list. -/
theorem Ips_misses_zoned_address :
    ((Addr.mk (0xfe80 * 2 ^ 112 + 1) (Zone.z6 [])).Is6 = true ∧
      (Addr.mk (0xfe80 * 2 ^ 112 + 5) (Zone.z6 [])).Is6 = true ∧
      (Addr.mk (0xfe80 * 2 ^ 112 + 3) (Zone.z6 "eth0".toList)).Is6 = true ∧
      (Addr.mk (0xfe80 * 2 ^ 112 + 3) (Zone.z6 "eth0".toList)).WF ∧
      Addr.le ⟨0xfe80 * 2 ^ 112 + 1, Zone.z6 []⟩ ⟨0xfe80 * 2 ^ 112 + 5, Zone.z6 []⟩ ∧
      (Addr.mk (0xfe80 * 2 ^ 112 + 5) (Zone.z6 [])) ≠ maxV6 ∧
      (∀ fuel, 5 < fuel →
        (ipRange.mk ⟨0xfe80 * 2 ^ 112 + 1, Zone.z6 []⟩ ⟨0xfe80 * 2 ^ 112 + 5, Zone.z6 []⟩).Ips fuel
          = some ["fe80::1".toList, "fe80::2".toList, "fe80::3".toList, "fe80::4".toList,
              "fe80::5".toList]) ∧
      (Addr.mk (0xfe80 * 2 ^ 112 + 3) (Zone.z6 "eth0".toList)).String = "fe80::3%eth0".toList ∧
      (ipRange.mk ⟨0xfe80 * 2 ^ 112 + 1, Zone.z6 []⟩ ⟨0xfe80 * 2 ^ 112 + 5, Zone.z6 []⟩).Contains
        ⟨0xfe80 * 2 ^ 112 + 3, Zone.z6 "eth0".toList⟩ = true ∧
      (Addr.mk (0xfe80 * 2 ^ 112 + 3) (Zone.z6 "eth0".toList)).String ∉
        ["fe80::1".toList, "fe80::2".toList, "fe80::3".toList, "fe80::4".toList,
          "fe80::5".toList]) ∧
    ((Addr.mk (0xfe80 * 2 ^ 112 + 1) (Zone.z6 "a".toList)).Is6 = true ∧
      (Addr.mk (0xfe80 * 2 ^ 112 + 1) (Zone.z6 "b".toList)).Is6 = true ∧
      Addr.le ⟨0xfe80 * 2 ^ 112 + 1, Zone.z6 "a".toList⟩ ⟨0xfe80 * 2 ^ 112 + 1, Zone.z6 "b".toList⟩ ∧
      (Addr.mk (0xfe80 * 2 ^ 112 + 1) (Zone.z6 "b".toList)) ≠ maxV6 ∧
      (∀ fuel, 1 < fuel →
        (ipRange.mk ⟨0xfe80 * 2 ^ 112 + 1, Zone.z6 "a".toList⟩
          ⟨0xfe80 * 2 ^ 112 + 1, Zone.z6 "b".toList⟩).Ips fuel = some ["fe80::1%a".toList]) ∧
      (Addr.mk (0xfe80 * 2 ^ 112 + 1) (Zone.z6 "b".toList)).String = "fe80::1%b".toList ∧
      (ipRange.mk ⟨0xfe80 * 2 ^ 112 + 1, Zone.z6 "a".toList⟩
        ⟨0xfe80 * 2 ^ 112 + 1, Zone.z6 "b".toList⟩).Contains
        ⟨0xfe80 * 2 ^ 112 + 1, Zone.z6 "b".toList⟩ = true ∧
      (Addr.mk (0xfe80 * 2 ^ 112 + 1) (Zone.z6 "b".toList)).String ∉ ["fe80::1%a".toList]) := by
  refine ⟨⟨by decide, by decide, by decide, by decide, by decide, by decide, fun fuel hf => ?_,
    by decide, by decide, by decide⟩, ⟨by decide, by decide, by decide, by decide,
    fun fuel hf => ?_, by decide, by decide, by decide⟩⟩
  · exact rangeIpsLoop_ge _ 6 _ _ (by decide) fuel (by omega)
  · exact rangeIpsLoop_ge _ 2 _ _ (by decide) fuel (by omega)

end iprange
